import Mathlib

/-!
# PTA item-text parser: embedding of `src/PTA/itemapi.cpp`

The parser of `ItemAPI` (`readPropInt`, `readPropIntRange`, `readPropFloat`, `readSockets`,
`readName`, `readType`, `parseProp`, `parseStat`, `parse`) is embedded as pure functions.

* A `QString` / `std::string` is a list of characters (`Str`).
* A C++ `int` is an `Int`; arithmetic on it is reduced to 32 bits by `wrapInt`.
* A `double` is an element of a type `F` carrying the operations of `DoubleOps`. The instance
  `Dbl` is the IEEE 754 binary64 format with rounding to nearest, ties to even; the examples
  and the arithmetic statements are about it.
* A nlohmann `json` number is a `NumVal`; a thrown `json::type_error` is `Except.error`.
  Reading an array of a non-const `json` past its end gives `null`, on which `get` throws.
* Member state of `ItemAPI` is passed explicitly (structure `ItemAPI`).
* The headers `itemapi.h`, `pitem.h` and `pta_types.h` are not among the sources: the record
  types and the property schema are modelled from the specification.
-/

namespace PTA

/-- Contents of a `QString` or `std::string`. -/
abbrev Str := List Char

/-! ## String primitives (Qt) -/

/-- Embeds `QString::startsWith`: `pre` is an initial segment of `s`. -/
def startsWith : Str → Str → Bool
  | _, [] => true
  | [], _ :: _ => false
  | c :: cs, p :: ps => c == p && startsWith cs ps

/-- Embeds `QString::endsWith`. -/
def endsWith (s suf : Str) : Bool := startsWith s.reverse suf.reverse

/-- Embeds `QString::contains` for a string argument. -/
def containsStr : Str → Str → Bool
  | [], sub => sub.isEmpty
  | c :: cs, sub => startsWith (c :: cs) sub || containsStr cs sub

/-- Worker of `replaceStr`; the counter skips the rest of a matched occurrence. -/
def replaceAux (before after : Str) : Str → Nat → Str
  | [], _ => []
  | _ :: cs, skip + 1 => replaceAux before after cs skip
  | c :: cs, 0 =>
    if startsWith (c :: cs) before then after ++ replaceAux before after cs (before.length - 1)
    else c :: replaceAux before after cs 0

/-- Embeds `QString::replace(before, after)` for a non-empty `before`: every occurrence, found left to
right without overlap, is replaced. -/
def replaceStr (s before after : Str) : Str := replaceAux before after s 0

/-- Worker of `splitStr`: the head of the result is the field being read. -/
def splitAux (sep : Str) : Str → Nat → List Str
  | [], _ => [[]]
  | _ :: cs, skip + 1 => splitAux sep cs skip
  | c :: cs, 0 =>
    if startsWith (c :: cs) sep then [] :: splitAux sep cs (sep.length - 1)
    else
      match splitAux sep cs 0 with
      | [] => [[c]]
      | p :: ps => (c :: p) :: ps

/-- Embeds `QString::split(sep, QString::KeepEmptyParts)` for a non-empty separator. -/
def splitStr (s sep : Str) : List Str := splitAux sep s 0

/-- Embeds `QString::split(sep, QString::SkipEmptyParts)`. -/
def splitSkipEmpty (s sep : Str) : List Str := (splitStr s sep).filter (fun p => !p.isEmpty)

/-- Embeds `QString::section(sep, k, k)`: field `k` of the split on `sep`, empty when there is none. -/
def sectionStr (s sep : Str) (k : Nat) : Str := (splitStr s sep).getD k []

/-- Replace the first occurrence of the character `c` by `r`
(`s.replace(s.indexOf(c), 1, r)` when `s` contains `c`). -/
def replaceFirst (c : Char) (r : Str) : Str → Str
  | [] => []
  | x :: xs => if x == c then r ++ xs else x :: replaceFirst c r xs

/-- Replace the last occurrence of the character `c` by `r`
(`s.replace(s.lastIndexOf(c), 1, r)` when `s` contains `c`). -/
def replaceLast (c : Char) (r : Str) (s : Str) : Str :=
  (replaceFirst c r.reverse s.reverse).reverse

/-! ## Machine integers -/

/-- Largest C++ `int`. -/
def INT_MAX : Int := 2147483647

/-- Smallest C++ `int`. -/
def INT_MIN : Int := -2147483648

/-- Reduction of an integer to the 32-bit two-complement range. -/
def wrapInt (n : Int) : Int := (n + 2147483648) % 4294967296 - 2147483648

/-- Value of a decimal digit character. -/
def digitVal (c : Char) : Nat := c.toNat - 48

/-- Value of a string of decimal digits. -/
def digitsVal (ds : Str) : Nat := ds.foldl (fun n c => n * 10 + digitVal c) 0

/-- A non-empty string of ASCII digits. -/
def isDigits (ds : Str) : Bool := !ds.isEmpty && ds.all Char.isDigit

/-- The integer, or 0 when it is not a C++ `int` (`QString::toInt` reports failure by 0). -/
def clipInt (n : Int) : Int := if INT_MIN ≤ n ∧ n ≤ INT_MAX then n else 0

/-- Embeds `QString::toInt` on a word without white space: an optional sign and decimal digits;
anything else, and any number outside the `int` range, gives 0. -/
def toInt (w : Str) : Int :=
  match w with
  | '+' :: ds => if isDigits ds then clipInt (digitsVal ds) else 0
  | '-' :: ds => if isDigits ds then clipInt (-(digitsVal ds : Int)) else 0
  | ds => if isDigits ds then clipInt (digitsVal ds) else 0

/-- Embeds `QString::number(int)`: decimal digits, with a leading minus sign for a negative number. -/
def numberStr (n : Int) : Str :=
  if n < 0 then '-' :: Nat.toDigits 10 n.natAbs else Nat.toDigits 10 n.toNat

/-! ## Ranges and sockets -/

/-- Modelled from the spec: `mmv_t` is declared in `pta_types.h`, which is not among the
sources; it is the min-max pair of a range-valued property, two `int` fields. -/
structure mmv_t where
  min : Int
  max : Int
  deriving DecidableEq, Repr

/-- Modelled from the spec: `mmv_t::operator+=`, the element-wise sum of two ranges. -/
def mmv_t.add (a b : mmv_t) : mmv_t := ⟨wrapInt (a.min + b.min), wrapInt (a.max + b.max)⟩

/-- Characters of the class `[\d\.]`. -/
def isNumCh (c : Char) : Bool := c.isDigit || c == '.'

/-- Characters of the class `[\+\-]`. -/
def isSignCh (c : Char) : Bool := c == '+' || c == '-'

/-- The tag removed by the property readers. -/
def augmentedTag : Str := " (augmented)".toList

/-- Capture 1 of `^([\+\-]?[\d\.]+)%?`, when the expression matches. -/
def leadingNumber (s : Str) : Option Str :=
  match s with
  | [] => none
  | c :: cs =>
    if isNumCh c then some (s.takeWhile isNumCh)
    else if isSignCh c && !(cs.takeWhile isNumCh).isEmpty then some (c :: cs.takeWhile isNumCh)
    else none

/-- Embeds `ItemAPI::readPropInt`. -/
def readPropInt (prop : Str) : Int :=
  match leadingNumber (replaceStr prop augmentedTag []) with
  | some w => toInt w
  | none => 0

/-- The single-entry part of `ItemAPI::readPropIntRange`: the tag is removed and
`^(\d+)-(\d+)` is matched. -/
def readRangeSingle (prop : Str) : mmv_t :=
  let p := replaceStr prop augmentedTag []
  let v1 := p.takeWhile Char.isDigit
  match p.dropWhile Char.isDigit with
  | '-' :: r =>
    let v2 := r.takeWhile Char.isDigit
    if !v1.isEmpty && !v2.isEmpty then ⟨toInt v1, toInt v2⟩ else ⟨0, 0⟩
  | _ => ⟨0, 0⟩

/-- The separator of a list of ranges. -/
def listSep : Str := [',', ' ']

/-- Embeds `ItemAPI::readPropIntRange` with a bound on the depth of the recursion. -/
def readPropIntRangeFuel : Nat → Str → mmv_t
  | 0, _ => ⟨0, 0⟩
  | fuel + 1, prop =>
    if containsStr prop listSep then
      (splitSkipEmpty prop listSep).foldl
        (fun val item => val.add (readPropIntRangeFuel fuel item)) ⟨0, 0⟩
    else readRangeSingle prop

/-- Embeds `ItemAPI::readPropIntRange`: an element of a list is shorter than the list, so the length
of the argument bounds the depth. -/
def readPropIntRange (prop : Str) : mmv_t := readPropIntRangeFuel (prop.length + 1) prop

/-- Modelled from the spec: the five per-colour socket counts of `socket_filters_t`
(`pta_types.h` is not among the sources). -/
structure socket_colours where
  r : Nat
  g : Nat
  b : Nat
  w : Nat
  a : Nat
  deriving DecidableEq, Repr

/-- Modelled from the spec: `socket_filters_t`, the link count and the colour counts. -/
structure socket_filters_t where
  links : Nat
  sockets : socket_colours
  deriving DecidableEq, Repr

/-- The `if`/`else if` chain of `readSockets` on one token. -/
def countSocket (ss : socket_filters_t) (s : Str) : socket_filters_t :=
  if s = ['R'] then { ss with sockets := { ss.sockets with r := ss.sockets.r + 1 } }
  else if s = ['G'] then { ss with sockets := { ss.sockets with g := ss.sockets.g + 1 } }
  else if s = ['B'] then { ss with sockets := { ss.sockets with b := ss.sockets.b + 1 } }
  else if s = ['W'] then { ss with sockets := { ss.sockets with w := ss.sockets.w + 1 } }
  else if s = ['A'] then { ss with sockets := { ss.sockets with a := ss.sockets.a + 1 } }
  else ss

/-- The body of the outer loop of `readSockets` on one space-separated group. -/
def readSocketGroup (ss : socket_filters_t) (lpart : Str) : socket_filters_t :=
  let socks := splitSkipEmpty lpart ['-']
  let ss1 := if socks.length > 1 ∧ socks.length > ss.links then { ss with links := socks.length }
             else ss
  socks.foldl countSocket ss1

/-- Embeds `ItemAPI::readSockets`. -/
def readSockets (prop : Str) : socket_filters_t :=
  (splitSkipEmpty prop [' ']).foldl readSocketGroup ⟨0, ⟨0, 0, 0, 0, 0⟩⟩

/-! ## Numbers of a stat line -/

/-- Operations of the C++ type `double` used by the parser. The instance `ieeeDouble` gives
them on the binary64 numbers `Dbl`. -/
class DoubleOps (F : Type) where
  /-- Conversion of an integer to `double`. -/
  ofInt : Int → F
  /-- `QString::toDouble`, which gives 0.0 when the text is not a number. -/
  toDouble : Str → F
  /-- Addition of two `double`s. -/
  add : F → F → F
  /-- Multiplication of two `double`s. -/
  mul : F → F → F
  /-- The cast `(int) x`: truncation toward zero. -/
  toInt : F → Int
  /-- The result of the cast is an `int`. -/
  toInt_range : ∀ x, INT_MIN ≤ toInt x ∧ toInt x ≤ INT_MAX

/-- A `json` number: `number_integer` or `number_float`. -/
inductive NumVal (F : Type) where
  | int (n : Int)
  | flt (x : F)
  deriving DecidableEq, Repr

/-- The exception thrown by `json::get` on a value that is not a number. -/
inductive Exn where
  | type_error
  deriving DecidableEq, Repr

deriving instance DecidableEq for Except

section Doubles

variable {F : Type} [DoubleOps F]

/-- Embeds `json::is_number_float`. -/
def NumVal.is_number_float : NumVal F → Bool
  | .int _ => false
  | .flt _ => true

/-- Embeds `json::get<int>()` on a number. -/
def NumVal.getInt : NumVal F → Int
  | .int n => wrapInt n
  | .flt x => DoubleOps.toInt x

/-- Embeds `json::get<double>()` on a number. -/
def NumVal.getDouble : NumVal F → F
  | .int n => DoubleOps.ofInt n
  | .flt x => x

/-- The flip of one value in `parseStat`: `v * -1.0` or `v * -1`. -/
def negVal (v : NumVal F) : NumVal F :=
  if v.is_number_float then .flt (DoubleOps.mul v.getDouble (DoubleOps.ofInt (-1)))
  else .int (wrapInt (v.getInt * -1))

/-- A piece of a stat line: a character outside every match of `([\+\-]?[\d\.]+)`, or the text
of one match. -/
inductive Tok where
  | lit (c : Char)
  | num (w : Str)
  deriving DecidableEq, Repr

/-- The global match of `([\+\-]?[\d\.]+)`. Every maximal run of digits and dots is one match,
and the match takes the sign character right before the run when there is one; the line is
read from its end so that a character joins the match that starts right after it. -/
def scanNums : Str → List Tok
  | [] => []
  | c :: cs =>
    match scanNums cs with
    | .num (d :: w) :: rest =>
      if isNumCh d then
        if isNumCh c || isSignCh c then .num (c :: d :: w) :: rest
        else .lit c :: .num (d :: w) :: rest
      else if isNumCh c then .num [c] :: .num (d :: w) :: rest
      else .lit c :: .num (d :: w) :: rest
    | rest => if isNumCh c then .num [c] :: rest else .lit c :: rest

/-- The value pushed for one match: a `double` when the word has a dot, an `int` otherwise. -/
def wordVal (w : Str) : NumVal F :=
  if w.contains '.' then .flt (DoubleOps.toDouble w) else .int (toInt w)

/-- The array `val` after the matching loop of `parseStat`. -/
def extractVals (stat : Str) : List (NumVal F) :=
  (scanNums stat).filterMap (fun t => match t with
    | .num w => some (wordVal w)
    | .lit _ => none)

/-- The line after `stat.replace(re, "#")`. -/
def templated (stat : Str) : Str :=
  (scanNums stat).flatMap (fun t => match t with
    | .num _ => ['#']
    | .lit c => [c])

/-! ## Dictionaries and the item record -/

/-- An entry of the modifier dictionary: the `json` object with its `id`, `type` and `text`. -/
structure StatEntry where
  id : Str
  type : Str
  text : Str
  deriving DecidableEq, Repr

/-- A matched modifier of `PItem::filters`: the `json` object built by `parseStat`. -/
structure Filter (F : Type) where
  id : Str
  type : Str
  text : Str
  value : List (NumVal F)
  deriving DecidableEq, Repr

/-- An entry of `PItem::pseudos`: a copy of the `json` value found in `m_stats_by_id`
(`none` is the `null` that `operator[]` creates for an absent id) with a `value` array. -/
structure Pseudo (F : Type) where
  entry : Option StatEntry
  value : List (NumVal F)
  deriving DecidableEq, Repr

/-- A rule of `c_pseudoRules`: the target id, the factor read by `get<double>()`, the operator. -/
structure PseudoRule (F : Type) where
  id : Str
  factor : F
  op : Str
  deriving DecidableEq, Repr

/-- An entry of the unique-item dictionary `m_uniques`; only its `type` is read. -/
structure UniqueEntry where
  type : Str
  deriving DecidableEq, Repr

/-- Order of `std::string` keys in a `json` object: lexicographic. -/
def strLt : Str → Str → Bool
  | [], [] => false
  | [], _ :: _ => true
  | _ :: _, [] => false
  | a :: as, b :: bs => decide (a.toNat < b.toNat) || (a == b && strLt as bs)

/-- Lookup in a `json` object or a map: `find`, or `operator[]` on a key that is present. -/
def lookupKey {α : Type} (k : Str) : List (Str × α) → Option α
  | [] => none
  | (k1, v) :: rest => if k1 = k then some v else lookupKey k rest

/-- Embeds `json::emplace` on an object: the pair is inserted at its place in key order unless
the key is present. -/
def emplaceKey {α : Type} (k : Str) (v : α) : List (Str × α) → List (Str × α)
  | [] => [(k, v)]
  | (k1, v1) :: rest =>
    if k1 = k then (k1, v1) :: rest
    else if strLt k k1 then (k, v) :: (k1, v1) :: rest
    else (k1, v1) :: emplaceKey k v rest

/-- Assignment through the reference `obj[k]` of a key that is present. -/
def assignKey {α : Type} (k : Str) (v : α) : List (Str × α) → List (Str × α)
  | [] => []
  | (k1, v1) :: rest => if k1 = k then (k1, v) :: rest else (k1, v1) :: assignKey k v rest

/-- Modelled from the spec: the weapon facet of `PItem` (`pitem.h` is not among the sources). -/
structure weapon_filters_t (F : Type) where
  pdps : mmv_t
  crit : F
  aps : F
  edps : mmv_t
  deriving DecidableEq, Repr

/-- Modelled from the spec: the armour facet of `PItem`. -/
structure armour_filters_t where
  ar : Int
  ev : Int
  es : Int
  block : Int
  deriving DecidableEq, Repr

/-- Modelled from the spec: the requirement facet of `PItem`. -/
structure req_filters_t where
  lvl : Int
  str : Int
  dex : Int
  intl : Int
  deriving DecidableEq, Repr

/-- Modelled from the spec: the misc facet of `PItem`. -/
structure misc_filters_t where
  quality : Int
  gem_level : Int
  ilvl : Int
  gem_level_progress : Int
  identified : Bool
  corrupted : Bool
  shaper_item : Bool
  elder_item : Bool
  deriving DecidableEq, Repr

/-- Modelled from the spec: the type facet of `PItem`. -/
structure type_filters_t where
  rarity : Str
  category : Str
  deriving DecidableEq, Repr

/-- Modelled from the spec: the item record `PItem` (`pitem.h` is not among the sources), with
the members that `itemapi.cpp` reads and writes. -/
structure PItem (F : Type) where
  name : Str
  type : Str
  f_type : type_filters_t
  f_weapon : weapon_filters_t F
  f_armour : armour_filters_t
  f_socket : socket_filters_t
  f_req : req_filters_t
  f_misc : misc_filters_t
  is_weapon : Bool
  is_armour : Bool
  filters : List (Str × Filter F)
  pseudos : List (Str × Pseudo F)
  m_sections : Int
  m_itemtext : Str
  m_options : Str
  deriving DecidableEq, Repr

/-- Modelled from the spec: the record made by `new PItem()`: empty strings, zero numbers, no
filter, the item identified and not corrupted. -/
def newPItem : PItem F :=
  { name := [], type := [], f_type := ⟨[], []⟩,
    f_weapon := ⟨⟨0, 0⟩, DoubleOps.ofInt 0, DoubleOps.ofInt 0, ⟨0, 0⟩⟩,
    f_armour := ⟨0, 0, 0, 0⟩, f_socket := ⟨0, ⟨0, 0, 0, 0, 0⟩⟩, f_req := ⟨0, 0, 0, 0⟩,
    f_misc := ⟨0, 0, 0, 0, true, false, false, false⟩,
    is_weapon := false, is_armour := false, filters := [], pseudos := [],
    m_sections := 0, m_itemtext := [], m_options := [] }

/-- Modelled from the spec: the field selectors of the weapon facet (`pta_types.h`). -/
inductive WeaponField where
  | weapon_filter_pdps | weapon_filter_crit | weapon_filter_aps | weapon_filter_edps
  deriving DecidableEq, Repr

/-- Modelled from the spec: the field selectors of the armour facet. -/
inductive ArmourField where
  | armour_filter_ar | armour_filter_ev | armour_filter_es | armour_filter_block
  deriving DecidableEq, Repr

/-- Modelled from the spec: the field selectors of the requirement facet. -/
inductive ReqField where
  | req_filter_lvl | req_filter_str | req_filter_dex | req_filter_int
  deriving DecidableEq, Repr

/-- Modelled from the spec: the field selectors of the misc facet. -/
inductive MiscField where
  | misc_filter_quality | misc_filter_gem_level | misc_filter_ilvl
  | misc_filter_gem_level_progress
  deriving DecidableEq, Repr

/-- Modelled from the spec: a value of the property schema `c_propMap`, the pair of a facet
(`pev[0]`) and a field (`pev[1]`); `none` is a field code that no `case` of the inner switch
names, `other` a facet code that no `case` of the outer switch names. -/
inductive PropSel where
  | weapon_filter (f : Option WeaponField)
  | armour_filter (f : Option ArmourField)
  | socket_filter
  | req_filter (f : Option ReqField)
  | misc_filter (f : Option MiscField)
  | special_filter
  | other
  deriving DecidableEq, Repr

/-- The members of `ItemAPI` that the parser reads and writes. A multimap is the list of its
pairs in iteration order; `m_stats_by_id` maps an id to a `json` value. The schema `c_propMap`
is declared in a header that is not among the sources and is taken as given. -/
structure ItemAPI (F : Type) where
  m_stats_by_text : List (Str × StatEntry)
  m_stats_by_id : List (Str × Option StatEntry)
  m_uniques : List (Str × UniqueEntry)
  c_baseMap : List (Str × Str)
  c_pseudoRules : List (Str × List (PseudoRule F))
  c_propMap : List (Str × PropSel)
  m_section : Str
  deriving DecidableEq, Repr

/-! ## The stat line matcher `ItemAPI::parseStat` -/

/-- Embeds `m_stats_by_text.contains(stoken)`. -/
def hasKey (m_stats_by_text : List (Str × StatEntry)) (stoken : Str) : Bool :=
  m_stats_by_text.any (fun e => e.1 == stoken)

/-- Embeds `m_stats_by_text.equal_range(stoken)`: the entries stored under the key, in
iteration order. -/
def equalRange (m_stats_by_text : List (Str × StatEntry)) (stoken : Str) : List StatEntry :=
  (m_stats_by_text.filter (fun e => e.1 == stoken)).map Prod.snd

/-- Number of placeholders in a line. -/
def countHash (s : Str) : Nat := s.count '#'

/-- The "reverse replace search" loop. The first argument bounds the iterations by the number
of placeholders, one of which disappears at each iteration. The array `val` is only changed
when a key is found: the result is the key and the array without its last value. -/
def reverseSearch (stats : List (Str × StatEntry)) (val : List (NumVal F)) : Nat → Str → Option (Str × List (NumVal F))
  | 0, _ => none
  | n + 1, reverse_repl_stat =>
    if reverse_repl_stat.contains '#' && !val.isEmpty then
      match val.getLast? with
      | none => none
      | some last =>
        let next := replaceLast '#' (numberStr last.getInt) reverse_repl_stat
        if hasKey stats next then some (next, val.dropLast)
        else reverseSearch stats val n next
    else none

/-- The "forward replace search" loop, as `reverseSearch` from the front of the line and of the
array. -/
def forwardSearch (stats : List (Str × StatEntry)) (val : List (NumVal F)) : Nat → Str → Option (Str × List (NumVal F))
  | 0, _ => none
  | n + 1, forward_repl_stat =>
    if forward_repl_stat.contains '#' && !val.isEmpty then
      match val with
      | [] => none
      | first :: others =>
        let next := replaceFirst '#' (numberStr first.getInt) forward_repl_stat
        if hasKey stats next then some (next, others)
        else forwardSearch stats val n next
    else none

/-- The word looked for by the flip. -/
def reducedWord : Str := "reduced".toList

/-- The word written by the flip. -/
def increasedWord : Str := "increased".toList

/-- The line and the values after the "reduced" flip of `parseStat`, with the outcome of the
last lookup: the templated line is looked up, and when it is no key, there is a value and the
line contains "reduced", the line is rewritten, the values are flipped and the new line is
looked up. -/
def flipReduced (stats : List (Str × StatEntry)) (stat : Str) (val : List (NumVal F)) :
    Bool × Str × List (NumVal F) :=
  if !hasKey stats stat && !val.isEmpty && containsStr stat reducedWord then
    let flipped := replaceStr stat reducedWord increasedWord
    (hasKey stats flipped, flipped, val.map negVal)
  else (hasKey stats stat, stat, val)

/-- The lookups of `parseStat` in `m_stats_by_text` from the extraction of the values to the try of the original
line: the key `stoken` that was found with the array `val` at that moment, or `none` when
`found` is still false. The argument `stat` is the line without its crafted tag. -/
def findKey (stats : List (Str × StatEntry)) (orig_stat stat : Str) : Option (Str × List (NumVal F)) :=
  match flipReduced stats (templated stat) (extractVals stat) with
  | (true, stat1, val) => some (stat1, val)
  | (false, stat1, val) =>
    match reverseSearch stats val (countHash stat1) stat1 with
    | some r => some r
    | none =>
      match forwardSearch stats val (countHash stat1) stat1 with
      | some r => some r
      | none => if hasKey stats orig_stat then some (orig_stat, []) else none

/-- The kind of a crafted modifier. -/
def craftedKind : Str := "crafted".toList

/-- The kind of a pseudo modifier. -/
def pseudoKind : Str := "pseudo".toList

/-- The kind of an implicit modifier. -/
def implicitKind : Str := "implicit".toList

/-- The kind of an explicit modifier. -/
def explicitKind : Str := "explicit".toList

/-- The object written into `filter` for an entry. -/
def mkFilter (entry : StatEntry) (val : List (NumVal F)) : Filter F :=
  ⟨entry.id, entry.type, entry.text, val⟩

/-- The loop of `parseStat` over the range of the key; the last argument is `filter`, `none`
while it is empty. -/
def selectEntry (stat_is_crafted : Bool) (val : List (NumVal F)) :
    List StatEntry → Option (Filter F) → Option (Filter F)
  | [], filter => filter
  | entry :: rest, filter =>
    if stat_is_crafted then
      if entry.type ≠ craftedKind then selectEntry stat_is_crafted val rest filter
      else some (mkFilter entry val)
    else if entry.type = pseudoKind then selectEntry stat_is_crafted val rest filter
    else
      match filter with
      | some f =>
        if f.type = implicitKind ∧ entry.type = explicitKind then
          selectEntry stat_is_crafted val rest (some (mkFilter entry val))
        else selectEntry stat_is_crafted val rest filter
      | none => selectEntry stat_is_crafted val rest (some (mkFilter entry val))

/-- The merge loop of `parseStat` over the indices of the stored array `efil["value"]`. An
index past the end of the new array reads a `null`, on which `get` throws. -/
def mergeValues : List (NumVal F) → List (NumVal F) → Except Exn (List (NumVal F))
  | [], _ => .ok []
  | _ :: _, [] => .error .type_error
  | e :: es, v :: vs =>
    match mergeValues es vs with
    | .error x => .error x
    | .ok rest =>
      if e.is_number_float then .ok (.flt (DoubleOps.add e.getDouble v.getDouble) :: rest)
      else .ok (.int (wrapInt (e.getInt + v.getInt)) :: rest)

/-- The end of `parseStat`: the selected filter is merged into the filter of the same id, or
added to `item->filters`. -/
def storeFilter (filters : List (Str × Filter F)) (filter : Filter F) :
    Except Exn (List (Str × Filter F)) :=
  match lookupKey filter.id filters with
  | some efil =>
    match mergeValues efil.value filter.value with
    | .error x => .error x
    | .ok merged => .ok (assignKey filter.id { efil with value := merged } filters)
  | none => .ok (emplaceKey filter.id filter filters)

/-- The tag of a crafted line. -/
def craftedTag : Str := "(crafted)".toList

/-- The tag removed from a crafted line. -/
def craftedTagSp : Str := " (crafted)".toList

/-- What a call of the parser returns: its result, the item and the members of `ItemAPI`. -/
abbrev StatResult (F : Type) := Except Exn (Bool × PItem F × ItemAPI F)

/-- The body of `ItemAPI::parseStat`; `recur` stands for the recursive call
`parseStat(item, combstat, true)`. -/
def parseStatBody (recur : ItemAPI F → PItem F → Str → StatResult F)
    (api : ItemAPI F) (item : PItem F) (stat : Str) (multiline : Bool) : StatResult F :=
  let orig_stat := stat
  if stat = "Unidentified".toList then
    .ok (true, { item with f_misc := { item.f_misc with identified := false } }, api)
  else if stat = "Shaper Item".toList then
    .ok (true, { item with f_misc := { item.f_misc with shaper_item := true } }, api)
  else if stat = "Elder Item".toList then
    .ok (true, { item with f_misc := { item.f_misc with elder_item := true } }, api)
  else if stat = "Corrupted".toList then
    .ok (true, { item with f_misc := { item.f_misc with corrupted := true } }, api)
  else
    let stat_is_crafted := endsWith stat craftedTag
    match findKey api.m_stats_by_text orig_stat (replaceStr stat craftedTagSp []) with
    | none =>
      if !multiline then
        if api.m_section.isEmpty then .ok (false, item, { api with m_section := orig_stat })
        else
          match recur api item (api.m_section ++ '\n' :: orig_stat) with
          | .error x => .error x
          | .ok (result, item1, api1) =>
            if result then .ok (result, item1, { api1 with m_section := [] })
            else .ok (result, item1, { api1 with m_section := orig_stat })
      else .ok (false, item, api)
    | some (stoken, val) =>
      let api1 := if !api.m_section.isEmpty then { api with m_section := [] } else api
      match selectEntry stat_is_crafted val (equalRange api1.m_stats_by_text stoken) none with
      | none => .ok (false, item, api1)
      | some filter =>
        match storeFilter item.filters filter with
        | .error x => .error x
        | .ok filters => .ok (true, { item with filters := filters }, api1)

/-- The recursive call of `parseStat`: its `multiline` argument is true, so the body makes no
further call and its `recur` argument is never used. -/
def parseStatCombined (api : ItemAPI F) (item : PItem F) (combstat : Str) : StatResult F :=
  parseStatBody (fun a i _ => .ok (false, i, a)) api item combstat true

/-- Embeds `ItemAPI::parseStat`. -/
def parseStat (api : ItemAPI F) (item : PItem F) (stat : Str) (multiline : Bool) : StatResult F :=
  parseStatBody parseStatCombined api item stat multiline

/-! ## The property line parser `ItemAPI::parseProp` -/

/-- Embeds `ItemAPI::readPropFloat`. -/
def readPropFloat (prop : Str) : F :=
  match leadingNumber (replaceStr prop augmentedTag []) with
  | some w => DoubleOps.toDouble w
  | none => DoubleOps.ofInt 0

/-- Embeds `ItemAPI::readPropExp`. -/
def readPropExp (_prop : Str) : Int := 0

/-- The section marker written by a "Requirements" line. -/
def requirementsKey : Str := "Requirements".toList

/-- The body of `ItemAPI::parseProp`; `recur` stands for the recursive call
`parseProp(item, cprop)`. -/
def parsePropBody (recur : ItemAPI F → PItem F → Str → PItem F × ItemAPI F)
    (api : ItemAPI F) (item : PItem F) (prop : Str) : PItem F × ItemAPI F :=
  let p := sectionStr prop [':'] 0
  let v := sectionStr prop [':', ' '] 1
  match lookupKey p api.c_propMap with
  | none => (item, api)
  | some pev =>
    match pev with
    | .weapon_filter f =>
      let w := item.f_weapon
      let w1 := match f with
        | some .weapon_filter_pdps => { w with pdps := readPropIntRange v }
        | some .weapon_filter_crit => { w with crit := readPropFloat v }
        | some .weapon_filter_aps => { w with aps := readPropFloat v }
        | some .weapon_filter_edps => { w with edps := readPropIntRange v }
        | none => w
      ({ item with f_weapon := w1, is_weapon := true }, api)
    | .armour_filter f =>
      let a := item.f_armour
      let a1 := match f with
        | some .armour_filter_ar => { a with ar := readPropInt v }
        | some .armour_filter_ev => { a with ev := readPropInt v }
        | some .armour_filter_es => { a with es := readPropInt v }
        | some .armour_filter_block => { a with block := readPropInt v }
        | none => a
      ({ item with f_armour := a1, is_armour := true }, api)
    | .socket_filter => ({ item with f_socket := readSockets v }, api)
    | .req_filter f =>
      let r := item.f_req
      let r1 := match f with
        | some .req_filter_lvl => { r with lvl := readPropInt v }
        | some .req_filter_str => { r with str := readPropInt v }
        | some .req_filter_dex => { r with dex := readPropInt v }
        | some .req_filter_int => { r with intl := readPropInt v }
        | none => r
      ({ item with f_req := r1 }, api)
    | .misc_filter f =>
      let m := item.f_misc
      let m1 := match f with
        | some .misc_filter_quality => { m with quality := readPropInt v }
        | some .misc_filter_gem_level => { m with gem_level := readPropInt v }
        | some .misc_filter_ilvl => { m with ilvl := readPropInt v }
        | some .misc_filter_gem_level_progress => { m with gem_level_progress := readPropExp v }
        | none => m
      ({ item with f_misc := m1 }, api)
    | .special_filter =>
      if p = requirementsKey then (item, { api with m_section := requirementsKey })
      else if p = "Level".toList then
        let fprop := if api.m_section = requirementsKey then "req_level: ".toList
                     else "gem_level: ".toList
        recur api item (fprop ++ v)
      else (item, api)
    | .other => (item, api)

/-- The recursive call of `parseProp`: its key is "req_level" or "gem_level", not "Level", so
the body makes no further call and its `recur` argument is never used. -/
def parsePropInner (api : ItemAPI F) (item : PItem F) (cprop : Str) : PItem F × ItemAPI F :=
  parsePropBody (fun a i _ => (i, a)) api item cprop

/-- Embeds `ItemAPI::parseProp`. -/
def parseProp (api : ItemAPI F) (item : PItem F) (prop : Str) : PItem F × ItemAPI F :=
  parsePropBody parsePropInner api item prop

/-! ## The item assembler `ItemAPI::parse` -/

/-- The lines that `QTextStream::readLineInto` reads one after the other: a line ends at a
line feed, and a carriage return right before the line feed or at the end of the text is not
part of the line. -/
def readLines : Str → List Str
  | [] => []
  | c :: cs =>
    if c = '\n' then [] :: readLines cs
    else
      match readLines cs with
      | [] => if c = '\r' then [[]] else [[c]]
      | l :: ls => if c = '\r' ∧ cs.head? = some '\n' then l :: ls else (c :: l) :: ls

/-- The marker removed by `readName` and `readType`. -/
def setMarker : Str := "<<set:MS>><<set:M>><<set:S>>".toList

/-- Embeds `ItemAPI::readName`. -/
def readName (name : Str) : Str := replaceStr name setMarker []

/-- Characters of the class `\s`. -/
def isSpaceCh (c : Char) : Bool :=
  c == ' ' || c == '\t' || c == '\n' || c == '\r' || c.toNat == 11 || c.toNat == 12

/-- Characters of the class `\w`. -/
def isWordCh (c : Char) : Bool := c.isAlphanum || c == '_'

/-- Capture 1 of `^\S+ ([\w\s]+) of \w+$` on a text without a final line feed: a first word,
a space, the capture, " of " and a last word, when the text has that shape. -/
def magicBase (s : Str) : Option Str :=
  let first := s.takeWhile (fun c => !isSpaceCh c)
  match s.dropWhile (fun c => !isSpaceCh c) with
  | ' ' :: t =>
    let last := (t.reverse.takeWhile isWordCh).reverse
    let front := (t.reverse.dropWhile isWordCh).reverse
    let g := front.take (front.length - 4)
    if !first.isEmpty && !last.isEmpty && endsWith front " of ".toList
        && !g.isEmpty && g.all (fun c => isWordCh c || isSpaceCh c) then some g
    else none
  | _ => none

/-- Embeds `ItemAPI::readType`; the dollar of the expression also matches before a final line
feed. -/
def readType (item : PItem F) (type : Str) : Str :=
  let type1 := replaceStr (replaceStr type setMarker []) "Superior ".toList []
  if item.f_type.rarity = "Magic".toList then
    let body := if type1.getLast? = some '\n' then type1.dropLast else type1
    match magicBase body with
    | some g => g
    | none => type1
  else type1

/-- One value of a new pseudo entry: `v * factor`, cast to `int` for an integer `v`; the
cast gives an `int` (`DoubleOps.toInt_range`). -/
def scaleVal (factor : F) (v : NumVal F) : NumVal F :=
  if v.is_number_float then .flt (DoubleOps.mul v.getDouble factor)
  else .int (DoubleOps.toInt (DoubleOps.mul (DoubleOps.ofInt v.getInt) factor))

/-- The "add" loop of `parse` over the indices of the array of the filter (second argument);
the first argument is the array of the pseudo entry, in which an index past the end reads a
`null`, on which `get` throws. -/
def accumulateVals (factor : F) : List (NumVal F) → List (NumVal F) → Except Exn (List (NumVal F))
  | ps, [] => .ok ps
  | [], _ :: _ => .error .type_error
  | p :: ps, v :: vs =>
    match accumulateVals factor ps vs with
    | .error x => .error x
    | .ok rest =>
      if v.is_number_float then
        .ok (.flt (DoubleOps.add p.getDouble (DoubleOps.mul v.getDouble factor)) :: rest)
      else
        .ok (.int (wrapInt (p.getInt +
          DoubleOps.toInt (DoubleOps.mul (DoubleOps.ofInt v.getInt) factor))) :: rest)

/-- Embeds `m_stats_by_id[pid]`: the value stored for the id, and the map afterwards; an absent
id is added with a `null` value. -/
def statsByIdAt (pid : Str) (m : List (Str × Option StatEntry)) :
    Option StatEntry × List (Str × Option StatEntry) :=
  match lookupKey pid m with
  | some e => (e, m)
  | none => (none, m ++ [(pid, none)])

/-- The operator of a pseudo rule that `parse` supports. -/
def addOp : Str := "add".toList

/-- The body of the loop of `parse` over the rules of one filter: the state is the map
`m_stats_by_id` and `item->pseudos`. -/
def applyRule (fil : Filter F) (st : List (Str × Option StatEntry) × List (Str × Pseudo F))
    (r : PseudoRule F) : Except Exn (List (Str × Option StatEntry) × List (Str × Pseudo F)) :=
  let pid := r.id
  let (pentry, byId) := statsByIdAt pid st.1
  match lookupKey pid st.2 with
  | none => .ok (byId, emplaceKey pid ⟨pentry, fil.value.map (scaleVal r.factor)⟩ st.2)
  | some ps_entry =>
    if r.op = addOp then
      match accumulateVals r.factor ps_entry.value fil.value with
      | .error x => .error x
      | .ok vals => .ok (byId, assignKey pid { ps_entry with value := vals } st.2)
    else .ok (byId, st.2)

/-- The loop of `parse` over the rules of one filter. -/
def applyRules (fil : Filter F) :
    List (PseudoRule F) → List (Str × Option StatEntry) × List (Str × Pseudo F) →
    Except Exn (List (Str × Option StatEntry) × List (Str × Pseudo F))
  | [], st => .ok st
  | r :: rs, st =>
    match applyRule fil st r with
    | .error x => .error x
    | .ok st1 => applyRules fil rs st1

/-- The loop of `parse` over `item->filters.items()`. -/
def applyPseudoRules (rules : List (Str × List (PseudoRule F))) :
    List (Str × Filter F) → List (Str × Option StatEntry) × List (Str × Pseudo F) →
    Except Exn (List (Str × Option StatEntry) × List (Str × Pseudo F))
  | [], st => .ok st
  | (key, fil) :: rest, st =>
    match lookupKey key rules with
    | none => applyPseudoRules rules rest st
    | some rs =>
      match applyRules fil rs st with
      | .error x => .error x
      | .ok st1 => applyPseudoRules rules rest st1

/-- The start of a separator line. -/
def separator : Str := ['-', '-', '-']

/-- The body of the loop of `parse` over the lines after the name and the type. -/
def parseLine (st : PItem F × ItemAPI F) (line : Str) : Except Exn (PItem F × ItemAPI F) :=
  let (item, api) := st
  if startsWith line separator then
    .ok ({ item with m_sections := item.m_sections + 1 }, { api with m_section := [] })
  else if containsStr line [':'] then .ok (parseProp api item line)
  else if item.m_sections > 1 then
    match parseStat api item line false with
    | .error x => .error x
    | .ok (_, item1, api1) => .ok (item1, api1)
  else .ok (item, api)

/-- The loop of `parse` over the lines after the name and the type. -/
def parseBody : List Str → PItem F × ItemAPI F → Except Exn (PItem F × ItemAPI F)
  | [], st => .ok st
  | line :: rest, st =>
    match parseLine st line with
    | .error x => .error x
    | .ok st1 => parseBody rest st1

/-- The category that `parse` derives from the rarity, the type and the unique-item
dictionary, before it reads the body. -/
def processCategory (api : ItemAPI F) (item : PItem F) : PItem F :=
  let item1 :=
    if item.f_type.rarity = "Gem".toList then
      { item with f_type := { item.f_type with category := "gem".toList } }
    else if item.f_type.rarity = "Divination Card".toList then
      { item with f_type := ⟨"card".toList, "card".toList⟩ }
    else item
  let item2 :=
    if endsWith item1.type "Map".toList then
      { item1 with f_type := { item1.f_type with category := "map".toList } }
    else item1
  if item2.f_type.category.isEmpty then
    match lookupKey item2.type api.m_uniques with
    | some je =>
      if je.type = "Prophecy".toList then
        { item2 with name := item2.type, type := "prophecy".toList,
                     f_type := { item2.f_type with category := "prophecy".toList } }
      else item2
    | none => item2
  else item2

/-- The fallback of `parse` on the base-item category map. -/
def baseCategory (api : ItemAPI F) (item : PItem F) : PItem F :=
  if item.f_type.category.isEmpty then
    match lookupKey item.type api.c_baseMap with
    | some cat => { item with f_type := { item.f_type with category := cat } }
    | none => item
  else item

/-- The marker of the first line of an item text. -/
def rarityMarker : Str := "Rarity:".toList

/-- Embeds `ItemAPI::parse`: `none` is the null pointer; the members of `ItemAPI` after the call
are returned with the record. -/
def parse (api : ItemAPI F) (itemText : Str) : Except Exn (Option (PItem F) × ItemAPI F) :=
  let lines := readLines itemText
  let line := lines.getD 0 []
  if !startsWith line rarityMarker then .ok (none, api)
  else
    let item0 : PItem F :=
      { (newPItem : PItem F) with
        m_itemtext := itemText,
        f_type := { (newPItem : PItem F).f_type with rarity := sectionStr line [':', ' '] 1 } }
    let nametype := lines.getD 1 []
    let type := lines.getD 2 []
    let item1 :=
      if startsWith type separator then { item0 with type := readType item0 nametype }
      else { item0 with name := readName nametype, type := readType item0 type }
    match parseBody (lines.drop 3) (processCategory api item1, api) with
    | .error x => .error x
    | .ok (item2, api2) =>
      let item3 := baseCategory api2 item2
      match applyPseudoRules api2.c_pseudoRules item3.filters (api2.m_stats_by_id, item3.pseudos) with
      | .error x => .error x
      | .ok (byId, pseudos) =>
        .ok (some { item3 with pseudos := pseudos }, { api2 with m_stats_by_id := byId })

end Doubles

/-! ## The type `double` -/

/-- A value of the C++ type `double`, an IEEE 754 binary64 number. A finite value is
`(-1)^neg * mant * 2^exp`; the operations return it with `mant < 2^53`, `-1074 ≤ exp ≤ 971`,
and `2^52 ≤ mant` unless `exp = -1074` (the zeros and the subnormal numbers). -/
inductive Dbl where
  | fin (neg : Bool) (mant : Nat) (exp : Int)
  | inf (neg : Bool)
  | nan
  deriving DecidableEq, Repr

/-- First worker of `ilog2`: the least `k`, from the given one on, with `n < 2 ^ 2 ^ k`. -/
def ilog2Up : Nat → Nat → Nat → Nat
  | 0, k, _ => k
  | fuel + 1, k, n => if n < 2 ^ 2 ^ k then k else ilog2Up fuel (k + 1) n

/-- Second worker of `ilog2`: the binary logarithm of a number below `2 ^ 2 ^ k`, found bit
by bit from the highest bit of the result. -/
def ilog2Down : Nat → Nat → Nat
  | 0, _ => 0
  | k + 1, n =>
    if 2 ^ 2 ^ k ≤ n then 2 ^ k + ilog2Down k (n / 2 ^ 2 ^ k) else ilog2Down k n

/-- The integer part of the binary logarithm of a positive number. -/
def ilog2 (n : Nat) : Nat := ilog2Down (ilog2Up n 0 n) n

/-- The zero of the given sign. -/
def Dbl.zero (neg : Bool) : Dbl := .fin neg 0 (-1074)

/-- The binary exponent of a positive rational `num / den`: the integer `lg` with
`2^lg ≤ num / den < 2^(lg + 1)`. -/
def binExp (num den : Nat) : Int :=
  let t : Int := (ilog2 num : Int) - (ilog2 den : Int)
  if den * 2 ^ t.toNat ≤ num * 2 ^ (-t).toNat then t else t - 1

/-- The rational `num / den` in units of `2^e`, rounded to the nearest integer, a tie going
to the even one. -/
def roundUnits (num den : Nat) (e : Int) : Nat :=
  let n1 := num * 2 ^ (-e).toNat
  let d1 := den * 2 ^ e.toNat
  let m := n1 / d1
  let r := n1 % d1
  if d1 < 2 * r ∨ (2 * r = d1 ∧ m % 2 = 1) then m + 1 else m

/-- Rounding to nearest, ties to even: the `double` of the given sign nearest to the
rational `num / den` (`den > 0`), and an infinity when that rational is too large. The unit
`2^e` of the result leaves 53 bits to the mantissa, and is not less than `2^-1074`. -/
def Dbl.round (neg : Bool) (num den : Nat) : Dbl :=
  if num = 0 then Dbl.zero neg
  else
    let e : Int := max (binExp num den - 52) (-1074)
    let m := roundUnits num den e
    if m = 2 ^ 53 then (if 971 < e + 1 then .inf neg else .fin neg (2 ^ 52) (e + 1))
    else if 971 < e then .inf neg else .fin neg m e

/-- The `double` nearest to `mant * 2^exp`, with the given sign. -/
def Dbl.ofScaled (neg : Bool) (mant : Nat) (exp : Int) : Dbl :=
  Dbl.round neg (mant * 2 ^ exp.toNat) (2 ^ (-exp).toNat)

/-- The conversion of an `int` to `double`, which is exact. -/
def Dbl.ofInt (n : Int) : Dbl := Dbl.round (decide (n < 0)) n.natAbs 1

/-- The product of two `double`s. -/
def Dbl.mul : Dbl → Dbl → Dbl
  | .nan, _ => .nan
  | _, .nan => .nan
  | .inf s, .inf t => .inf (s != t)
  | .inf s, .fin t n _ => if n = 0 then .nan else .inf (s != t)
  | .fin s m _, .inf t => if m = 0 then .nan else .inf (s != t)
  | .fin s m e, .fin t n f => Dbl.ofScaled (s != t) (m * n) (e + f)

/-- The sum of two `double`s. -/
def Dbl.add : Dbl → Dbl → Dbl
  | .nan, _ => .nan
  | _, .nan => .nan
  | .inf s, .inf t => if s = t then .inf s else .nan
  | .inf s, .fin _ _ _ => .inf s
  | .fin _ _ _, .inf t => .inf t
  | .fin s m e, .fin t n f =>
    let g : Int := min e f
    let a : Int := if s then -((m * 2 ^ (e - g).toNat : Nat) : Int) else ((m * 2 ^ (e - g).toNat : Nat) : Int)
    let b : Int := if t then -((n * 2 ^ (f - g).toNat : Nat) : Int) else ((n * 2 ^ (f - g).toNat : Nat) : Int)
    if a + b = 0 then Dbl.zero (s && t)
    else Dbl.ofScaled (decide (a + b < 0)) (a + b).natAbs g

/-- The cast `(int) x`: the value without its fractional part. The cast of a value outside the
range of `int`, of an infinity or of a NaN is undefined in C++; the x86-64 conversion gives
the smallest `int`, and so does this definition. -/
def Dbl.toInt : Dbl → Int
  | .fin s m e =>
    let mag : Nat := if 0 ≤ e then m * 2 ^ e.toNat else m / 2 ^ (-e).toNat
    let v : Int := if s then -(mag : Int) else (mag : Int)
    if INT_MIN ≤ v ∧ v ≤ INT_MAX then v else INT_MIN
  | _ => INT_MIN

/-- Embeds `QString::toDouble` on a word of signs, digits and dots: an optional sign and
decimal digits with at most one dot and at least one digit give the nearest `double`, and an
infinity on overflow; any other text gives 0.0, by which the function reports failure, and so
does a number with a digit other than 0 that is rounded to zero. -/
def Dbl.parse (w : Str) : Dbl :=
  let body := if w.head? = some '-' ∨ w.head? = some '+' then w.drop 1 else w
  let ip := body.takeWhile Char.isDigit
  let rest := body.dropWhile Char.isDigit
  let fp := rest.drop 1
  if (rest.isEmpty || (rest.head? = some '.' && fp.all Char.isDigit))
      && !(ip.isEmpty && fp.isEmpty) then
    let d := Dbl.round (decide (w.head? = some '-')) (digitsVal (ip ++ fp)) (10 ^ fp.length)
    if d = Dbl.zero true ∧ digitsVal (ip ++ fp) ≠ 0 then Dbl.zero false else d
  else Dbl.zero false

/-- The operations of the parser on the type `double`. -/
instance ieeeDouble : DoubleOps Dbl where
  ofInt := Dbl.ofInt
  toDouble := Dbl.parse
  add := Dbl.add
  mul := Dbl.mul
  toInt := Dbl.toInt
  toInt_range := by
    intro x
    have h0 : INT_MIN ≤ INT_MIN ∧ INT_MIN ≤ INT_MAX := by decide
    cases x with
    | fin s m e =>
      simp only [Dbl.toInt]
      split_ifs <;> assumption
    | inf s => exact h0
    | nan => exact h0

/-! ## Vocabulary of the statements -/

/-- The four fixed lines that `parseStat` handles before any lookup. -/
def flagStats : List Str :=
  ["Unidentified".toList, "Shaper Item".toList, "Elder Item".toList, "Corrupted".toList]

/-- The line that `parseStat` hands to its lookups: the line without its crafted tags. -/
def stripCrafted (stat : Str) : Str := replaceStr stat craftedTagSp []

/-! ## Concrete inputs -/

/-- A pair of `m_stats_by_text`: an entry stored under its own text. -/
def entryOf (id type text : String) : Str × StatEntry :=
  (text.toList, ⟨id.toList, type.toList, text.toList⟩)

/-- The members of an `ItemAPI` with the given modifier dictionary and pending line, and no
other table. -/
def apiOf (stats : List (Str × StatEntry)) (held : Str) : ItemAPI Dbl :=
  { m_stats_by_text := stats, m_stats_by_id := [], m_uniques := [], c_baseMap := [],
    c_pseudoRules := [], c_propMap := [], m_section := held }

/-- A record with the given filters and nothing else. -/
def itemOf (filters : List (Str × Filter Dbl)) : PItem Dbl :=
  { (newPItem : PItem Dbl) with filters := filters }

/-- A dictionary whose only template starts with a line feed. -/
def statsLeadingFeed : List (Str × StatEntry) := [entryOf "X" "explicit" "\nfoo"]

/-- A dictionary with one two-line template. -/
def statsTwoLines : List (Str × StatEntry) := [entryOf "X" "explicit" "foo\nbar #"]

/-- A dictionary with one template of one placeholder. -/
def statsOne : List (Str × StatEntry) := [entryOf "X" "explicit" "x # y"]

/-- A dictionary with one template of two placeholders. -/
def statsTwo : List (Str × StatEntry) := [entryOf "X" "explicit" "x # y #"]

/-- A filter of id "X" with the given values. -/
def filterX (text : String) (value : List (NumVal Dbl)) : Str × Filter Dbl :=
  ("X".toList, ⟨"X".toList, "explicit".toList, text.toList, value⟩)

/-- A dictionary with one "increased" template. -/
def statsIncreased : List (Str × StatEntry) := [entryOf "X" "explicit" "#% increased Y"]

/-- A dictionary with the templates "a #", "b # #" and "c #", of ids "A", "B" and "C". -/
def statsABC : List (Str × StatEntry) :=
  [entryOf "A" "explicit" "a #", entryOf "B" "explicit" "b # #", entryOf "C" "explicit" "c #"]

/-- The pseudo rule of target "Y", factor 0.5 and operator "add". -/
def ruleY : PseudoRule Dbl :=
  ⟨"Y".toList, Dbl.fin false 4503599627370496 (-53), "add".toList⟩

/-- The entry of the target "Y" in the id dictionary. -/
def entryY : StatEntry := ⟨"Y".toList, "pseudo".toList, "y #".toList⟩

/-- The members of an `ItemAPI` in which the filters "A", "B" and "C" all feed the pseudo
"Y". -/
def apiPseudo : ItemAPI Dbl :=
  { m_stats_by_text := statsABC, m_stats_by_id := [("Y".toList, some entryY)], m_uniques := [],
    c_baseMap := [],
    c_pseudoRules := [("A".toList, [ruleY]), ("B".toList, [ruleY]), ("C".toList, [ruleY])],
    c_propMap := [], m_section := [] }

/-- The pseudos of the record that `parse` returns, when it returns one. -/
def pseudosOf (r : Except Exn (Option (PItem Dbl) × ItemAPI Dbl)) : Option (List (Str × Pseudo Dbl)) :=
  match r with
  | .ok (some item, _) => some item.pseudos
  | _ => none

/-! ## Vocabulary of the statements: numeric literals -/

/-- The text of a piece of a stat line. -/
def Tok.text : Tok → Str
  | .lit c => [c]
  | .num w => w

/-- A written number of the shape of the specification: an optional sign, one or more digits,
then optionally one dot followed by one or more digits. -/
def isDecimalLiteral (w : Str) : Bool :=
  let body := if w.head? = some '+' ∨ w.head? = some '-' then w.drop 1 else w
  let ip := body.takeWhile Char.isDigit
  let rest := body.dropWhile Char.isDigit
  !ip.isEmpty && (rest.isEmpty || (rest.head? = some '.' && isDigits (rest.drop 1)))

/-- A canonical decimal integer in the words of the specification: no plus sign, no dot, and
no leading zero. -/
def isCanonicalInt (w : Str) : Bool :=
  let ds := if w.head? = some '-' then w.drop 1 else w
  isDigits ds && (ds == ['0'] || ds.head? != some '0')

/-- The number written by a word made of an optional sign and digits. -/
def literalVal (w : Str) : Int :=
  match w with
  | '+' :: ds => digitsVal ds
  | '-' :: ds => -(digitsVal ds : Int)
  | ds => digitsVal ds

/-- A text for a value: `QString::number` for an `int`, a given format for a `double`. -/
def renderVal {F : Type} (fmt : F → Str) : NumVal F → Str
  | .int n => numberStr n
  | .flt x => fmt x

/-- The templated line with the values put back: the placeholders receive the texts of the
values one after the other from the left. -/
def substituteVals {F : Type} (render : NumVal F → Str) : Str → List (NumVal F) → Str
  | [], _ => []
  | c :: cs, [] => c :: substituteVals render cs []
  | c :: cs, v :: vs =>
    if c = '#' then render v ++ substituteVals render cs vs
    else c :: substituteVals render cs (v :: vs)

/-- A format of the `double`s of the examples: the sign, the mantissa and the binary
exponent of a finite number. -/
def fmtDbl : Dbl → Str
  | .fin s m e => (if s then ['-'] else []) ++ numberStr m ++ 'p' :: numberStr e
  | .inf s => (if s then ['-'] else []) ++ "inf".toList
  | .nan => "nan".toList

/-- The numeric literals of a line, from left to right: the texts of the matches. -/
def literals (s : Str) : List Str :=
  (scanNums s).filterMap (fun t => match t with
    | .num w => some w
    | .lit _ => none)

/-- A dictionary with one template without placeholder, which starts with a signed number. -/
def statsVerbatim : List (Str × StatEntry) := [entryOf "V" "explicit" "+5 foo"]

/-! ## Vocabulary of the statements: the record around the body of `parse` -/

/-- The members of the record that the loop of `parse` over the body lines does not write. -/
def sameHeader {F : Type} (a b : PItem F) : Prop :=
  a.name = b.name ∧ a.type = b.type ∧ a.f_type = b.f_type ∧ a.pseudos = b.pseudos ∧
    a.m_itemtext = b.m_itemtext ∧ a.m_options = b.m_options

/-- The dictionaries of `ItemAPI`: every member but the held line `m_section`. -/
def sameTables {F : Type} (a b : ItemAPI F) : Prop :=
  a.m_stats_by_text = b.m_stats_by_text ∧ a.m_stats_by_id = b.m_stats_by_id ∧
    a.m_uniques = b.m_uniques ∧ a.c_baseMap = b.c_baseMap ∧
    a.c_pseudoRules = b.c_pseudoRules ∧ a.c_propMap = b.c_propMap

/-- The record of `parse` when it enters the loop over the body lines: rarity, name and type
are read and the category rules of the rarity, of the "Map" suffix and of the prophecies are
applied. -/
def headerRecord {F : Type} [DoubleOps F] (api : ItemAPI F) (itemText : Str) : PItem F :=
  let lines := readLines itemText
  let item0 : PItem F :=
    { (newPItem : PItem F) with
      m_itemtext := itemText,
      f_type := { (newPItem : PItem F).f_type with
        rarity := sectionStr (lines.getD 0 []) [':', ' '] 1 } }
  processCategory api
    (if startsWith (lines.getD 2 []) separator then
      { item0 with type := readType item0 (lines.getD 1 []) }
    else { item0 with name := readName (lines.getD 1 []), type := readType item0 (lines.getD 2 []) })

/-- The rarity that `parse` reads on the first line. -/
def rarityOf (itemText : Str) : Str := sectionStr ((readLines itemText).getD 0 []) [':', ' '] 1

/-- The second line of an item text, empty when there is none. -/
def secondLine (itemText : Str) : Str := (readLines itemText).getD 1 []

/-- The third line of an item text, empty when there is none. -/
def thirdLine (itemText : Str) : Str := (readLines itemText).getD 2 []

/-- The category of the record that `parse` returns, when it returns one. -/
def categoryOf (r : Except Exn (Option (PItem Dbl) × ItemAPI Dbl)) : Option Str :=
  match r with
  | .ok (some item, _) => some item.f_type.category
  | _ => none

/-- The name and the type of the record that `parse` returns, when it returns one. -/
def nameTypeOf (r : Except Exn (Option (PItem Dbl) × ItemAPI Dbl)) : Option (Str × Str) :=
  match r with
  | .ok (some item, _) => some (item.name, item.type)
  | _ => none

/-! ## Vocabulary of the statements: the pseudo rules and the id dictionary -/

/-- The state of the loop of `parse` over the pseudo rules, against the id dictionary `base`
of the start of the loop: a value of `base` is still the value of its id, an id that `base`
does not hold is absent or holds a `null`, and the entry of every pseudo is the value that the
dictionary holds for its key. -/
def pseudoInv {F : Type} (base : List (Str × Option StatEntry))
    (st : List (Str × Option StatEntry) × List (Str × Pseudo F)) : Prop :=
  (∀ k e, lookupKey k base = some e → lookupKey k st.1 = some e) ∧
  (∀ k, lookupKey k base = none → lookupKey k st.1 = none ∨ lookupKey k st.1 = some none) ∧
  (∀ Y ps, lookupKey Y st.2 = some ps → lookupKey Y st.1 = some ps.entry)

/-- The members of `apiPseudo` with an empty id dictionary: the target "Y" of the rules is not
one of its keys. -/
def apiPseudoAbsent : ItemAPI Dbl := { apiPseudo with m_stats_by_id := [] }

/-- The members of an `ItemAPI` whose base-item category map knows the type "Iron Ring". -/
def apiBase : ItemAPI Dbl :=
  { apiOf [] [] with c_baseMap := [("Iron Ring".toList, "accessory.ring".toList)] }

/-- The members of an `ItemAPI` whose property schema has the only key "Quality". -/
def apiProps : ItemAPI Dbl :=
  { apiOf [] [] with c_propMap := [("Quality".toList, .misc_filter (some .misc_filter_quality))] }

/-! ## The serialisation `ItemAPI::toJson` -/

/-- A value of the `json` object that `toJson` builds. -/
inductive JVal where
  | null
  | str (s : Str)
  | int (n : Int)
  | bool (b : Bool)
  deriving DecidableEq, Repr

/-- Modelled from the spec: `total()` of the socket colours, the sum of the five counts
(`pta_types.h` is not among the sources). -/
def socket_colours.total (s : socket_colours) : Nat := s.r + s.g + s.b + s.w + s.a

/-- Embeds `j[k] = v` on a `json` object: `operator[]` adds an absent key with a `null`, and
the assignment replaces the value of the key. -/
def setKey (k : Str) (v : JVal) (j : List (Str × JVal)) : List (Str × JVal) :=
  assignKey k v (emplaceKey k .null j)

/-- Embeds `ItemAPI::toJson` up to the final `dump`: the result is the `json` object `j` that
is serialised, its keys in the order of the object. -/
def toJson {F : Type} (item : PItem F) : List (Str × JVal) :=
  let j : List (Str × JVal) := []
  let j := setKey "name".toList (.str item.name) j
  let j := setKey "rarity".toList (.str item.f_type.rarity) j
  let j := if !item.f_type.category.isEmpty then
      setKey "category".toList (.str item.f_type.category) j
    else j
  let j := if item.name ≠ item.type then setKey "type".toList (.str item.type) j else j
  let j := setKey "sockets".toList (.int item.f_socket.sockets.total) j
  let j := setKey "links".toList (.int item.f_socket.links) j
  let j := setKey "ilvl".toList (.int item.f_misc.ilvl) j
  let j := setKey "quality".toList (.int item.f_misc.quality) j
  let j := if item.f_type.category = "gem".toList then
      setKey "gem_level".toList (.int item.f_misc.gem_level) j
    else j
  let j := setKey "elder_item".toList (.bool item.f_misc.elder_item) j
  let j := setKey "shaper_item".toList (.bool item.f_misc.shaper_item) j
  let j := setKey "identified".toList (.bool item.f_misc.identified) j
  let j := setKey "corrupted".toList (.bool item.f_misc.corrupted) j
  if !item.m_options.isEmpty then setKey "options".toList (.str item.m_options) j else j

/-- The ten keys that the serialised object always holds. -/
def alwaysKeys : List Str :=
  ["name".toList, "rarity".toList, "sockets".toList, "links".toList, "ilvl".toList,
    "quality".toList, "elder_item".toList, "shaper_item".toList, "identified".toList,
    "corrupted".toList]

/-- The keys of a `json` object. -/
def keysOf (j : List (Str × JVal)) : List Str := j.map Prod.fst

/-- The keys of a `json` object after `j[k] = v`: the key is added at its place in key order
unless it is present. -/
def insKey (k : Str) : List Str → List Str
  | [] => [k]
  | k1 :: rest =>
    if k1 = k then k1 :: rest
    else if strLt k k1 then k :: k1 :: rest
    else k1 :: insKey k rest

/-! ## Vocabulary of the statements: the entry chosen among the entries of a key -/

/-- The entry that a line without the crafted mark selects, in the words of the
specification: the first entry that is no pseudo, but, when that entry is implicit and a
later entry is explicit, the first such later entry. -/
def preferredEntry (entries : List StatEntry) : Option StatEntry :=
  match entries.dropWhile (fun e => e.type = pseudoKind) with
  | [] => none
  | e :: later =>
    if e.type = implicitKind then
      match later.find? (fun x => x.type = explicitKind) with
      | some x => some x
      | none => some e
    else some e

/-- The entry that a line with the crafted mark selects, in the words of the specification:
the first entry of kind "crafted". -/
def craftedEntry (entries : List StatEntry) : Option StatEntry :=
  entries.find? (fun e => e.type = craftedKind)

/-- A dictionary with five entries under the key "x #": a pseudo, an implicit, two explicit
and a crafted one, of ids "P", "I", "E", "E2" and "C". -/
def statsKinds : List (Str × StatEntry) :=
  [("x #".toList, ⟨"P".toList, "pseudo".toList, "x #".toList⟩),
   ("x #".toList, ⟨"I".toList, "implicit".toList, "x #".toList⟩),
   ("x #".toList, ⟨"E".toList, "explicit".toList, "x #".toList⟩),
   ("x #".toList, ⟨"E2".toList, "explicit".toList, "x #".toList⟩),
   ("x #".toList, ⟨"C".toList, "crafted".toList, "x #".toList⟩)]

/-- A dictionary with a pseudo entry only under the key "x #". -/
def statsPseudoOnly : List (Str × StatEntry) :=
  [("x #".toList, ⟨"P".toList, "pseudo".toList, "x #".toList⟩)]

/-! ## Vocabulary of the statements: sections and levels -/

/-- The number of lines that start with "---". -/
def separatorCount (lines : List Str) : Nat := lines.countP (fun l => startsWith l separator)

/-- The section counter of the record that `parse` returns, when it returns one. -/
def sectionsOf (r : Except Exn (Option (PItem Dbl) × ItemAPI Dbl)) : Option Int :=
  match r with
  | .ok (some item, _) => some item.m_sections
  | _ => none

/-- The required level and the gem level of the record that `parse` returns, when it returns
one. -/
def levelsOf (r : Except Exn (Option (PItem Dbl) × ItemAPI Dbl)) : Option (Int × Int) :=
  match r with
  | .ok (some item, _) => some (item.f_req.lvl, item.f_misc.gem_level)
  | _ => none

/-- The members of `ItemAPI` after a call of `parse`, when it returns a record. -/
def stateOf (r : Except Exn (Option (PItem Dbl) × ItemAPI Dbl)) : Option (ItemAPI Dbl) :=
  match r with
  | .ok (some _, api1) => some api1
  | _ => none

/-- A property schema with the special keys "Requirements" and "Level" and the keys
"req_level" and "gem_level" of the two level fields. -/
def propsLevel : List (Str × PropSel) :=
  [("Requirements".toList, .special_filter), ("Level".toList, .special_filter),
   ("req_level".toList, .req_filter (some .req_filter_lvl)),
   ("gem_level".toList, .misc_filter (some .misc_filter_gem_level))]

/-- The members of an `ItemAPI` with the schema `propsLevel`, no modifier and the given held
line. -/
def apiLevel (held : Str) : ItemAPI Dbl := { apiOf [] held with c_propMap := propsLevel }

/-- A dictionary whose only key "x 7 y 7" has no placeholder. -/
def statsSevens : List (Str × StatEntry) := [entryOf "X" "explicit" "x 7 y 7"]

/-- A dictionary whose only key "x # y 3 z 7" has two hardcoded trailing numbers. -/
def statsTrailing : List (Str × StatEntry) := [entryOf "X" "explicit" "x # y 3 z 7"]

/-- A dictionary whose only key "x 1 y 1 z #" has two hardcoded leading numbers. -/
def statsLeading : List (Str × StatEntry) := [entryOf "X" "explicit" "x 1 y 1 z #"]

/-! ## Vocabulary of the statements: calls of `parse` one after the other -/

/-- The reference dictionaries of two states of `ItemAPI` are the same: the modifier
dictionary, the unique-item dictionary, the base-item category map, the pseudo rules and the
property schema are equal, and the id dictionaries hold the same entry for every id, an id
that holds a `null` counting as an id that is absent. The held line is left out. -/
def sameDictionaries {F : Type} (a b : ItemAPI F) : Prop :=
  a.m_stats_by_text = b.m_stats_by_text ∧ a.m_uniques = b.m_uniques ∧
    a.c_baseMap = b.c_baseMap ∧ a.c_pseudoRules = b.c_pseudoRules ∧
    a.c_propMap = b.c_propMap ∧
    ∀ k, (lookupKey k a.m_stats_by_id).join = (lookupKey k b.m_stats_by_id).join

/-- Among the lines after the name and the type, a "Level" line of the special kind comes
before every separator line and every "Requirements" line of the special kind: the case in
which `parse` reads the held line that an earlier call has left. -/
def carriesOver (props : List (Str × PropSel)) : List Str → Bool
  | [] => false
  | line :: rest =>
    if startsWith line separator then false
    else if containsStr line [':'] &&
        lookupKey (sectionStr line [':'] 0) props == some PropSel.special_filter then
      if sectionStr line [':'] 0 = requirementsKey then false
      else if sectionStr line [':'] 0 = "Level".toList then true
      else carriesOver props rest
    else carriesOver props rest

/-- The record that a call of `parse` returns, or its exception. -/
def recordOf {F : Type} (r : Except Exn (Option (PItem F) × ItemAPI F)) :
    Except Exn (Option (PItem F)) :=
  match r with
  | .error x => .error x
  | .ok (item, _) => .ok item

/-- What a call of `parseStat` returns, the dictionaries apart: the result, the record and
the held line. -/
def statOutcome {F : Type} (r : StatResult F) : Except Exn (Bool × PItem F × Str) :=
  match r with
  | .error x => .error x
  | .ok (b, item, api) => .ok (b, item, api.m_section)

/-- What the loop of `parse` over the body lines leaves, the dictionaries apart: the record
and the held line. -/
def bodyOutcome {F : Type} (r : Except Exn (PItem F × ItemAPI F)) : Except Exn (PItem F × Str) :=
  match r with
  | .error x => .error x
  | .ok (item, api) => .ok (item, api.m_section)

/-! ## Vocabulary of the statements: placeholders and literals -/

/-- The templated line with texts put back: the placeholders receive the texts one after
the other from the left. -/
def fillPlaceholders : Str → List Str → Str
  | [], _ => []
  | c :: cs, [] => c :: fillPlaceholders cs []
  | c :: cs, w :: ws =>
    if c = '#' then w ++ fillPlaceholders cs ws
    else c :: fillPlaceholders cs (w :: ws)

/-- A dictionary whose only key has the "increased" wording and a hardcoded last number. -/
def statsFlipRepair : List (Str × StatEntry) :=
  [entryOf "X" "explicit" "#% increased Y per -10 Z"]

/-- A dictionary whose only key has the "increased" wording and a hardcoded first number. -/
def statsFlipForward : List (Str × StatEntry) :=
  [entryOf "X" "explicit" "-5% increased Y per # Z"]

/-! ## Vocabulary of the statements: the numbers of the type `double` -/

/-- The rational number that a finite `double` stands for; 0 for an infinity and a NaN. -/
def Dbl.val : Dbl → ℚ
  | .fin s m e => (if s then -1 else 1) * (m : ℚ) * (2 : ℚ) ^ e
  | _ => 0

/-- The `double` is a finite number. -/
def Dbl.isFinite : Dbl → Bool
  | .fin _ _ _ => true
  | _ => false

/-- The value is one of the binary64 format: a finite one has a mantissa of at most 53 bits
and an exponent of the range of the format. -/
def Dbl.isDouble : Dbl → Prop
  | .fin _ m e => m < 2 ^ 53 ∧ -1074 ≤ e ∧ e ≤ 971
  | _ => True

instance Dbl.decIsDouble (d : Dbl) : Decidable d.isDouble := by
  cases d <;> unfold Dbl.isDouble <;> infer_instance

/-- Truncation of a rational toward zero. -/
def truncQ (q : ℚ) : Int := if 0 ≤ q then ⌊q⌋ else ⌈q⌉

/-- The `double` `p` is the rational `q` rounded to nearest, ties to even. A finite `p` is
of the format and in canonical form (a mantissa of 53 bits, or the least exponent), no finite
number of the format is nearer to `q`, and where another one is as near as `p` the mantissa
of `p` is even. `p` is an infinity, of the sign of `q`, only when `q` is not nearer to zero
than the overflow threshold `2^1024 - 2^970`; and `p` is no NaN. -/
def Dbl.isNearest (q : ℚ) (p : Dbl) : Prop :=
  match p with
  | .fin s m e =>
    Dbl.isDouble (.fin s m e) ∧ (2 ^ 52 ≤ m ∨ e = -1074) ∧
    (∀ d : Dbl, d.isDouble → d.isFinite = true → |Dbl.val (.fin s m e) - q| ≤ |d.val - q|) ∧
    (∀ d : Dbl, d.isDouble → d.isFinite = true → |d.val - q| = |Dbl.val (.fin s m e) - q| →
      d.val = Dbl.val (.fin s m e) ∨ m % 2 = 0)
  | .inf s => (2 : ℚ) ^ 1024 - 2 ^ 970 ≤ |q| ∧ (s = true ↔ q < 0)
  | .nan => False

/-! ## The arithmetic of the type `double` -/

theorem ilog2Up_spec (fuel k n : Nat) (h : n < 2 ^ 2 ^ (k + fuel)) :
    n < 2 ^ 2 ^ ilog2Up fuel k n := by
  induction fuel generalizing k with
  | zero => simpa [ilog2Up] using h
  | succ f ih =>
    rw [ilog2Up]
    split
    · assumption
    · exact ih (k + 1) (by rwa [show k + 1 + f = k + (f + 1) by omega])

theorem ilog2Down_spec (k n : Nat) (h0 : 0 < n) (h : n < 2 ^ 2 ^ k) :
    2 ^ ilog2Down k n ≤ n ∧ n < 2 ^ (ilog2Down k n + 1) := by
  induction k generalizing n with
  | zero =>
    simp only [ilog2Down, pow_zero, pow_one, zero_add] at h ⊢
    omega
  | succ k ih =>
    rw [ilog2Down]
    have hB : 0 < 2 ^ 2 ^ k := by positivity
    split
    · rename_i hle
      have hsq : n < 2 ^ 2 ^ k * 2 ^ 2 ^ k := by
        rw [← pow_add, ← two_mul, ← pow_succ']
        exact h
      have h1 : 0 < n / 2 ^ 2 ^ k := Nat.div_pos hle hB
      have h2 : n / 2 ^ 2 ^ k < 2 ^ 2 ^ k := Nat.div_lt_of_lt_mul hsq
      obtain ⟨i1, i2⟩ := ih (n / 2 ^ 2 ^ k) h1 h2
      constructor
      · rw [pow_add]
        calc 2 ^ 2 ^ k * 2 ^ ilog2Down k (n / 2 ^ 2 ^ k)
            ≤ 2 ^ 2 ^ k * (n / 2 ^ 2 ^ k) := Nat.mul_le_mul_left _ i1
          _ ≤ n := Nat.mul_div_le _ _
      · rw [add_assoc, pow_add]
        calc n < 2 ^ 2 ^ k * (n / 2 ^ 2 ^ k + 1) := Nat.lt_mul_div_succ _ hB
          _ ≤ 2 ^ 2 ^ k * 2 ^ (ilog2Down k (n / 2 ^ 2 ^ k) + 1) := Nat.mul_le_mul_left _ i2
    · rename_i hlt
      exact ih n h0 (by omega)

/-- The number `ilog2 n` is the integer part of the binary logarithm of `n`. -/
theorem ilog2_spec (n : Nat) (h0 : 0 < n) : 2 ^ ilog2 n ≤ n ∧ n < 2 ^ (ilog2 n + 1) := by
  refine ilog2Down_spec _ n h0 (ilog2Up_spec n 0 n ?_)
  rw [zero_add]
  calc n < 2 ^ n := Nat.lt_two_pow n
    _ ≤ 2 ^ 2 ^ n := Nat.pow_le_pow_right (by decide) (Nat.lt_two_pow n).le

theorem two_zpow_toNat (e : ℤ) :
    (2 : ℚ) ^ e = (2 : ℚ) ^ e.toNat / (2 : ℚ) ^ (-e).toNat := by
  rcases le_total 0 e with h | h
  · have h1 : (-e).toNat = 0 := Int.toNat_eq_zero.mpr (by omega)
    rw [h1, pow_zero, div_one, ← zpow_natCast, Int.toNat_of_nonneg h]
  · have h1 : e.toNat = 0 := Int.toNat_eq_zero.mpr h
    have h2 : ((-e).toNat : ℤ) = -e := Int.toNat_of_nonneg (by omega)
    rw [h1, pow_zero, one_div, ← zpow_natCast, h2, ← zpow_neg, neg_neg]

/-- The number `binExp num den` is the binary exponent of the rational `num / den`. -/
theorem binExp_spec (num den : Nat) (hn : 0 < num) (hd : 0 < den) :
    (2 : ℚ) ^ binExp num den ≤ (num : ℚ) / den ∧
      (num : ℚ) / den < (2 : ℚ) ^ (binExp num den + 1) := by
  obtain ⟨a1, a2⟩ := ilog2_spec num hn
  obtain ⟨b1, b2⟩ := ilog2_spec den hd
  have a1q : (2 : ℚ) ^ ilog2 num ≤ num := by exact_mod_cast a1
  have a2q : (num : ℚ) < 2 ^ (ilog2 num + 1) := by exact_mod_cast a2
  have b1q : (2 : ℚ) ^ ilog2 den ≤ den := by exact_mod_cast b1
  have b2q : (den : ℚ) < 2 ^ (ilog2 den + 1) := by exact_mod_cast b2
  have hdq : (0 : ℚ) < den := by exact_mod_cast hd
  have hnq : (0 : ℚ) < num := by exact_mod_cast hn
  have hA : ∀ n : ℕ, (0 : ℚ) < 2 ^ n := fun n => by positivity
  have hcond : ∀ t : ℤ, (den * 2 ^ t.toNat ≤ num * 2 ^ (-t).toNat) ↔
      (2 : ℚ) ^ t ≤ (num : ℚ) / den := by
    intro t
    rw [two_zpow_toNat t, div_le_div_iff₀ (hA _) hdq]
    constructor
    · intro h
      have : ((den * 2 ^ t.toNat : ℕ) : ℚ) ≤ ((num * 2 ^ (-t).toNat : ℕ) : ℚ) := by
        exact_mod_cast h
      push_cast at this
      linarith
    · intro h
      have : ((den * 2 ^ t.toNat : ℕ) : ℚ) ≤ ((num * 2 ^ (-t).toNat : ℕ) : ℚ) := by
        push_cast
        linarith
      exact_mod_cast this
  unfold binExp
  simp only []
  split_ifs with hc
  · refine ⟨(hcond _).mp hc, ?_⟩
    have e1 : (2 : ℚ) ^ ((ilog2 num : ℤ) - (ilog2 den : ℤ) + 1) =
        (2 : ℚ) ^ (ilog2 num + 1) / (2 : ℚ) ^ ilog2 den := by
      rw [show (ilog2 num : ℤ) - (ilog2 den : ℤ) + 1 = ((ilog2 num + 1 : ℕ) : ℤ) - (ilog2 den : ℤ)
        by push_cast; ring, zpow_sub₀ (by norm_num), zpow_natCast, zpow_natCast]
    rw [e1, div_lt_div_iff₀ hdq (hA _)]
    calc (num : ℚ) * 2 ^ ilog2 den < 2 ^ (ilog2 num + 1) * 2 ^ ilog2 den :=
          mul_lt_mul_of_pos_right a2q (hA _)
      _ ≤ 2 ^ (ilog2 num + 1) * den := mul_le_mul_of_nonneg_left b1q (hA _).le
  · constructor
    · have e1 : (2 : ℚ) ^ ((ilog2 num : ℤ) - (ilog2 den : ℤ) - 1) =
          (2 : ℚ) ^ ilog2 num / (2 : ℚ) ^ (ilog2 den + 1) := by
        rw [show (ilog2 num : ℤ) - (ilog2 den : ℤ) - 1 = (ilog2 num : ℤ) - ((ilog2 den + 1 : ℕ) : ℤ)
          by push_cast; ring, zpow_sub₀ (by norm_num), zpow_natCast, zpow_natCast]
      rw [e1, div_le_div_iff₀ (hA _) hdq]
      calc (2 : ℚ) ^ ilog2 num * den ≤ num * den := mul_le_mul_of_nonneg_right a1q hdq.le
        _ ≤ num * 2 ^ (ilog2 den + 1) := mul_le_mul_of_nonneg_left b2q.le hnq.le
    · rw [sub_add_cancel]
      exact lt_of_not_le (fun h => hc ((hcond _).mpr h))

theorem nearest_multiple (n1 d1 : Nat) (hd : 0 < d1) (k : ℤ) :
    |(((if d1 < 2 * (n1 % d1) ∨ (2 * (n1 % d1) = d1 ∧ (n1 / d1) % 2 = 1) then n1 / d1 + 1
        else n1 / d1 : ℕ) : ℤ)) * d1 - n1| ≤ |k * d1 - n1| := by
  have hdm := Nat.div_add_mod n1 d1
  have hr := Nat.mod_lt n1 hd
  have hn : (n1 : ℤ) = d1 * (n1 / d1 : ℕ) + (n1 % d1 : ℕ) := by exact_mod_cast hdm.symm
  have hdz : (0 : ℤ) < d1 := by exact_mod_cast hd
  have hrz : ((n1 % d1 : ℕ) : ℤ) < d1 := by exact_mod_cast hr
  have hr0 : (0 : ℤ) ≤ (n1 % d1 : ℕ) := Int.natCast_nonneg _
  have hp1 := le_abs_self (k * (d1 : ℤ) - n1)
  have hp2 := neg_le_abs (k * (d1 : ℤ) - n1)
  have hP : (k ≤ (n1 / d1 : ℕ) → k * (d1 : ℤ) ≤ (n1 / d1 : ℕ) * d1) ∧
      ((n1 / d1 : ℕ) < k → ((n1 / d1 : ℕ) + 1) * (d1 : ℤ) ≤ k * d1) :=
    ⟨fun h => mul_le_mul_of_nonneg_right h hdz.le,
     fun h => mul_le_mul_of_nonneg_right (by omega) hdz.le⟩
  have hS : (((n1 / d1 : ℕ) : ℤ) + 1) * (d1 : ℤ) = (n1 / d1 : ℕ) * d1 + d1 := by ring
  by_cases hc : d1 < 2 * (n1 % d1) ∨ (2 * (n1 % d1) = d1 ∧ (n1 / d1) % 2 = 1)
  · rw [if_pos hc]
    have h2 : (d1 : ℤ) ≤ 2 * (n1 % d1 : ℕ) := by
      rcases hc with h | h
      · exact_mod_cast h.le
      · exact_mod_cast h.1.symm.le
    rw [Nat.cast_add, Nat.cast_one, hS, abs_le]
    rcases le_or_lt k (n1 / d1 : ℕ) with hk | hk
    · have := hP.1 hk
      constructor <;> linarith
    · have := hP.2 hk
      constructor <;> linarith
  · rw [if_neg hc]
    have h2 : 2 * ((n1 % d1 : ℕ) : ℤ) ≤ d1 := by
      by_contra hcon
      exact hc (Or.inl (by
        have : (d1 : ℤ) < 2 * (n1 % d1 : ℕ) := by omega
        exact_mod_cast this))
    rw [abs_le]
    rcases le_or_lt k (n1 / d1 : ℕ) with hk | hk
    · have := hP.1 hk
      constructor <;> linarith
    · have := hP.2 hk
      constructor <;> linarith

/-- The number `roundUnits num den e` is an integer nearest to `num / den` in units of
`2^e`. -/
theorem roundUnits_nearest (num den : Nat) (e : ℤ) (hd : 0 < den) (k : ℤ) :
    |(roundUnits num den e : ℚ) * 2 ^ e - (num : ℚ) / den| ≤
      |(k : ℚ) * 2 ^ e - (num : ℚ) / den| := by
  have hA : (0 : ℚ) < 2 ^ e.toNat := by positivity
  have hB : (0 : ℚ) < 2 ^ (-e).toNat := by positivity
  have hdq : (0 : ℚ) < den := by exact_mod_cast hd
  have hd1 : 0 < den * 2 ^ e.toNat := Nat.mul_pos hd (by positivity)
  have hI := nearest_multiple (num * 2 ^ (-e).toNat) (den * 2 ^ e.toNat) hd1 k
  have hQ : ∀ j : ℤ, (j : ℚ) * 2 ^ e - (num : ℚ) / den =
      (((j * ((den * 2 ^ e.toNat : ℕ) : ℤ) - ((num * 2 ^ (-e).toNat : ℕ) : ℤ) : ℤ)) : ℚ) *
        (1 / (den * 2 ^ (-e).toNat)) := by
    intro j
    rw [two_zpow_toNat e]
    push_cast
    field_simp
    ring
  have hc : (0 : ℚ) < 1 / (den * 2 ^ (-e).toNat) := by positivity
  have e1 := hQ (roundUnits num den e : ℕ)
  have e2 := hQ k
  rw [Int.cast_natCast] at e1
  rw [e1, e2, abs_mul, abs_mul, abs_of_pos hc]
  refine mul_le_mul_of_nonneg_right ?_ hc.le
  rw [← Int.cast_abs, ← Int.cast_abs]
  exact_mod_cast hI

theorem roundUnits_le (num den : Nat) (e : ℤ) (hd : 0 < den) (b : ℕ)
    (h : (num : ℚ) / den < (b : ℚ) * 2 ^ e) : roundUnits num den e ≤ b := by
  have hA : (0 : ℚ) < 2 ^ e.toNat := by positivity
  have hB : (0 : ℚ) < 2 ^ (-e).toNat := by positivity
  have hdq : (0 : ℚ) < den := by exact_mod_cast hd
  have hd1 : 0 < den * 2 ^ e.toNat := Nat.mul_pos hd (by positivity)
  rw [two_zpow_toNat e, ← mul_div_assoc, div_lt_div_iff₀ hdq hB] at h
  have h1 : num * 2 ^ (-e).toNat < b * (den * 2 ^ e.toNat) := by
    have : ((num * 2 ^ (-e).toNat : ℕ) : ℚ) < ((b * (den * 2 ^ e.toNat) : ℕ) : ℚ) := by
      push_cast
      linarith
    exact_mod_cast this
  have h2 : num * 2 ^ (-e).toNat / (den * 2 ^ e.toNat) < b :=
    (Nat.div_lt_iff_lt_mul hd1).mpr h1
  unfold roundUnits
  simp only []
  split_ifs <;> omega

/-- An integer nearest to `q` in units of `2^e`, where `q` has 53 bits in these units unless
`e` is the least exponent, is not farther from `q` than any number `k * 2^f` of 53 bits with
an exponent of the format. -/
theorem nearest_core (q : ℚ) (e : ℤ) (M : ℤ)
    (hM : ∀ k : ℤ, |(M : ℚ) * 2 ^ e - q| ≤ |(k : ℚ) * 2 ^ e - q|)
    (h4 : -1074 < e → (2 : ℚ) ^ 52 * 2 ^ e ≤ q)
    (k : ℤ) (f : ℤ) (hk : |k| < 2 ^ 53) (hf : -1074 ≤ f) :
    |(M : ℚ) * 2 ^ e - q| ≤ |(k : ℚ) * 2 ^ f - q| := by
  rcases le_or_lt e f with hef | hef
  · have e1 : (2 : ℚ) ^ f = 2 ^ (f - e).toNat * 2 ^ e := by
      rw [← zpow_natCast, Int.toNat_of_nonneg (by omega), ← zpow_add₀ (by norm_num)]
      congr 1
      ring
    have := hM (k * 2 ^ (f - e).toNat)
    rw [e1, ← mul_assoc]
    push_cast at this
    exact this
  · have hq := h4 (by omega)
    have hu : (0 : ℚ) < 2 ^ e := by positivity
    have hv : (0 : ℚ) < 2 ^ f := by positivity
    have e1 : (2 : ℚ) ^ e = 2 ^ (e - f).toNat * 2 ^ f := by
      rw [← zpow_natCast, Int.toNat_of_nonneg (by omega), ← zpow_add₀ (by norm_num)]
      congr 1
      ring
    have e2 : (2 : ℚ) ≤ 2 ^ (e - f).toNat := by
      have : 1 ≤ (e - f).toNat := by omega
      calc (2 : ℚ) = 2 ^ 1 := by norm_num
        _ ≤ 2 ^ (e - f).toNat := pow_le_pow_right₀ (by norm_num) this
    have hk1 : (k : ℚ) < 2 ^ 53 := by
      have := (abs_lt.mp hk).2
      exact_mod_cast this
    have h1 : (k : ℚ) * 2 ^ f < 2 ^ 52 * 2 ^ e := by
      calc (k : ℚ) * 2 ^ f < 2 ^ 53 * 2 ^ f := mul_lt_mul_of_pos_right hk1 hv
        _ = 2 ^ 52 * (2 * 2 ^ f) := by ring
        _ ≤ 2 ^ 52 * (2 ^ (e - f).toNat * 2 ^ f) := by
          apply mul_le_mul_of_nonneg_left _ (by positivity)
          exact mul_le_mul_of_nonneg_right e2 hv.le
        _ = 2 ^ 52 * 2 ^ e := by rw [← e1]
    have h2 := hM (2 ^ 52)
    rw [Int.cast_pow, Int.cast_ofNat] at h2
    have h3 : |(2 : ℚ) ^ 52 * 2 ^ e - q| = q - 2 ^ 52 * 2 ^ e := by
      rw [abs_of_nonpos (by linarith)]
      ring
    have h5 := neg_le_abs ((k : ℚ) * 2 ^ f - q)
    rw [h3] at h2
    linarith

theorem nearest_multiple_tie (n1 d1 : Nat) (hd : 0 < d1)
    (h : 2 * |(((if d1 < 2 * (n1 % d1) ∨ (2 * (n1 % d1) = d1 ∧ (n1 / d1) % 2 = 1) then n1 / d1 + 1
        else n1 / d1 : ℕ) : ℤ)) * d1 - n1| = d1) :
    (if d1 < 2 * (n1 % d1) ∨ (2 * (n1 % d1) = d1 ∧ (n1 / d1) % 2 = 1) then n1 / d1 + 1
        else n1 / d1) % 2 = 0 := by
  have hdm := Nat.div_add_mod n1 d1
  have hr := Nat.mod_lt n1 hd
  have hn : (n1 : ℤ) = d1 * (n1 / d1 : ℕ) + (n1 % d1 : ℕ) := by exact_mod_cast hdm.symm
  have hrz : ((n1 % d1 : ℕ) : ℤ) < d1 := by exact_mod_cast hr
  have hr0 : (0 : ℤ) ≤ (n1 % d1 : ℕ) := Int.natCast_nonneg _
  have hS : (((n1 / d1 : ℕ) : ℤ) + 1) * (d1 : ℤ) = (n1 / d1 : ℕ) * d1 + d1 := by ring
  by_cases hc : d1 < 2 * (n1 % d1) ∨ (2 * (n1 % d1) = d1 ∧ (n1 / d1) % 2 = 1)
  · rw [if_pos hc] at h ⊢
    rw [Nat.cast_add, Nat.cast_one, hS] at h
    have e1 : ((n1 / d1 : ℕ) : ℤ) * d1 + d1 - n1 = d1 - (n1 % d1 : ℕ) := by rw [hn]; ring
    rw [e1, abs_of_pos (by linarith)] at h
    have h2 : 2 * (n1 % d1) = d1 := by
      have : 2 * ((n1 % d1 : ℕ) : ℤ) = d1 := by linarith
      exact_mod_cast this
    rcases hc with hc | hc
    · omega
    · omega
  · rw [if_neg hc] at h ⊢
    have e1 : ((n1 / d1 : ℕ) : ℤ) * d1 - n1 = -((n1 % d1 : ℕ) : ℤ) := by rw [hn]; ring
    rw [e1, abs_neg, abs_of_nonneg hr0] at h
    have h2 : 2 * (n1 % d1) = d1 := by exact_mod_cast h
    by_contra hodd
    exact hc (Or.inr ⟨h2, by omega⟩)

/-- When `num / den` lies halfway between two integers in units of `2^e`, the number
`roundUnits num den e` is the even one. -/
theorem roundUnits_tie (num den : Nat) (e : ℤ) (hd : 0 < den)
    (h : |(roundUnits num den e : ℚ) * 2 ^ e - (num : ℚ) / den| = 2 ^ e / 2) :
    roundUnits num den e % 2 = 0 := by
  have hA : (0 : ℚ) < 2 ^ e.toNat := by positivity
  have hB : (0 : ℚ) < 2 ^ (-e).toNat := by positivity
  have hdq : (0 : ℚ) < den := by exact_mod_cast hd
  have hd1 : 0 < den * 2 ^ e.toNat := Nat.mul_pos hd (by positivity)
  have hQ : ((roundUnits num den e : ℕ) : ℚ) * 2 ^ e - (num : ℚ) / den =
      ((((roundUnits num den e : ℕ) : ℤ) * ((den * 2 ^ e.toNat : ℕ) : ℤ) -
          ((num * 2 ^ (-e).toNat : ℕ) : ℤ) : ℤ) : ℚ) * (1 / (den * 2 ^ (-e).toNat)) := by
    rw [two_zpow_toNat e]
    push_cast
    field_simp
    ring
  have hc : (0 : ℚ) < 1 / (den * 2 ^ (-e).toNat) := by positivity
  rw [hQ, abs_mul, abs_of_pos hc, two_zpow_toNat e, ← Int.cast_abs] at h
  have h2 : ((2 * |((roundUnits num den e : ℕ) : ℤ) * ((den * 2 ^ e.toNat : ℕ) : ℤ) -
      ((num * 2 ^ (-e).toNat : ℕ) : ℤ)| : ℤ) : ℚ) = (((den * 2 ^ e.toNat : ℕ) : ℤ) : ℚ) := by
    have hZ : (((|((roundUnits num den e : ℕ) : ℤ) * ((den * 2 ^ e.toNat : ℕ) : ℤ) -
        ((num * 2 ^ (-e).toNat : ℕ) : ℤ)| : ℤ)) : ℚ) =
        2 ^ e.toNat / 2 ^ (-e).toNat / 2 * (den * 2 ^ (-e).toNat) := by
      rw [← h]
      field_simp
    rw [Int.cast_mul, hZ]
    push_cast
    field_simp
    ring
  have h3 : 2 * |((roundUnits num den e : ℕ) : ℤ) * ((den * 2 ^ e.toNat : ℕ) : ℤ) -
      ((num * 2 ^ (-e).toNat : ℕ) : ℤ)| = ((den * 2 ^ e.toNat : ℕ) : ℤ) := by
    exact_mod_cast h2
  exact nearest_multiple_tie (num * 2 ^ (-e).toNat) (den * 2 ^ e.toNat) hd1 h3

theorem roundUnits_ge (num den : Nat) (e : ℤ) (hd : 0 < den) (b : ℕ)
    (h : (b : ℚ) * 2 ^ e ≤ (num : ℚ) / den) : b ≤ roundUnits num den e := by
  have hA : (0 : ℚ) < 2 ^ e.toNat := by positivity
  have hB : (0 : ℚ) < 2 ^ (-e).toNat := by positivity
  have hdq : (0 : ℚ) < den := by exact_mod_cast hd
  have hd1 : 0 < den * 2 ^ e.toNat := Nat.mul_pos hd (by positivity)
  rw [two_zpow_toNat e, ← mul_div_assoc, div_le_div_iff₀ hB hdq] at h
  have h1 : b * (den * 2 ^ e.toNat) ≤ num * 2 ^ (-e).toNat := by
    have : ((b * (den * 2 ^ e.toNat) : ℕ) : ℚ) ≤ ((num * 2 ^ (-e).toNat : ℕ) : ℚ) := by
      push_cast
      linarith
    exact_mod_cast this
  have h2 : b ≤ num * 2 ^ (-e).toNat / (den * 2 ^ e.toNat) :=
    (Nat.le_div_iff_mul_le hd1).mpr h1
  unfold roundUnits
  simp only []
  split_ifs <;> omega

/-- A number `k * 2^f` of 53 bits with an exponent of the format that is as near to `q` as
a nearest integer `M` in units of `2^e`, and is another number, is at half a unit from `q`. -/
theorem tie_core (q : ℚ) (e : ℤ) (M : ℤ)
    (hM : ∀ k : ℤ, |(M : ℚ) * 2 ^ e - q| ≤ |(k : ℚ) * 2 ^ e - q|)
    (h4 : -1074 < e → (2 : ℚ) ^ 52 * 2 ^ e ≤ q)
    (k : ℤ) (f : ℤ) (hk : |k| < 2 ^ 53) (hf : -1074 ≤ f)
    (hne : (k : ℚ) * 2 ^ f ≠ (M : ℚ) * 2 ^ e)
    (heq : |(k : ℚ) * 2 ^ f - q| = |(M : ℚ) * 2 ^ e - q|) :
    |(M : ℚ) * 2 ^ e - q| = 2 ^ e / 2 := by
  have hu : (0 : ℚ) < 2 ^ e := by positivity
  rcases le_or_lt e f with hef | hef
  · have e1 : (2 : ℚ) ^ f = 2 ^ (f - e).toNat * 2 ^ e := by
      rw [← zpow_natCast, Int.toNat_of_nonneg (by omega), ← zpow_add₀ (by norm_num)]
      congr 1
      ring
    obtain ⟨K, hK⟩ : ∃ K : ℤ, (k : ℚ) * 2 ^ f = (K : ℚ) * 2 ^ e :=
      ⟨k * 2 ^ (f - e).toNat, by rw [e1]; push_cast; ring⟩
    rw [hK] at hne heq
    have hKM : K ≠ M := fun h => hne (by rw [h])
    have hopp : (K : ℚ) * 2 ^ e - q = -((M : ℚ) * 2 ^ e - q) := by
      rcases abs_eq_abs.mp heq with h | h
      · exact absurd (by linarith) hne
      · exact h
    have h1 := hM (M + 1)
    have h2 := hM (M - 1)
    push_cast at h1 h2
    have hle : |(M : ℚ) * 2 ^ e - q| ≤ 2 ^ e / 2 := by
      rw [abs_le]
      constructor
      · rcases abs_cases ((M : ℚ) * 2 ^ e - q) with ⟨p1, _⟩ | ⟨p1, _⟩ <;>
          rcases abs_cases (((M : ℚ) + 1) * 2 ^ e - q) with ⟨p2, _⟩ | ⟨p2, _⟩ <;>
          rw [p1, p2] at h1 <;> linarith
      · rcases abs_cases ((M : ℚ) * 2 ^ e - q) with ⟨p1, _⟩ | ⟨p1, _⟩ <;>
          rcases abs_cases (((M : ℚ) - 1) * 2 ^ e - q) with ⟨p2, _⟩ | ⟨p2, _⟩ <;>
          rw [p1, p2] at h2 <;> linarith
    have hge : 2 ^ e / 2 ≤ |(M : ℚ) * 2 ^ e - q| := by
      have h3 : (M : ℚ) * 2 ^ e - q = ((M : ℚ) - K) * 2 ^ e / 2 := by linarith
      have h4 : (1 : ℚ) ≤ |(M : ℚ) - K| := by
        have : (1 : ℤ) ≤ |M - K| := Int.one_le_abs (sub_ne_zero.mpr (Ne.symm hKM))
        have : ((1 : ℤ) : ℚ) ≤ ((|M - K| : ℤ) : ℚ) := by exact_mod_cast this
        rwa [Int.cast_one, Int.cast_abs, Int.cast_sub] at this
      rw [h3, abs_div, abs_mul, abs_of_pos hu, abs_of_pos (by norm_num : (0 : ℚ) < 2)]
      have := mul_le_mul_of_nonneg_right h4 hu.le
      linarith
    exact le_antisymm hle hge
  · exfalso
    have hq := h4 (by omega)
    have hv : (0 : ℚ) < 2 ^ f := by positivity
    have e1 : (2 : ℚ) ^ e = 2 ^ (e - f).toNat * 2 ^ f := by
      rw [← zpow_natCast, Int.toNat_of_nonneg (by omega), ← zpow_add₀ (by norm_num)]
      congr 1
      ring
    have e2 : (2 : ℚ) ≤ 2 ^ (e - f).toNat := by
      have : 1 ≤ (e - f).toNat := by omega
      calc (2 : ℚ) = 2 ^ 1 := by norm_num
        _ ≤ 2 ^ (e - f).toNat := pow_le_pow_right₀ (by norm_num) this
    have hk1 : (k : ℚ) < 2 ^ 53 := by
      have := (abs_lt.mp hk).2
      exact_mod_cast this
    have h1 : (k : ℚ) * 2 ^ f < 2 ^ 52 * 2 ^ e := by
      calc (k : ℚ) * 2 ^ f < 2 ^ 53 * 2 ^ f := mul_lt_mul_of_pos_right hk1 hv
        _ = 2 ^ 52 * (2 * 2 ^ f) := by ring
        _ ≤ 2 ^ 52 * (2 ^ (e - f).toNat * 2 ^ f) := by
          apply mul_le_mul_of_nonneg_left _ (by positivity)
          exact mul_le_mul_of_nonneg_right e2 hv.le
        _ = 2 ^ 52 * 2 ^ e := by rw [← e1]
    have h2 := hM (2 ^ 52)
    rw [Int.cast_pow, Int.cast_ofNat] at h2
    have h3 : |(2 : ℚ) ^ 52 * 2 ^ e - q| = q - 2 ^ 52 * 2 ^ e := by
      rw [abs_of_nonpos (by linarith)]
      ring
    have h5 : |(k : ℚ) * 2 ^ f - q| = q - (k : ℚ) * 2 ^ f := by
      rw [abs_of_nonpos (by linarith)]
      ring
    rw [h3] at h2
    rw [h5] at heq
    linarith

theorem nearest_signed (neg : Bool) (q : ℚ) (e : ℤ) (M : ℕ)
    (hM : ∀ k : ℤ, |(M : ℚ) * 2 ^ e - q| ≤ |(k : ℚ) * 2 ^ e - q|)
    (h4 : -1074 < e → (2 : ℚ) ^ 52 * 2 ^ e ≤ q)
    (d : Dbl) (hd : d.isDouble) (hf : d.isFinite = true) :
    |(if neg then -1 else 1) * (M : ℚ) * 2 ^ e - (if neg then -1 else 1) * q| ≤
      |d.val - (if neg then -1 else 1) * q| := by
  cases d with
  | inf t => cases hf
  | nan => cases hf
  | fin t n f =>
    obtain ⟨hn, hf1, _⟩ := hd
    have hM1 : ∀ k : ℤ, |((M : ℤ) : ℚ) * 2 ^ e - q| ≤ |(k : ℚ) * 2 ^ e - q| := by
      intro k
      rw [Int.cast_natCast]
      exact hM k
    have hk : ∀ j : ℤ, (j = n ∨ j = -n) → |(M : ℚ) * 2 ^ e - q| ≤ |(j : ℚ) * 2 ^ f - q| := by
      intro j hj
      have hj1 : |j| < 2 ^ 53 := by
        have : (n : ℤ) < 2 ^ 53 := by exact_mod_cast hn
        rcases hj with h | h <;> rw [h, abs_lt] <;> constructor <;> omega
      have := nearest_core q e M hM1 h4 j f hj1 hf1
      rwa [Int.cast_natCast] at this
    have hp := hk n (Or.inl rfl)
    have hm := hk (-n) (Or.inr rfl)
    rw [Int.cast_natCast] at hp
    rw [Int.cast_neg, Int.cast_natCast] at hm
    have eL : |(-1 : ℚ) * (M : ℚ) * 2 ^ e - -1 * q| = |(M : ℚ) * 2 ^ e - q| := by
      rw [show (-1 : ℚ) * (M : ℚ) * 2 ^ e - -1 * q = -((M : ℚ) * 2 ^ e - q) by ring, abs_neg]
    have eL1 : |(1 : ℚ) * (M : ℚ) * 2 ^ e - 1 * q| = |(M : ℚ) * 2 ^ e - q| := by
      rw [one_mul, one_mul]
    cases neg <;> cases t <;>
      simp only [Dbl.val, if_true, if_false, Bool.false_eq_true, eL, eL1]
    · rw [one_mul, one_mul]
      exact hp
    · rw [one_mul, show (-1 : ℚ) * (n : ℚ) * 2 ^ f = -(n : ℚ) * 2 ^ f by ring]
      exact hm
    · rw [show (1 : ℚ) * (n : ℚ) * 2 ^ f - -1 * q = -(-(n : ℚ) * 2 ^ f - q) by ring, abs_neg]
      exact hm
    · rw [show (-1 : ℚ) * (n : ℚ) * 2 ^ f - -1 * q = -((n : ℚ) * 2 ^ f - q) by ring, abs_neg]
      exact hp

theorem abs_signed (b : Bool) (x y : ℚ) :
    |(if b = true then (-1 : ℚ) else 1) * x - (if b = true then (-1 : ℚ) else 1) * y| =
      |x - y| := by
  cases b
  · simp
  · rw [if_pos rfl, show (-1 : ℚ) * x - -1 * y = -(x - y) by ring, abs_neg]

theorem val_signed (neg t : Bool) (n : ℕ) (f : ℤ) :
    ∃ j : ℤ, (j = n ∨ j = -n) ∧
      Dbl.val (.fin t n f) = (if neg = true then (-1 : ℚ) else 1) * ((j : ℚ) * 2 ^ f) := by
  cases neg <;> cases t
  · exact ⟨n, Or.inl rfl, by simp [Dbl.val]⟩
  · exact ⟨-n, Or.inr rfl, by simp [Dbl.val]⟩
  · exact ⟨-n, Or.inr rfl, by simp [Dbl.val]⟩
  · exact ⟨n, Or.inl rfl, by simp [Dbl.val]⟩

theorem tie_signed (neg : Bool) (q : ℚ) (e : ℤ) (M : ℕ)
    (hM : ∀ k : ℤ, |(M : ℚ) * 2 ^ e - q| ≤ |(k : ℚ) * 2 ^ e - q|)
    (h4 : -1074 < e → (2 : ℚ) ^ 52 * 2 ^ e ≤ q)
    (d : Dbl) (hd : d.isDouble) (hf : d.isFinite = true)
    (heq : |d.val - (if neg then -1 else 1) * q| =
      |(if neg then -1 else 1) * ((M : ℚ) * 2 ^ e) - (if neg then -1 else 1) * q|) :
    d.val = (if neg then -1 else 1) * ((M : ℚ) * 2 ^ e) ∨
      |(M : ℚ) * 2 ^ e - q| = 2 ^ e / 2 := by
  cases d with
  | inf t => cases hf
  | nan => cases hf
  | fin t n f =>
    obtain ⟨hn, hf1, _⟩ := hd
    obtain ⟨j, hj1, hj2⟩ := val_signed neg t n f
    rw [hj2, abs_signed, abs_signed] at heq
    by_cases hne : (j : ℚ) * 2 ^ f = (M : ℚ) * 2 ^ e
    · left
      rw [hj2, hne]
    · right
      have hM1 : ∀ k : ℤ, |((M : ℤ) : ℚ) * 2 ^ e - q| ≤ |(k : ℚ) * 2 ^ e - q| := by
        intro k
        rw [Int.cast_natCast]
        exact hM k
      have hj3 : |j| < 2 ^ 53 := by
        have : (n : ℤ) < 2 ^ 53 := by exact_mod_cast hn
        rcases hj1 with h | h <;> rw [h, abs_lt] <;> constructor <;> omega
      have := tie_core q e M hM1 h4 j f hj3 hf1 (by rwa [Int.cast_natCast])
        (by rwa [Int.cast_natCast])
      rwa [Int.cast_natCast] at this

/-- The result of `Dbl.round` is the rational `num / den`, with the given sign, rounded to
nearest, ties to even. -/
theorem round_isNearest (neg : Bool) (num den : Nat) (hn : 0 < num) (hd : 0 < den) :
    Dbl.isNearest ((if neg then -1 else 1) * ((num : ℚ) / den)) (Dbl.round neg num den) := by
  obtain ⟨b1, b2⟩ := binExp_spec num den hn hd
  have hq : (0 : ℚ) < (num : ℚ) / den := by
    have : (0 : ℚ) < num := by exact_mod_cast hn
    have : (0 : ℚ) < den := by exact_mod_cast hd
    positivity
  obtain ⟨e, hedef⟩ : ∃ e : ℤ, e = max (binExp num den - 52) (-1074) := ⟨_, rfl⟩
  have he1 : -1074 ≤ e := by rw [hedef]; exact le_max_right _ _
  have he2 : binExp num den - 52 ≤ e := by rw [hedef]; exact le_max_left _ _
  have hu : (0 : ℚ) < 2 ^ e := by positivity
  have hM := roundUnits_nearest num den e hd
  have h4 : -1074 < e → (2 : ℚ) ^ 52 * 2 ^ e ≤ (num : ℚ) / den := by
    intro h
    have he : e = binExp num den - 52 := by
      rcases max_cases (binExp num den - 52) (-1074) with ⟨h1, _⟩ | ⟨h1, _⟩ <;> omega
    have : (2 : ℚ) ^ 52 * 2 ^ e = 2 ^ binExp num den := by
      rw [he, ← zpow_natCast, ← zpow_add₀ (by norm_num)]
      congr 1
      push_cast
      ring
    rw [this]
    exact b1
  have hle : roundUnits num den e ≤ 2 ^ 53 := by
    apply roundUnits_le num den e hd
    have : (2 : ℚ) ^ (binExp num den + 1) ≤ ((2 ^ 53 : ℕ) : ℚ) * 2 ^ e := by
      rw [Nat.cast_pow, Nat.cast_ofNat, ← zpow_natCast, ← zpow_add₀ (by norm_num)]
      apply zpow_le_zpow_right₀ (by norm_num)
      push_cast
      omega
    exact lt_of_lt_of_le b2 this
  have hhalf : ((roundUnits num den e : ℚ) - 1 / 2) * 2 ^ e ≤ (num : ℚ) / den := by
    have h1 := hM ((roundUnits num den e : ℤ) - 1)
    push_cast at h1
    have h2 := le_abs_self ((roundUnits num den e : ℚ) * 2 ^ e - (num : ℚ) / den)
    by_contra hcon
    rw [not_le] at hcon
    rcases abs_cases (((roundUnits num den e : ℚ) - 1) * 2 ^ e - (num : ℚ) / den) with
      ⟨p, _⟩ | ⟨p, _⟩ <;> rw [p] at h1 <;> nlinarith
  obtain ⟨sg, hsg⟩ : ∃ sg : ℚ, sg = (if neg = true then -1 else 1) := ⟨_, rfl⟩
  have hsign : (neg = true ↔ sg * ((num : ℚ) / den) < 0) := by
    rw [hsg]
    cases neg
    · simp [hq.le]
    · simp [hq]
  have habs : |sg * ((num : ℚ) / den)| = (num : ℚ) / den := by
    rw [hsg]
    cases neg
    · simp [abs_of_pos hq]
    · simp [abs_of_pos hq]
  have hnear : ∀ d : Dbl, d.isDouble → d.isFinite = true →
      |sg * (roundUnits num den e : ℚ) * 2 ^ e - sg * ((num : ℚ) / den)| ≤
        |d.val - sg * ((num : ℚ) / den)| := by
    intro d hd1 hd2
    rw [hsg]
    exact nearest_signed neg _ e _ hM h4 d hd1 hd2
  have hval : ∀ (m : ℕ) (f : ℤ), Dbl.val (.fin neg m f) = sg * (m : ℚ) * 2 ^ f := by
    intro m f
    rw [hsg]
    rfl
  have htie : ∀ d : Dbl, d.isDouble → d.isFinite = true →
      |d.val - sg * ((num : ℚ) / den)| =
        |sg * (roundUnits num den e : ℚ) * 2 ^ e - sg * ((num : ℚ) / den)| →
      d.val = sg * (roundUnits num den e : ℚ) * 2 ^ e ∨ roundUnits num den e % 2 = 0 := by
    intro d hd1 hd2 heq
    rw [hsg, mul_assoc] at heq
    rcases tie_signed neg _ e _ hM h4 d hd1 hd2 heq with h | h
    · left
      rw [h, hsg, mul_assoc]
    · right
      exact roundUnits_tie num den e hd h
  rw [← hsg]
  unfold Dbl.round
  rw [if_neg hn.ne']
  simp only [← hedef]
  split_ifs with c1 c2 c3
  · refine ⟨?_, hsign⟩
    rw [habs]
    have h971 : (2 : ℚ) ^ (971 : ℤ) ≤ 2 ^ e := zpow_le_zpow_right₀ (by norm_num) (by omega)
    rw [c1] at hhalf
    have e3 : (2 : ℚ) ^ 1024 - 2 ^ 970 = ((2 ^ 53 : ℕ) - 1 / 2) * 2 ^ (971 : ℤ) := by
      norm_num
    rw [e3]
    calc ((2 ^ 53 : ℕ) - 1 / 2 : ℚ) * 2 ^ (971 : ℤ) ≤ ((2 ^ 53 : ℕ) - 1 / 2 : ℚ) * 2 ^ e :=
          mul_le_mul_of_nonneg_left h971 (by norm_num)
      _ ≤ (num : ℚ) / den := hhalf
  · have e3 : Dbl.val (.fin neg (2 ^ 52) (e + 1)) = sg * ((2 ^ 53 : ℕ) : ℚ) * 2 ^ e := by
      rw [hval, zpow_add₀ (by norm_num)]
      push_cast
      ring
    refine ⟨⟨by norm_num, by omega, by omega⟩, Or.inl (le_refl _), ?_, ?_⟩
    · intro d hd1 hd2
      have := hnear d hd1 hd2
      rw [c1] at this
      rw [e3]
      exact this
    · intro d hd1 hd2 heq
      exact Or.inr (by norm_num)
  · refine ⟨?_, hsign⟩
    rw [habs]
    have h1 := h4 (by omega)
    have h972 : (2 : ℚ) ^ (972 : ℤ) ≤ 2 ^ e := zpow_le_zpow_right₀ (by norm_num) (by omega)
    have e3 : (2 : ℚ) ^ 1024 = 2 ^ 52 * 2 ^ (972 : ℤ) := by norm_num
    have : (2 : ℚ) ^ 1024 ≤ (num : ℚ) / den := by
      rw [e3]
      exact le_trans (mul_le_mul_of_nonneg_left h972 (by norm_num)) h1
    have : (0 : ℚ) < 2 ^ 970 := by positivity
    linarith
  · have hcan : 2 ^ 52 ≤ roundUnits num den e ∨ e = -1074 := by
      by_cases h : e = -1074
      · exact Or.inr h
      · left
        apply roundUnits_ge num den e hd
        rw [Nat.cast_pow, Nat.cast_ofNat]
        exact h4 (by omega)
    refine ⟨⟨by omega, he1, by omega⟩, hcan, ?_, ?_⟩
    · intro d hd1 hd2
      rw [hval]
      exact hnear d hd1 hd2
    · intro d hd1 hd2 heq
      rw [hval] at heq ⊢
      exact htie d hd1 hd2 heq

theorem sign_natAbs (x : ℤ) :
    (if decide (x < 0) = true then (-1 : ℚ) else 1) * ((x.natAbs : ℚ) / ((1 : ℕ) : ℚ)) = x := by
  rw [Nat.cast_one, div_one]
  by_cases h : x < 0
  · simp only [h, decide_True, if_true]
    have : ((x.natAbs : ℤ) : ℚ) = ((-x : ℤ) : ℚ) := by rw [← Int.abs_eq_natAbs, abs_of_neg h]
    rw [Int.cast_natCast] at this
    rw [this]
    push_cast
    ring
  · simp only [h, decide_False, Bool.false_eq_true, if_false, one_mul]
    have : ((x.natAbs : ℤ) : ℚ) = ((x : ℤ) : ℚ) := by
      rw [← Int.abs_eq_natAbs, abs_of_nonneg (not_lt.mp h)]
    rw [Int.cast_natCast] at this
    exact this

/-- The conversion of an integer of at most 53 bits to `double` is exact. -/
theorem ofInt_exact (x : ℤ) (hx : |x| < 2 ^ 53) :
    (Dbl.ofInt x).isFinite = true ∧ (Dbl.ofInt x).val = x := by
  by_cases h0 : x = 0
  · subst h0
    refine ⟨rfl, ?_⟩
    simp [Dbl.ofInt, Dbl.round, Dbl.zero, Dbl.val]
  · have hpos : 0 < x.natAbs := Int.natAbs_pos.mpr h0
    have hN := round_isNearest (decide (x < 0)) x.natAbs 1 hpos Nat.one_pos
    rw [sign_natAbs] at hN
    have hxq : |(x : ℚ)| < 2 ^ 53 := by
      have : ((|x| : ℤ) : ℚ) < ((2 ^ 53 : ℤ) : ℚ) := by exact_mod_cast hx
      rwa [Int.cast_abs, Int.cast_pow, Int.cast_ofNat] at this
    unfold Dbl.ofInt
    cases hr : Dbl.round (decide (x < 0)) x.natAbs 1 with
    | fin s m e =>
      rw [hr] at hN
      refine ⟨rfl, ?_⟩
      have hb : x.natAbs < 2 ^ 53 := by
        have : (x.natAbs : ℤ) < 2 ^ 53 := by rwa [← Int.abs_eq_natAbs]
        exact_mod_cast this
      have hd := hN.2.2.1 (.fin (decide (x < 0)) x.natAbs 0) ⟨hb, by norm_num, by norm_num⟩ rfl
      have hv : Dbl.val (.fin (decide (x < 0)) x.natAbs 0) = x := by
        have := sign_natAbs x
        rw [Nat.cast_one, div_one] at this
        simp only [Dbl.val, zpow_zero, mul_one]
        exact this
      rw [hv, sub_self, abs_zero] at hd
      have := abs_nonneg (Dbl.val (.fin s m e) - x)
      have h3 : |Dbl.val (.fin s m e) - x| = 0 := le_antisymm hd this
      rw [abs_eq_zero, sub_eq_zero] at h3
      exact h3
    | inf s =>
      rw [hr] at hN
      have h1 := hN.1
      have h2 : (2 : ℚ) ^ 53 ≤ 2 ^ 1024 - 2 ^ 970 := by norm_num
      linarith
    | nan =>
      rw [hr] at hN
      exact hN.elim

theorem sign_mul (s t : Bool) :
    (if (s != t) = true then (-1 : ℚ) else 1) =
      (if s = true then -1 else 1) * (if t = true then -1 else 1) := by
  cases s <;> cases t <;> simp

/-- The product of two finite `double`s is the product of their numbers rounded to
nearest. -/
theorem mul_isNearest (a b : Dbl) (ha : a.isFinite = true) (hb : b.isFinite = true) :
    Dbl.isNearest (a.val * b.val) (Dbl.mul a b) := by
  cases a with
  | inf s => cases ha
  | nan => cases ha
  | fin s m e =>
    cases b with
    | inf t => cases hb
    | nan => cases hb
    | fin t n f =>
      have hmul : Dbl.mul (.fin s m e) (.fin t n f) =
          Dbl.round (s != t) (m * n * 2 ^ (e + f).toNat) (2 ^ (-(e + f)).toNat) := rfl
      rw [hmul]
      by_cases h0 : m * n = 0
      · have hz : Dbl.round (s != t) (m * n * 2 ^ (e + f).toNat) (2 ^ (-(e + f)).toNat) =
            .fin (s != t) 0 (-1074) := by
          unfold Dbl.round
          rw [if_pos (by rw [h0, zero_mul])]
          rfl
        have hq : Dbl.val (.fin s m e) * Dbl.val (.fin t n f) = 0 := by
          have h1 : (m : ℚ) * n = 0 := by exact_mod_cast h0
          simp only [Dbl.val]
          calc (if s = true then (-1 : ℚ) else 1) * (m : ℚ) * 2 ^ e *
                ((if t = true then (-1 : ℚ) else 1) * (n : ℚ) * 2 ^ f)
              = (if s = true then (-1 : ℚ) else 1) * 2 ^ e *
                ((if t = true then (-1 : ℚ) else 1) * 2 ^ f) * ((m : ℚ) * n) := by ring
            _ = 0 := by rw [h1, mul_zero]
        rw [hz, hq]
        refine ⟨⟨by norm_num, le_refl _, by norm_num⟩, Or.inr rfl, ?_, fun _ _ _ _ => Or.inr rfl⟩
        intro d _ _
        have : Dbl.val (.fin (s != t) 0 (-1074)) = 0 := by simp [Dbl.val]
        rw [this, sub_zero, abs_zero, sub_zero]
        exact abs_nonneg _
      · have hpos : 0 < m * n * 2 ^ (e + f).toNat :=
          Nat.mul_pos (Nat.pos_of_ne_zero h0) (by positivity)
        have hN := round_isNearest (s != t) _ _ hpos
          (show 0 < 2 ^ (-(e + f)).toNat by positivity)
        have hq : (if (s != t) = true then (-1 : ℚ) else 1) *
            (((m * n * 2 ^ (e + f).toNat : ℕ) : ℚ) / ((2 ^ (-(e + f)).toNat : ℕ) : ℚ)) =
            Dbl.val (.fin s m e) * Dbl.val (.fin t n f) := by
          have hz : (2 : ℚ) ^ e * 2 ^ f = 2 ^ (e + f).toNat / 2 ^ (-(e + f)).toNat := by
            rw [← zpow_add₀ (by norm_num : (2 : ℚ) ≠ 0), two_zpow_toNat (e + f)]
          simp only [Dbl.val]
          rw [sign_mul]
          calc (if s = true then (-1 : ℚ) else 1) * (if t = true then (-1 : ℚ) else 1) *
                (((m * n * 2 ^ (e + f).toNat : ℕ) : ℚ) / ((2 ^ (-(e + f)).toNat : ℕ) : ℚ))
              = (if s = true then (-1 : ℚ) else 1) * (if t = true then (-1 : ℚ) else 1) *
                ((m : ℚ) * n) * (2 ^ (e + f).toNat / 2 ^ (-(e + f)).toNat) := by
                push_cast
                ring
            _ = (if s = true then (-1 : ℚ) else 1) * (m : ℚ) * 2 ^ e *
                ((if t = true then (-1 : ℚ) else 1) * (n : ℚ) * 2 ^ f) := by
                rw [← hz]
                ring
        rw [hq] at hN
        exact hN

/-- The cast of a finite `double` to `int` is its number truncated toward zero when that is
an `int`. -/
theorem toInt_trunc (s : Bool) (m : Nat) (e : ℤ) :
    Dbl.toInt (.fin s m e) =
      if INT_MIN ≤ truncQ (Dbl.val (.fin s m e)) ∧ truncQ (Dbl.val (.fin s m e)) ≤ INT_MAX
      then truncQ (Dbl.val (.fin s m e)) else INT_MIN := by
  have hfloor : ((if 0 ≤ e then m * 2 ^ e.toNat else m / 2 ^ (-e).toNat : ℕ) : ℤ) =
      ⌊(m : ℚ) * 2 ^ e⌋ := by
    split_ifs with h
    · have h1 : (-e).toNat = 0 := Int.toNat_eq_zero.mpr (by omega)
      rw [two_zpow_toNat e, h1, pow_zero, div_one]
      have : (m : ℚ) * 2 ^ e.toNat = ((m * 2 ^ e.toNat : ℕ) : ℚ) := by push_cast; ring
      rw [this, Int.floor_natCast]
    · have h1 : e.toNat = 0 := Int.toNat_eq_zero.mpr (by omega)
      rw [two_zpow_toNat e, h1, pow_zero, mul_one_div]
      have : (m : ℚ) / 2 ^ (-e).toNat = (m : ℚ) / ((2 ^ (-e).toNat : ℕ) : ℚ) := by push_cast; ring
      rw [this, Rat.floor_natCast_div_natCast]
      norm_cast
  have hy : (0 : ℚ) ≤ (m : ℚ) * 2 ^ e := by positivity
  have htr : truncQ (Dbl.val (.fin s m e)) =
      if s = true then -((if 0 ≤ e then m * 2 ^ e.toNat else m / 2 ^ (-e).toNat : ℕ) : ℤ)
      else ((if 0 ≤ e then m * 2 ^ e.toNat else m / 2 ^ (-e).toNat : ℕ) : ℤ) := by
    rw [hfloor]
    unfold truncQ
    cases s with
    | false =>
      have : Dbl.val (.fin false m e) = (m : ℚ) * 2 ^ e := by simp [Dbl.val]
      rw [this, if_pos hy]
      simp
    | true =>
      have : Dbl.val (.fin true m e) = -((m : ℚ) * 2 ^ e) := by simp [Dbl.val]
      rw [this]
      simp only [if_true]
      split_ifs with h
      · have h0 : (m : ℚ) * 2 ^ e = 0 := le_antisymm (by linarith) hy
        rw [h0]
        simp
      · exact Int.ceil_neg
  rw [htr]
  rfl

/-- The cast of a `double` to `int`: the number truncated toward zero when the `double` is
finite and that number is an `int`, and the smallest `int` in every other case. -/
theorem toInt_spec (p : Dbl) :
    Dbl.toInt p =
      if p.isFinite = true ∧ INT_MIN ≤ truncQ p.val ∧ truncQ p.val ≤ INT_MAX
      then truncQ p.val else INT_MIN := by
  cases p with
  | fin s m e =>
    rw [toInt_trunc]
    simp only [Dbl.isFinite, true_and]
  | inf s => simp [Dbl.toInt, Dbl.isFinite]
  | nan => simp [Dbl.toInt, Dbl.isFinite]

theorem truncQ_bound (q : ℚ) (h1 : INT_MIN ≤ truncQ q) (h2 : truncQ q ≤ INT_MAX) :
    |q| < 2 ^ 32 := by
  unfold truncQ at h1 h2
  have hmin : ((INT_MIN : ℤ) : ℚ) = -2147483648 := by norm_num [INT_MIN]
  have hmax : ((INT_MAX : ℤ) : ℚ) = 2147483647 := by norm_num [INT_MAX]
  split_ifs at h1 h2 with h
  · have := Int.lt_floor_add_one q
    have h3 : ((⌊q⌋ : ℤ) : ℚ) ≤ ((INT_MAX : ℤ) : ℚ) := by exact_mod_cast h2
    rw [abs_of_nonneg h]
    rw [hmax] at h3
    norm_num
    linarith
  · have := Int.ceil_lt_add_one q
    have h3 : ((INT_MIN : ℤ) : ℚ) ≤ ((⌈q⌉ : ℤ) : ℚ) := by exact_mod_cast h1
    rw [abs_of_neg (not_le.mp h)]
    rw [hmin] at h3
    norm_num
    linarith

/-- The `int` computed from an `int` `x` and a finite factor `f` by `(int) (x * f)`: the
conversion of `x` is exact, the product is the number `x * f` rounded to nearest, and the
cast truncates it toward zero. When the number `x * f` is itself a `double` and its
truncation is an `int`, the result is that truncation. -/
theorem scaled_int (x : ℤ) (f : Dbl) (hx : INT_MIN ≤ x ∧ x ≤ INT_MAX)
    (hf : f.isFinite = true) :
    ((Dbl.ofInt x).isFinite = true ∧ (Dbl.ofInt x).val = x) ∧
    Dbl.isNearest (x * f.val) (Dbl.mul (Dbl.ofInt x) f) ∧
    (∀ d : Dbl, d.isDouble → d.isFinite = true → d.val = x * f.val →
      INT_MIN ≤ truncQ (x * f.val) → truncQ (x * f.val) ≤ INT_MAX →
      Dbl.toInt (Dbl.mul (Dbl.ofInt x) f) = truncQ (x * f.val)) := by
  have hx1 : |x| < 2 ^ 53 := by
    rw [abs_lt]
    unfold INT_MIN INT_MAX at hx
    constructor <;> omega
  obtain ⟨e1, e2⟩ := ofInt_exact x hx1
  have hN := mul_isNearest (Dbl.ofInt x) f e1 hf
  rw [e2] at hN
  refine ⟨⟨e1, e2⟩, hN, ?_⟩
  intro d hd1 hd2 hd3 h1 h2
  have hb := truncQ_bound _ h1 h2
  cases hp : Dbl.mul (Dbl.ofInt x) f with
  | fin s m e =>
    rw [hp] at hN
    have h3 := hN.2.2.1 d hd1 hd2
    rw [hd3, sub_self, abs_zero] at h3
    have h4 : Dbl.val (.fin s m e) = x * f.val := by
      have := le_antisymm h3 (abs_nonneg _)
      rwa [abs_eq_zero, sub_eq_zero] at this
    rw [toInt_spec, h4, if_pos ⟨rfl, h1, h2⟩]
  | inf s =>
    rw [hp] at hN
    have h3 := hN.1
    have h4 : (2 : ℚ) ^ 32 ≤ 2 ^ 1024 - 2 ^ 970 := by norm_num
    linarith
  | nan =>
    rw [hp] at hN
    exact hN.elim

/-! ## Sockets -/

theorem countSocket_links (ss : socket_filters_t) (s : Str) :
    (countSocket ss s).links = ss.links := by
  unfold countSocket
  split_ifs <;> rfl

theorem foldl_countSocket_links (toks : List Str) (ss : socket_filters_t) :
    (toks.foldl countSocket ss).links = ss.links := by
  induction toks generalizing ss with
  | nil => rfl
  | cons t ts ih => simp only [List.foldl_cons, ih, countSocket_links]

theorem countSocket_sockets (ss : socket_filters_t) (s : Str) :
    (countSocket ss s).sockets =
      ⟨ss.sockets.r + [s].count ['R'], ss.sockets.g + [s].count ['G'],
       ss.sockets.b + [s].count ['B'], ss.sockets.w + [s].count ['W'],
       ss.sockets.a + [s].count ['A']⟩ := by
  unfold countSocket
  split_ifs with h1 h2 h3 h4 h5 <;> simp_all [List.count_cons]

theorem foldl_countSocket_sockets (toks : List Str) (ss : socket_filters_t) :
    (toks.foldl countSocket ss).sockets =
      ⟨ss.sockets.r + toks.count ['R'], ss.sockets.g + toks.count ['G'],
       ss.sockets.b + toks.count ['B'], ss.sockets.w + toks.count ['W'],
       ss.sockets.a + toks.count ['A']⟩ := by
  induction toks generalizing ss with
  | nil => simp
  | cons t ts ih =>
    rw [List.foldl_cons, ih, countSocket_sockets]
    simp only [List.count_cons, List.count_nil]
    simp only [socket_colours.mk.injEq]
    refine ⟨?_, ?_, ?_, ?_, ?_⟩ <;> omega

theorem readSocketGroup_sockets (ss : socket_filters_t) (lpart : Str) :
    (readSocketGroup ss lpart).sockets =
      ⟨ss.sockets.r + (splitSkipEmpty lpart ['-']).count ['R'],
       ss.sockets.g + (splitSkipEmpty lpart ['-']).count ['G'],
       ss.sockets.b + (splitSkipEmpty lpart ['-']).count ['B'],
       ss.sockets.w + (splitSkipEmpty lpart ['-']).count ['W'],
       ss.sockets.a + (splitSkipEmpty lpart ['-']).count ['A']⟩ := by
  unfold readSocketGroup
  simp only [foldl_countSocket_sockets]
  split_ifs <;> rfl

theorem foldl_readSocketGroup_sockets (groups : List Str) (ss : socket_filters_t) :
    (groups.foldl readSocketGroup ss).sockets =
      ⟨ss.sockets.r + (groups.flatMap (fun g => splitSkipEmpty g ['-'])).count ['R'],
       ss.sockets.g + (groups.flatMap (fun g => splitSkipEmpty g ['-'])).count ['G'],
       ss.sockets.b + (groups.flatMap (fun g => splitSkipEmpty g ['-'])).count ['B'],
       ss.sockets.w + (groups.flatMap (fun g => splitSkipEmpty g ['-'])).count ['W'],
       ss.sockets.a + (groups.flatMap (fun g => splitSkipEmpty g ['-'])).count ['A']⟩ := by
  induction groups generalizing ss with
  | nil => simp
  | cons g gs ih =>
    rw [List.foldl_cons, ih, readSocketGroup_sockets]
    simp only [List.flatMap_cons, List.count_append, socket_colours.mk.injEq]
    refine ⟨?_, ?_, ?_, ?_, ?_⟩ <;> omega

/-- The socket string "B-B-B B B" has five sockets of colour B and a largest group of three. -/
theorem readSockets_example : readSockets "B-B-B B B".toList = ⟨3, ⟨0, 0, 5, 0, 0⟩⟩ := by
  decide

/-- C9. For every socket string, each of the five colour counts returned by `readSockets`
is the number of tokens (the dash-separated parts of the space-separated groups) that are
exactly the letter R, G, B, W or A; a token that is none of these letters is counted by none
of the five numbers. -/
theorem readSockets_colour_totals (prop : Str) :
    (readSockets prop).sockets =
      ⟨((splitSkipEmpty prop [' ']).flatMap (fun g => splitSkipEmpty g ['-'])).count ['R'],
       ((splitSkipEmpty prop [' ']).flatMap (fun g => splitSkipEmpty g ['-'])).count ['G'],
       ((splitSkipEmpty prop [' ']).flatMap (fun g => splitSkipEmpty g ['-'])).count ['B'],
       ((splitSkipEmpty prop [' ']).flatMap (fun g => splitSkipEmpty g ['-'])).count ['W'],
       ((splitSkipEmpty prop [' ']).flatMap (fun g => splitSkipEmpty g ['-'])).count ['A']⟩ := by
  unfold readSockets
  rw [foldl_readSocketGroup_sockets]
  simp

theorem readSocketGroup_links (ss : socket_filters_t) (lpart : Str) :
    (readSocketGroup ss lpart).links =
      if 1 < (splitSkipEmpty lpart ['-']).length then
        max ss.links (splitSkipEmpty lpart ['-']).length
      else ss.links := by
  unfold readSocketGroup
  simp only [foldl_countSocket_links]
  split_ifs with h1 h2 h3 <;> simp_all
  all_goals omega

theorem foldl_max_filter_cons (n : Nat) (l : List Nat) (m : Nat) :
    ((n :: l).filter (fun k => decide (1 < k))).foldl max m =
      (l.filter (fun k => decide (1 < k))).foldl max (if 1 < n then max m n else m) := by
  by_cases h : 1 < n <;> simp [List.filter_cons, h]

theorem foldl_readSocketGroup_links (groups : List Str) (ss : socket_filters_t) :
    (groups.foldl readSocketGroup ss).links =
      ((groups.map (fun g => (splitSkipEmpty g ['-']).length)).filter
        (fun n => decide (1 < n))).foldl max ss.links := by
  induction groups generalizing ss with
  | nil => simp
  | cons g gs ih =>
    rw [List.foldl_cons, ih, readSocketGroup_links, List.map_cons, foldl_max_filter_cons]

/-- C10, counterexample. The socket string "B" is one group of one single-letter token and no
dash, so the largest group size (dash count plus one) is 1, and `readSockets` returns 0
links. -/
theorem readSockets_links_single_socket :
    splitSkipEmpty ['B'] [' '] = [['B']] ∧ splitSkipEmpty ['B'] ['-'] = [['B']] ∧
    ((splitSkipEmpty ['B'] [' ']).map (fun g => g.count '-' + 1)).foldl max 0 = 1 ∧
    (readSockets ['B']).links = 0 := by
  decide

/-- C10, amended. For every socket string, the links value returned by `readSockets` is the
largest size among the groups of two or more tokens, and 0 when there is no such group. -/
theorem readSockets_links (prop : Str) :
    (readSockets prop).links =
      (((splitSkipEmpty prop [' ']).map (fun g => (splitSkipEmpty g ['-']).length)).filter
        (fun n => decide (1 < n))).foldl max 0 := by
  unfold readSockets
  rw [foldl_readSocketGroup_links]

/-! ## Ranges -/

theorem splitAux_ne_nil (sep s : Str) (k : Nat) : splitAux sep s k ≠ [] := by
  induction s generalizing k with
  | nil => simp [splitAux]
  | cons c cs ih =>
    cases k with
    | succ k => simpa [splitAux] using ih k
    | zero =>
      unfold splitAux
      split_ifs
      · simp
      · split <;> simp

theorem splitAux_size (sep s : Str) (k : Nat) :
    ((splitAux sep s k).map List.length).sum + (splitAux sep s k).length ≤ s.length + 1 := by
  induction s generalizing k with
  | nil => simp [splitAux]
  | cons c cs ih =>
    cases k with
    | succ k =>
      have := ih k
      simp only [splitAux, List.length_cons]
      omega
    | zero =>
      unfold splitAux
      split_ifs
      · have := ih (sep.length - 1)
        simp only [List.map_cons, List.sum_cons, List.length_cons, List.length_nil]
        omega
      · have h0 := ih 0
        split
        · simp
        · rename_i p ps heq
          rw [heq] at h0
          simp only [List.map_cons, List.sum_cons, List.length_cons] at h0 ⊢
          omega

theorem splitAux_two_le (sep s : Str) (hsep : sep ≠ []) (h : containsStr s sep = true) :
    2 ≤ (splitAux sep s 0).length := by
  induction s with
  | nil =>
    cases sep with
    | nil => exact absurd rfl hsep
    | cons a as => simp [containsStr] at h
  | cons c cs ih =>
    unfold splitAux
    split_ifs with hs
    · have := splitAux_ne_nil sep cs (sep.length - 1)
      have : 0 < (splitAux sep cs (sep.length - 1)).length := List.length_pos.mpr this
      simp only [List.length_cons]
      omega
    · have hc : containsStr cs sep = true := by
        simp only [containsStr, Bool.or_eq_true] at h
        rcases h with h | h
        · exact absurd h hs
        · exact h
      have h2 := ih hc
      split
      · rename_i heq
        rw [heq] at h2
        simp at h2
      · rename_i p ps heq
        rw [heq] at h2
        simpa using h2

theorem splitStr_length_lt (s sep p : Str) (hsep : sep ≠ []) (h : containsStr s sep = true)
    (hp : p ∈ splitStr s sep) : p.length < s.length := by
  have h1 := splitAux_size sep s 0
  have h2 := splitAux_two_le sep s hsep h
  have h3 : p.length ≤ ((splitAux sep s 0).map List.length).sum :=
    List.single_le_sum (fun _ _ => Nat.zero_le _) _ (List.mem_map_of_mem _ hp)
  omega

theorem foldl_congr_mem {α β : Type} (f g : α → β → α) (l : List β)
    (h : ∀ a, ∀ x ∈ l, f a x = g a x) (a : α) : l.foldl f a = l.foldl g a := by
  induction l generalizing a with
  | nil => rfl
  | cons x xs ih =>
    simp only [List.foldl_cons]
    rw [h a x (List.mem_cons_self _ _)]
    exact ih (fun a y hy => h a y (List.mem_cons_of_mem _ hy)) _

theorem readPropIntRangeFuel_stable (n m : Nat) (prop : Str) (hn : prop.length < n)
    (hm : prop.length < m) : readPropIntRangeFuel n prop = readPropIntRangeFuel m prop := by
  induction n generalizing m prop with
  | zero => omega
  | succ n ih =>
    cases m with
    | zero => omega
    | succ m =>
      unfold readPropIntRangeFuel
      split_ifs with hc
      · apply foldl_congr_mem
        intro a x hx
        have hx1 : x ∈ splitStr prop listSep := (List.mem_filter.mp hx).1
        have hlt := splitStr_length_lt prop listSep x (by decide) hc hx1
        rw [ih m x (by omega) (by omega)]
      · rfl

theorem readPropIntRange_list (prop : Str) (h : containsStr prop listSep = true) :
    readPropIntRange prop =
      (splitSkipEmpty prop listSep).foldl (fun val item => val.add (readPropIntRange item))
        ⟨0, 0⟩ := by
  unfold readPropIntRange
  rw [readPropIntRangeFuel]
  rw [if_pos h]
  apply foldl_congr_mem
  intro a x hx
  have hx1 : x ∈ splitStr prop listSep := (List.mem_filter.mp hx).1
  have hlt := splitStr_length_lt prop listSep x (by decide) h hx1
  rw [readPropIntRangeFuel_stable prop.length (x.length + 1) x hlt (by omega)]

theorem readPropIntRange_single (prop : Str) (h : containsStr prop listSep = false) :
    readPropIntRange prop = readRangeSingle prop := by
  unfold readPropIntRange
  rw [readPropIntRangeFuel]
  simp [h]

theorem containsStr_false_of_not_mem (s : Str) (c : Char) (sub : Str) (h : c ∉ s) :
    containsStr s (c :: sub) = false := by
  induction s with
  | nil => rfl
  | cons x xs ih =>
    have hx : ¬ x = c := fun e => h (e ▸ List.mem_cons_self _ _)
    have hxs : c ∉ xs := fun e => h (List.mem_cons_of_mem _ e)
    simp [containsStr, startsWith, hx, ih hxs]

theorem replaceAux_of_not_mem (s : Str) (c : Char) (before after : Str) (h : c ∉ s) :
    replaceAux (c :: before) after s 0 = s := by
  induction s with
  | nil => rfl
  | cons x xs ih =>
    have hx : ¬ x = c := fun e => h (e ▸ List.mem_cons_self _ _)
    have hxs : c ∉ xs := fun e => h (List.mem_cons_of_mem _ e)
    simp [replaceAux, startsWith, hx, ih hxs]

theorem isDigits_spec (ds : Str) (h : isDigits ds = true) :
    ds ≠ [] ∧ ∀ c ∈ ds, c.isDigit = true := by
  unfold isDigits at h
  simp only [Bool.and_eq_true, Bool.not_eq_true', List.isEmpty_eq_false, List.all_eq_true] at h
  exact ⟨by simpa using h.1, h.2⟩

theorem not_mem_of_digits (ds : Str) (c : Char) (hc : c.isDigit = false)
    (h : ∀ x ∈ ds, x.isDigit = true) : c ∉ ds := by
  intro hm
  have := h c hm
  rw [hc] at this
  exact Bool.noConfusion this

theorem toInt_digits (ds : Str) (h : isDigits ds = true) : toInt ds = clipInt (digitsVal ds) := by
  obtain ⟨hne, hall⟩ := isDigits_spec ds h
  unfold toInt
  split
  · rename_i ds1
    have := hall '+' (List.mem_cons_self _ _)
    exact absurd this (by decide)
  · rename_i ds1
    have := hall '-' (List.mem_cons_self _ _)
    exact absurd this (by decide)
  · simp [h]

theorem takeWhile_digits_append (da rest : Str) (h : ∀ c ∈ da, c.isDigit = true)
    (hr : ∀ c, rest.head? = some c → c.isDigit = false) :
    (da ++ rest).takeWhile Char.isDigit = da ∧ (da ++ rest).dropWhile Char.isDigit = rest := by
  induction da with
  | nil =>
    cases rest with
    | nil => simp
    | cons r rs =>
      have := hr r rfl
      simp [List.takeWhile, List.dropWhile, this]
  | cons d ds ih =>
    have hd := h d (List.mem_cons_self _ _)
    have := ih (fun c hc => h c (List.mem_cons_of_mem _ hc))
    simp [List.takeWhile, List.dropWhile, hd, this]

theorem readRangeSingle_digits (da db : Str) (ha : isDigits da = true) (hb : isDigits db = true) :
    readRangeSingle (da ++ '-' :: db) = ⟨clipInt (digitsVal da), clipInt (digitsVal db)⟩ := by
  obtain ⟨hane, haall⟩ := isDigits_spec da ha
  obtain ⟨hbne, hball⟩ := isDigits_spec db hb
  have hsp : (' ' : Char) ∉ da ++ '-' :: db := by
    intro hm
    rcases List.mem_append.mp hm with h | h
    · exact not_mem_of_digits da ' ' (by decide) haall h
    · rcases List.mem_cons.mp h with h | h
      · exact absurd h (by decide)
      · exact not_mem_of_digits db ' ' (by decide) hball h
  have hrep : replaceStr (da ++ '-' :: db) augmentedTag [] = da ++ '-' :: db :=
    replaceAux_of_not_mem _ ' ' _ _ hsp
  have h1 := takeWhile_digits_append da ('-' :: db) haall
    (fun c hc => by simp at hc; subst hc; decide)
  have h2 := takeWhile_digits_append db [] hball (fun c hc => by simp at hc)
  simp only [List.append_nil] at h2
  unfold readRangeSingle
  simp only [hrep, h1.1, h1.2, h2.1]
  have e1 : da.isEmpty = false := by cases da <;> simp_all
  have e2 : db.isEmpty = false := by cases db <;> simp_all
  simp [e1, e2, toInt_digits da ha, toInt_digits db hb]

theorem readRangeSingle_malformed (item : Str)
    (h : ∀ da db rest, isDigits da = true → isDigits db = true →
      replaceStr item augmentedTag [] ≠ da ++ '-' :: (db ++ rest)) :
    readRangeSingle item = ⟨0, 0⟩ := by
  unfold readRangeSingle
  simp only
  split
  · rename_i r heq
    split_ifs with hne
    · exfalso
      simp only [Bool.and_eq_true, Bool.not_eq_true', List.isEmpty_eq_false] at hne
      refine h ((replaceStr item augmentedTag []).takeWhile Char.isDigit)
        (r.takeWhile Char.isDigit) (r.dropWhile Char.isDigit) ?_ ?_ ?_
      · unfold isDigits
        simp only [Bool.and_eq_true, Bool.not_eq_true', List.all_eq_true]
        exact ⟨by simpa using hne.1, fun c hc => (List.mem_takeWhile_imp hc)⟩
      · unfold isDigits
        simp only [Bool.and_eq_true, Bool.not_eq_true', List.all_eq_true]
        exact ⟨by simpa using hne.2, fun c hc => (List.mem_takeWhile_imp hc)⟩
      · rw [List.takeWhile_append_dropWhile, ← heq, List.takeWhile_append_dropWhile]
    · rfl
  · rfl

/-- C8, counterexample. The single entry "2147483648-5" has the form of two decimal numbers
joined by a dash, and `readPropIntRange` returns the minimum 0, not 2147483648. -/
theorem readPropIntRange_out_of_range :
    isDigits "2147483648".toList = true ∧ isDigits "5".toList = true ∧
      digitsVal "2147483648".toList = 2147483648 ∧
      readPropIntRange ("2147483648".toList ++ '-' :: "5".toList) = ⟨0, 5⟩ := by
  decide

/-- C8, amended. For a single entry made of two strings of decimal digits joined by a dash,
`readPropIntRange` returns the two numbers as minimum and maximum, a number above the largest
`int` being read as 0. For a value containing ", " it returns the element-wise sum of
`readPropIntRange` applied to each non-empty ", "-separated element. An element without a
leading pair of dash-joined decimal numbers contributes the range 0, 0. -/
theorem readPropIntRange_spec :
    (∀ da db : Str, isDigits da = true → isDigits db = true →
      readPropIntRange (da ++ '-' :: db) =
        ⟨if (digitsVal da : Int) ≤ INT_MAX then digitsVal da else 0,
         if (digitsVal db : Int) ≤ INT_MAX then digitsVal db else 0⟩) ∧
    (∀ prop : Str, containsStr prop listSep = true →
      readPropIntRange prop =
        ((splitSkipEmpty prop listSep).map readPropIntRange).foldl mmv_t.add ⟨0, 0⟩) ∧
    (∀ item : Str, containsStr item listSep = false →
      (∀ da db rest, isDigits da = true → isDigits db = true →
        replaceStr item augmentedTag [] ≠ da ++ '-' :: (db ++ rest)) →
      readPropIntRange item = ⟨0, 0⟩) := by
  refine ⟨?_, ?_, ?_⟩
  · intro da db ha hb
    obtain ⟨_, haall⟩ := isDigits_spec da ha
    obtain ⟨_, hball⟩ := isDigits_spec db hb
    have hc : (',' : Char) ∉ da ++ '-' :: db := by
      intro hm
      rcases List.mem_append.mp hm with h | h
      · exact not_mem_of_digits da ',' (by decide) haall h
      · rcases List.mem_cons.mp h with h | h
        · exact absurd h (by decide)
        · exact not_mem_of_digits db ',' (by decide) hball h
    rw [readPropIntRange_single _ (containsStr_false_of_not_mem _ ',' _ hc),
      readRangeSingle_digits da db ha hb]
    have hclip : ∀ n : Nat, clipInt (n : Int) = if (n : Int) ≤ INT_MAX then (n : Int) else 0 := by
      intro n
      unfold clipInt INT_MIN
      have : (-2147483648 : Int) ≤ (n : Int) := by omega
      simp [this]
    rw [hclip, hclip]
  · intro prop h
    rw [readPropIntRange_list prop h, List.foldl_map]
  · intro item hc hm
    rw [readPropIntRange_single item hc, readRangeSingle_malformed item hm]

/-- Witness of `readPropIntRange_spec` on "10-20", on "10-20, 5-15" and on "x". -/
theorem readPropIntRange_spec_witness :
    readPropIntRange "10-20".toList = ⟨10, 20⟩ ∧
    readPropIntRange "10-20, 5-15".toList = ⟨15, 35⟩ ∧
    readPropIntRange "x".toList = ⟨0, 0⟩ := by
  refine ⟨?_, ?_, ?_⟩
  · have h := readPropIntRange_spec.1 "10".toList "20".toList (by decide) (by decide)
    simpa using h
  · have h := readPropIntRange_spec.2.1 "10-20, 5-15".toList (by decide)
    rw [h]
    decide
  · refine readPropIntRange_spec.2.2 "x".toList (by decide) ?_
    intro da db rest ha _ he
    have h1 : replaceStr "x".toList augmentedTag [] = ['x'] := by decide
    rw [h1] at he
    cases da with
    | nil => simp [isDigits] at ha
    | cons d ds =>
      simp only [List.cons_append, List.cons.injEq] at he
      rw [← he.1] at ha
      simp [isDigits] at ha

/-! ## The stat line matcher -/

section Matcher

variable {F : Type} [DoubleOps F]

theorem not_flag_ne (stat : Str) (h : stat ∉ flagStats) :
    stat ≠ "Unidentified".toList ∧ stat ≠ "Shaper Item".toList ∧
      stat ≠ "Elder Item".toList ∧ stat ≠ "Corrupted".toList := by
  simp only [flagStats, List.mem_cons, List.mem_singleton, not_or, List.not_mem_nil,
    or_false] at h
  exact ⟨h.1, h.2.1, h.2.2.1, h.2.2.2⟩

omit [DoubleOps F] in
theorem clear_section_eq (api : ItemAPI F) :
    (if (!api.m_section.isEmpty) = true then { api with m_section := [] } else api) =
      { api with m_section := [] } := by
  split_ifs with h
  · rfl
  · simp only [Bool.not_eq_true', Bool.not_eq_false, List.isEmpty_iff] at h
    cases api
    simp only at h
    subst h
    rfl

/-- A line that is found: the body selects an entry and stores the filter. -/
theorem parseStatBody_found (recur : ItemAPI F → PItem F → Str → StatResult F)
    (api : ItemAPI F) (item : PItem F) (stat : Str) (multiline : Bool)
    (stoken : Str) (val : List (NumVal F))
    (hflag : stat ∉ flagStats) (hk : findKey api.m_stats_by_text stat (stripCrafted stat) = some (stoken, val)) :
    parseStatBody recur api item stat multiline =
      match selectEntry (endsWith stat craftedTag) val (equalRange api.m_stats_by_text stoken) none with
      | none => .ok (false, item, { api with m_section := [] })
      | some filter =>
        match storeFilter item.filters filter with
        | .error x => .error x
        | .ok filters => .ok (true, { item with filters := filters }, { api with m_section := [] }) := by
  obtain ⟨h1, h2, h3, h4⟩ := not_flag_ne stat hflag
  unfold stripCrafted at hk
  unfold parseStatBody
  simp only [h1, h2, h3, h4, if_false, hk, clear_section_eq]

/-- A line that is not found, in a combined call: nothing changes. -/
theorem parseStatBody_not_found_multiline (recur : ItemAPI F → PItem F → Str → StatResult F)
    (api : ItemAPI F) (item : PItem F) (stat : Str)
    (hflag : stat ∉ flagStats) (hk : (findKey api.m_stats_by_text stat (stripCrafted stat) :
      Option (Str × List (NumVal F))) = none) :
    parseStatBody recur api item stat true = .ok (false, item, api) := by
  obtain ⟨h1, h2, h3, h4⟩ := not_flag_ne stat hflag
  unfold stripCrafted at hk
  unfold parseStatBody
  simp only [h1, h2, h3, h4, if_false, hk]
  rfl

/-- A line that is not found, with an empty buffer: the line is held. -/
theorem parseStat_not_found_empty (api : ItemAPI F) (item : PItem F) (stat : Str)
    (hflag : stat ∉ flagStats) (hk : (findKey api.m_stats_by_text stat (stripCrafted stat) :
      Option (Str × List (NumVal F))) = none)
    (hs : api.m_section = []) :
    parseStat api item stat false = .ok (false, item, { api with m_section := stat }) := by
  obtain ⟨h1, h2, h3, h4⟩ := not_flag_ne stat hflag
  unfold stripCrafted at hk
  unfold parseStat parseStatBody
  simp only [h1, h2, h3, h4, if_false, hk, hs]
  rfl

/-- A line that is not found, with a pending line: the outcome of the combined call decides. -/
theorem parseStat_not_found_pending (api : ItemAPI F) (item : PItem F) (stat : Str)
    (hflag : stat ∉ flagStats) (hk : (findKey api.m_stats_by_text stat (stripCrafted stat) :
      Option (Str × List (NumVal F))) = none)
    (hs : api.m_section ≠ []) :
    parseStat api item stat false =
      match parseStatCombined api item (api.m_section ++ '\n' :: stat) with
      | .error x => .error x
      | .ok (result, item1, api1) =>
        if result then .ok (result, item1, { api1 with m_section := [] })
        else .ok (result, item1, { api1 with m_section := stat }) := by
  obtain ⟨h1, h2, h3, h4⟩ := not_flag_ne stat hflag
  unfold stripCrafted at hk
  have hs1 : api.m_section.isEmpty = false := by
    cases h : api.m_section with
    | nil => exact absurd h hs
    | cons a as => rfl
  unfold parseStat
  rw [parseStatBody]
  simp only [h1, h2, h3, h4, if_false, hk, hs1]
  rfl

/-- A text with a line feed is none of the four fixed lines. -/
theorem combined_not_flag (a b : Str) : (a ++ '\n' :: b) ∉ flagStats := by
  intro h
  have hm : '\n' ∈ a ++ '\n' :: b := by simp
  simp only [flagStats, List.mem_cons, List.mem_singleton, List.not_mem_nil, or_false] at h
  rcases h with h | h | h | h <;> rw [h] at hm <;> exact absurd hm (by decide)

end Matcher

/-! ## Storing a filter -/

section Store

variable {α : Type}

theorem lookupKey_emplaceKey_self (k : Str) (v : α) (l : List (Str × α))
    (h : lookupKey k l = none) : lookupKey k (emplaceKey k v l) = some v := by
  induction l with
  | nil => simp [emplaceKey, lookupKey]
  | cons p rest ih =>
    obtain ⟨k1, v1⟩ := p
    by_cases hk : k1 = k
    · simp [lookupKey, hk] at h
    · simp only [lookupKey, hk, if_false] at h
      unfold emplaceKey
      simp only [hk, if_false]
      split_ifs
      · simp [lookupKey]
      · simp [lookupKey, hk, ih h]

theorem lookupKey_emplaceKey_other (k k2 : Str) (v : α) (l : List (Str × α)) (hne : k2 ≠ k) :
    lookupKey k2 (emplaceKey k v l) = lookupKey k2 l := by
  induction l with
  | nil => simp [emplaceKey, lookupKey, Ne.symm hne]
  | cons p rest ih =>
    obtain ⟨k1, v1⟩ := p
    unfold emplaceKey
    split_ifs with h1 h2
    · rfl
    · simp [lookupKey, Ne.symm hne]
    · simp only [lookupKey, ih]

theorem lookupKey_assignKey_self (k : Str) (v w : α) (l : List (Str × α))
    (h : lookupKey k l = some w) : lookupKey k (assignKey k v l) = some v := by
  induction l with
  | nil => simp [lookupKey] at h
  | cons p rest ih =>
    obtain ⟨k1, v1⟩ := p
    by_cases hk : k1 = k
    · simp [assignKey, lookupKey, hk]
    · simp only [lookupKey, hk, if_false] at h
      simp [assignKey, lookupKey, hk, ih h]

theorem lookupKey_assignKey_other (k k2 : Str) (v : α) (l : List (Str × α)) (hne : k2 ≠ k) :
    lookupKey k2 (assignKey k v l) = lookupKey k2 l := by
  induction l with
  | nil => rfl
  | cons p rest ih =>
    obtain ⟨k1, v1⟩ := p
    by_cases hk : k1 = k
    · have : ¬ k1 = k2 := fun e => hne (e ▸ hk)
      simp [assignKey, lookupKey, hk, this, Ne.symm hne]
    · simp [assignKey, lookupKey, hk, ih]

theorem assignKey_keys (k : Str) (v : α) (l : List (Str × α)) :
    (assignKey k v l).map Prod.fst = l.map Prod.fst := by
  induction l with
  | nil => rfl
  | cons p rest ih =>
    obtain ⟨k1, v1⟩ := p
    by_cases hk : k1 = k <;> simp [assignKey, hk, ih]

end Store

section Merge

variable {F : Type} [DoubleOps F]

omit [DoubleOps F] in
theorem selectEntry_value (crafted : Bool) (val : List (NumVal F)) (entries : List StatEntry)
    (init : Option (Filter F)) (f : Filter F) (hinit : ∀ g, init = some g → g.value = val)
    (h : selectEntry crafted val entries init = some f) : f.value = val := by
  induction entries generalizing init with
  | nil => exact hinit f h
  | cons e rest ih =>
    unfold selectEntry at h
    split_ifs at h with h1 h2 h3
    · exact ih init hinit h
    · simp only [Option.some.injEq] at h
      rw [← h]
      rfl
    · exact ih init hinit h
    · cases init with
      | none =>
        simp only at h
        exact ih _ (fun g hg => by simp only [Option.some.injEq] at hg; rw [← hg]; rfl) h
      | some g0 =>
        simp only at h
        split_ifs at h
        · exact ih _ (fun g hg => by simp only [Option.some.injEq] at hg; rw [← hg]; rfl) h
        · exact ih _ hinit h

omit [DoubleOps F] in
theorem selectEntry_none_value (crafted : Bool) (val : List (NumVal F)) (entries : List StatEntry)
    (f : Filter F) (h : selectEntry crafted val entries none = some f) : f.value = val :=
  selectEntry_value crafted val entries none f (fun g hg => by cases hg) h

theorem wrapInt_wrapInt_add (x y : Int) : wrapInt (wrapInt x + y) = wrapInt (x + y) := by
  unfold wrapInt
  omega

theorem wrapInt_of_range (n : Int) (h1 : INT_MIN ≤ n) (h2 : n ≤ INT_MAX) : wrapInt n = n := by
  unfold wrapInt
  unfold INT_MIN at h1
  unfold INT_MAX at h2
  omega

/-- The merge on a stored array of integers that is not longer than the new array. -/
theorem mergeValues_ints (a : List Int) (val : List (NumVal F)) (h : a.length ≤ val.length) :
    mergeValues (a.map NumVal.int) val =
      .ok (List.zipWith (fun x v => NumVal.int (wrapInt (x + v.getInt))) a val) := by
  induction a generalizing val with
  | nil => simp [mergeValues]
  | cons x xs ih =>
    cases val with
    | nil => simp at h
    | cons v vs =>
      simp only [List.length_cons, Nat.add_le_add_iff_right] at h
      simp only [List.map_cons, mergeValues, ih vs h, NumVal.is_number_float, NumVal.getInt,
        wrapInt_wrapInt_add, List.zipWith_cons_cons]
      rfl

/-- The merge throws when the new array is shorter than the stored one. -/
theorem mergeValues_short (e val : List (NumVal F)) (h : val.length < e.length) :
    mergeValues e val = .error .type_error := by
  induction e generalizing val with
  | nil => simp at h
  | cons x xs ih =>
    cases val with
    | nil => rfl
    | cons v vs =>
      simp only [List.length_cons, Nat.add_lt_add_iff_right] at h
      simp only [mergeValues, ih vs h]

/-- The merge reads the new array up to the length of the stored one only. -/
theorem mergeValues_take (e val : List (NumVal F)) :
    mergeValues e val = mergeValues e (val.take e.length) := by
  induction e generalizing val with
  | nil => simp [mergeValues]
  | cons x xs ih =>
    cases val with
    | nil => rfl
    | cons v vs =>
      simp only [List.length_cons, List.take_succ_cons, mergeValues]
      rw [← ih vs]

/-- The merge succeeds when the new array is at least as long as the stored one, and keeps
the length of the stored one. -/
theorem mergeValues_ok (e val : List (NumVal F)) (h : e.length ≤ val.length) :
    ∃ merged, mergeValues e val = .ok merged ∧ merged.length = e.length := by
  induction e generalizing val with
  | nil => exact ⟨[], rfl, rfl⟩
  | cons x xs ih =>
    cases val with
    | nil => simp at h
    | cons v vs =>
      simp only [List.length_cons, Nat.add_le_add_iff_right] at h
      obtain ⟨m, hm, hl⟩ := ih vs h
      simp only [mergeValues, hm]
      split_ifs
      · exact ⟨_, rfl, by simp [hl]⟩
      · exact ⟨_, rfl, by simp [hl]⟩

end Merge

/-! ## Multi-line stats and the held line -/

section Held

variable {F : Type} [DoubleOps F]

/-- C4. When a non-combined `parseStat` call on a line `L` that is none of the four fixed
lines finds no key for `L` and, if a line is pending, none for the pending line joined to `L`
by a line feed, the call returns false, leaves the record as it was and the held-line buffer is
exactly `L` afterwards. A next unmatched line `L3` is then combined with `L` alone: the call on
`L3` is decided by the combined call on `L`, a line feed and `L3`. -/
theorem parseStat_holds_latest_line (api : ItemAPI F) (item : PItem F) (L : Str)
    (hflag : L ∉ flagStats)
    (hk : (findKey api.m_stats_by_text L (stripCrafted L) :
      Option (Str × List (NumVal F))) = none)
    (hcomb : api.m_section ≠ [] →
      (findKey api.m_stats_by_text (api.m_section ++ '\n' :: L)
        (stripCrafted (api.m_section ++ '\n' :: L)) : Option (Str × List (NumVal F))) = none) :
    parseStat api item L false = .ok (false, item, { api with m_section := L }) ∧
    ∀ L3 : Str, L3 ∉ flagStats → L ≠ [] →
      (findKey api.m_stats_by_text L3 (stripCrafted L3) :
        Option (Str × List (NumVal F))) = none →
      parseStat { api with m_section := L } item L3 false =
        match parseStatCombined { api with m_section := L } item (L ++ '\n' :: L3) with
        | .error x => .error x
        | .ok (result, item1, api1) =>
          if result then .ok (result, item1, { api1 with m_section := [] })
          else .ok (result, item1, { api1 with m_section := L3 }) := by
  constructor
  · by_cases hs : api.m_section = []
    · exact parseStat_not_found_empty api item L hflag hk hs
    · rw [parseStat_not_found_pending api item L hflag hk hs]
      unfold parseStatCombined
      rw [parseStatBody_not_found_multiline _ api item _ (combined_not_flag _ _) (hcomb hs)]
      rfl
  · intro L3 hflag3 hne hk3
    exact parseStat_not_found_pending { api with m_section := L } item L3 hflag3 hk3 hne

end Held

/-- Witness of `parseStat_holds_latest_line`: with the line "old" pending, the unmatched line
"new" replaces it. -/
theorem parseStat_holds_latest_line_witness :
    parseStat (apiOf statsOne "old".toList) (itemOf []) "new".toList false =
      .ok (false, itemOf [], apiOf statsOne "new".toList) :=
  (parseStat_holds_latest_line (apiOf statsOne "old".toList) (itemOf []) "new".toList
    (by decide) (by decide) (fun _ => by decide)).1

/-- C3, counterexample. The empty line and the line "foo" are matched by no strategy, the
empty line joined to "foo" by a line feed is matched, and after the call on the empty line
(buffer empty before) the call on "foo" returns false and holds "foo". -/
theorem parseStat_empty_first_line :
    (findKey statsLeadingFeed [] (stripCrafted []) : Option (Str × List (NumVal Dbl))) = none ∧
    (findKey statsLeadingFeed "foo".toList (stripCrafted "foo".toList) :
      Option (Str × List (NumVal Dbl))) = none ∧
    parseStat (apiOf statsLeadingFeed []) (itemOf []) ([] ++ '\n' :: "foo".toList) true =
      .ok (true, itemOf [filterX "\nfoo" []], apiOf statsLeadingFeed []) ∧
    parseStat (apiOf statsLeadingFeed []) (itemOf []) [] false =
      .ok (false, itemOf [], apiOf statsLeadingFeed []) ∧
    parseStat (apiOf statsLeadingFeed []) (itemOf []) "foo".toList false =
      .ok (false, itemOf [], apiOf statsLeadingFeed "foo".toList) := by
  decide

section Matched

variable {F : Type} [DoubleOps F]

theorem storeFilter_other (fs fs1 : List (Str × Filter F)) (f : Filter F)
    (h : storeFilter fs f = .ok fs1) (k : Str) (hk : k ≠ f.id) :
    lookupKey k fs1 = lookupKey k fs := by
  unfold storeFilter at h
  split at h
  · split at h
    · cases h
    · simp only [Except.ok.injEq] at h
      rw [← h]
      exact lookupKey_assignKey_other _ _ _ _ hk
  · simp only [Except.ok.injEq] at h
    rw [← h]
    exact lookupKey_emplaceKey_other _ _ _ _ hk

theorem storeFilter_new (fs : List (Str × Filter F)) (f : Filter F)
    (h : lookupKey f.id fs = none) : storeFilter fs f = .ok (emplaceKey f.id f fs) := by
  unfold storeFilter
  rw [h]

theorem storeFilter_present (fs : List (Str × Filter F)) (f efil : Filter F)
    (h : lookupKey f.id fs = some efil) :
    storeFilter fs f =
      match mergeValues efil.value f.value with
      | .error x => .error x
      | .ok merged => .ok (assignKey f.id { efil with value := merged } fs) := by
  unfold storeFilter
  rw [h]

/-- The text that a call of `parseStat` on `stat` looks up with success: `stat` itself, or,
in a non-combined call on an unmatched line with a line pending, the pending line joined to
`stat` by a line feed. In both cases the call ends in the store of the selected filter, with
an empty held-line buffer. -/
theorem parseStat_matched (api : ItemAPI F) (item : PItem F) (stat T : Str) (multiline : Bool)
    (stoken : Str) (val : List (NumVal F)) (filter : Filter F)
    (hT : (T = stat ∧ stat ∉ flagStats) ∨
      (multiline = false ∧ api.m_section ≠ [] ∧ stat ∉ flagStats ∧
        (findKey api.m_stats_by_text stat (stripCrafted stat) :
          Option (Str × List (NumVal F))) = none ∧
        T = api.m_section ++ '\n' :: stat))
    (hk : findKey api.m_stats_by_text T (stripCrafted T) = some (stoken, val))
    (hsel : selectEntry (endsWith T craftedTag) val (equalRange api.m_stats_by_text stoken) none
      = some filter) :
    parseStat api item stat multiline =
      match storeFilter item.filters filter with
      | .error x => .error x
      | .ok filters => .ok (true, { item with filters := filters }, { api with m_section := [] }) := by
  rcases hT with ⟨hTs, hflag⟩ | ⟨hml, hsec, hflag, hnone, hTs⟩
  · subst hTs
    unfold parseStat
    rw [parseStatBody_found _ api item T multiline stoken val hflag hk, hsel]
  · subst hTs
    subst hml
    rw [parseStat_not_found_pending api item stat hflag hnone hsec]
    unfold parseStatCombined
    rw [parseStatBody_found _ api item _ true stoken val (combined_not_flag _ _) hk, hsel]
    dsimp only
    cases storeFilter item.filters filter with
    | error x => rfl
    | ok fs => rfl

/-- C3, amended. Starting from an empty held-line buffer, let `L1` be a non-empty line and
`L2` a line, neither matched by any strategy, such that `L1`, a line feed and `L2` is matched:
a key is found, an entry is selected and the store of its filter raises no error. Then the call
on `L1` returns false and holds `L1`, the call on `L2` returns true with an empty held-line
buffer, and the filters differ from the earlier ones at the id of the selected entry only,
where the selected filter is recorded if the id was new. -/
theorem parseStat_two_lines (api : ItemAPI F) (item : PItem F) (L1 L2 : Str)
    (stoken : Str) (val : List (NumVal F)) (filter : Filter F) (filters : List (Str × Filter F))
    (hs : api.m_section = []) (hne : L1 ≠ []) (h1 : L1 ∉ flagStats) (h2 : L2 ∉ flagStats)
    (hk1 : (findKey api.m_stats_by_text L1 (stripCrafted L1) :
      Option (Str × List (NumVal F))) = none)
    (hk2 : (findKey api.m_stats_by_text L2 (stripCrafted L2) :
      Option (Str × List (NumVal F))) = none)
    (hk : findKey api.m_stats_by_text (L1 ++ '\n' :: L2) (stripCrafted (L1 ++ '\n' :: L2))
      = some (stoken, val))
    (hsel : selectEntry (endsWith (L1 ++ '\n' :: L2) craftedTag) val
      (equalRange api.m_stats_by_text stoken) none = some filter)
    (hst : storeFilter item.filters filter = .ok filters) :
    parseStat api item L1 false = .ok (false, item, { api with m_section := L1 }) ∧
    parseStat { api with m_section := L1 } item L2 false =
      .ok (true, { item with filters := filters }, { api with m_section := [] }) ∧
    (∀ k, k ≠ filter.id → lookupKey k filters = lookupKey k item.filters) ∧
    (lookupKey filter.id item.filters = none → lookupKey filter.id filters = some filter) := by
  refine ⟨parseStat_not_found_empty api item L1 h1 hk1 hs, ?_, ?_, ?_⟩
  · rw [parseStat_matched { api with m_section := L1 } item L2 (L1 ++ '\n' :: L2) false
      stoken val filter (Or.inr ⟨rfl, hne, h2, hk2, rfl⟩) hk hsel, hst]
  · exact fun k hk => storeFilter_other _ _ _ hst k hk
  · intro hnew
    rw [storeFilter_new _ _ hnew] at hst
    simp only [Except.ok.injEq] at hst
    rw [← hst]
    exact lookupKey_emplaceKey_self _ _ _ hnew

/-- The `int` sum of two integers is their sum when that sum is an `int`. -/
theorem zipWith_int_sum (a b : List Int)
    (hrange : ∀ p ∈ List.zip a b, INT_MIN ≤ p.1 + p.2 ∧ p.1 + p.2 ≤ INT_MAX) :
    List.zipWith (fun (x : Int) (v : NumVal F) => (NumVal.int (wrapInt (x + v.getInt)) : NumVal F))
        a (b.map NumVal.int) =
      (List.zipWith (fun x y => x + y) a b).map NumVal.int := by
  induction a generalizing b with
  | nil => simp
  | cons x xs ih =>
    cases b with
    | nil => simp
    | cons y ys =>
      have h0 := hrange (x, y) (by simp)
      have hrest : ∀ p ∈ List.zip xs ys, INT_MIN ≤ p.1 + p.2 ∧ p.1 + p.2 ≤ INT_MAX :=
        fun p hp => hrange p (by simp [hp])
      simp only [List.map_cons, List.zipWith_cons_cons, NumVal.getInt, List.cons.injEq,
        NumVal.int.injEq]
      refine ⟨?_, ih ys hrest⟩
      rw [add_comm x (wrapInt y), wrapInt_wrapInt_add, add_comm y x]
      exact wrapInt_of_range _ h0.1 h0.2

/-- C5, amended. When `parseStat` matches a line (directly, or joined to the pending line) to
an entry whose id is a key of the filters with a stored sequence `a` of integers, and the new
sequence has the length of `a`, the call returns true, the stored filter keeps its id, kind
and text and its value at each index is the `int` sum of the stored value and of the new
value read by `get<int>()`, the keys are the same and no other filter is changed. The `int`
sum is the sum of the two integers whenever the new values are integers and that sum is an
`int`. A new value that is a `double` is read by `get<int>()` as its number truncated toward
zero when it is finite and that truncation is an `int` (the smallest `int` otherwise, where
the cast is undefined in C++). -/
theorem parseStat_merge_ints (api : ItemAPI F) (item : PItem F) (stat T : Str)
    (multiline : Bool) (stoken : Str) (val : List (NumVal F)) (filter efil : Filter F)
    (a : List Int)
    (hT : (T = stat ∧ stat ∉ flagStats) ∨
      (multiline = false ∧ api.m_section ≠ [] ∧ stat ∉ flagStats ∧
        (findKey api.m_stats_by_text stat (stripCrafted stat) :
          Option (Str × List (NumVal F))) = none ∧
        T = api.m_section ++ '\n' :: stat))
    (hk : findKey api.m_stats_by_text T (stripCrafted T) = some (stoken, val))
    (hsel : selectEntry (endsWith T craftedTag) val (equalRange api.m_stats_by_text stoken) none
      = some filter)
    (hfil : lookupKey filter.id item.filters = some efil)
    (ha : efil.value = a.map NumVal.int) (hlen : val.length = a.length) :
    ∃ filters : List (Str × Filter F),
      parseStat api item stat multiline =
        .ok (true, { item with filters := filters }, { api with m_section := [] }) ∧
      lookupKey filter.id filters =
        some ⟨efil.id, efil.type, efil.text,
          List.zipWith (fun x v => NumVal.int (wrapInt (x + v.getInt))) a val⟩ ∧
      (∀ k, k ≠ filter.id → lookupKey k filters = lookupKey k item.filters) ∧
      filters.map Prod.fst = item.filters.map Prod.fst ∧
      (∀ b : List Int, val = b.map NumVal.int →
        (∀ p ∈ List.zip a b, INT_MIN ≤ p.1 + p.2 ∧ p.1 + p.2 ≤ INT_MAX) →
        List.zipWith (fun x v => (NumVal.int (wrapInt (x + v.getInt)) : NumVal F)) a val =
          (List.zipWith (fun x y => x + y) a b).map NumVal.int) ∧
      (∀ x : Dbl, (NumVal.flt x : NumVal Dbl).getInt =
        if x.isFinite = true ∧ INT_MIN ≤ truncQ x.val ∧ truncQ x.val ≤ INT_MAX
        then truncQ x.val else INT_MIN) := by
  have hv : filter.value = val := selectEntry_none_value _ _ _ _ hsel
  have hm : mergeValues efil.value filter.value =
      .ok (List.zipWith (fun x v => NumVal.int (wrapInt (x + v.getInt))) a val) := by
    rw [ha, hv]
    exact mergeValues_ints a val (by omega)
  have hst := storeFilter_present item.filters filter efil hfil
  rw [hm] at hst
  refine ⟨assignKey filter.id
    { efil with value := List.zipWith (fun x v => NumVal.int (wrapInt (x + v.getInt))) a val }
    item.filters, ?_, ?_, ?_, ?_, ?_, toInt_spec⟩
  · rw [parseStat_matched api item stat T multiline stoken val filter hT hk hsel, hst]
  · exact lookupKey_assignKey_self _ _ _ _ hfil
  · exact fun k hk => lookupKey_assignKey_other _ _ _ _ hk
  · exact assignKey_keys _ _ _
  · intro b hb hrange
    subst hb
    exact zipWith_int_sum a b hrange

/-- C6, amended. When `parseStat` matches a line (directly, or joined to the pending line) to
an entry whose id is a key of the filters: if the new sequence is shorter than the stored one
the call throws a `json` type error; if it is at least as long the call returns true, and the
stored sequence, which keeps its length, is merged with the first values of the new sequence,
the values of the new sequence past that length being ignored. -/
theorem parseStat_merge_lengths (api : ItemAPI F) (item : PItem F) (stat T : Str)
    (multiline : Bool) (stoken : Str) (val : List (NumVal F)) (filter efil : Filter F)
    (hT : (T = stat ∧ stat ∉ flagStats) ∨
      (multiline = false ∧ api.m_section ≠ [] ∧ stat ∉ flagStats ∧
        (findKey api.m_stats_by_text stat (stripCrafted stat) :
          Option (Str × List (NumVal F))) = none ∧
        T = api.m_section ++ '\n' :: stat))
    (hk : findKey api.m_stats_by_text T (stripCrafted T) = some (stoken, val))
    (hsel : selectEntry (endsWith T craftedTag) val (equalRange api.m_stats_by_text stoken) none
      = some filter)
    (hfil : lookupKey filter.id item.filters = some efil) :
    (val.length < efil.value.length →
      parseStat api item stat multiline = .error .type_error) ∧
    (efil.value.length ≤ val.length →
      ∃ merged : List (NumVal F),
        mergeValues efil.value (val.take efil.value.length) = .ok merged ∧
        merged.length = efil.value.length ∧
        parseStat api item stat multiline =
          .ok (true,
            { item with filters := assignKey filter.id { efil with value := merged } item.filters },
            { api with m_section := [] })) := by
  have hv : filter.value = val := selectEntry_none_value _ _ _ _ hsel
  have hst := storeFilter_present item.filters filter efil hfil
  rw [hv] at hst
  constructor
  · intro hlt
    rw [parseStat_matched api item stat T multiline stoken val filter hT hk hsel, hst,
      mergeValues_short _ _ hlt]
  · intro hle
    obtain ⟨merged, hm, hl⟩ := mergeValues_ok efil.value val hle
    refine ⟨merged, ?_, hl, ?_⟩
    · rw [← mergeValues_take, hm]
    · rw [parseStat_matched api item stat T multiline stoken val filter hT hk hsel, hst, hm]

end Matched

/-- Witness of `parseStat_two_lines`: "foo" then "bar 7" against the template of two lines. -/
theorem parseStat_two_lines_witness :
    parseStat (apiOf statsTwoLines []) (itemOf []) "foo".toList false =
      .ok (false, itemOf [], apiOf statsTwoLines "foo".toList) ∧
    parseStat (apiOf statsTwoLines "foo".toList) (itemOf []) "bar 7".toList false =
      .ok (true, itemOf [filterX "foo\nbar #" [.int 7]], apiOf statsTwoLines []) :=
  have h := parseStat_two_lines (apiOf statsTwoLines []) (itemOf []) "foo".toList
    "bar 7".toList "foo\nbar #".toList [.int 7] (filterX "foo\nbar #" [.int 7]).2
    [filterX "foo\nbar #" [.int 7]] (by decide) (by decide) (by decide) (by decide) (by decide)
    (by decide) (by decide) (by decide) (by decide)
  ⟨h.1, h.2.1⟩

/-- Witness of `parseStat_merge_ints`: the stored sequence 10 and the new sequence 5 merge
to 15. -/
theorem parseStat_merge_ints_witness :
    ∃ filters : List (Str × Filter Dbl),
      parseStat (apiOf statsOne []) (itemOf [filterX "x # y" [.int 10]]) "x 5 y".toList false =
        .ok (true, itemOf filters, apiOf statsOne []) ∧
      lookupKey "X".toList filters = some (filterX "x # y" [.int 15]).2 := by
  obtain ⟨filters, h1, h2, _⟩ :=
    parseStat_merge_ints (apiOf statsOne []) (itemOf [filterX "x # y" [.int 10]])
      "x 5 y".toList "x 5 y".toList false "x # y".toList [.int 5] (filterX "x # y" [.int 5]).2
      (filterX "x # y" [.int 10]).2 [10] (Or.inl ⟨rfl, by decide⟩) (by decide) (by decide)
      (by decide) (by decide) (by decide)
  exact ⟨filters, h1, h2.trans (by decide)⟩

/-- C5, counterexample. The filter "X" is stored with the sequence of the integer 10, and the
line "x 1.5 y" matches the same id with a sequence of the same length, the `double` 1.5
(`6755399441055744 * 2^-52`). The merged value is 11, not 11.5: the stored value is an integer,
so the new value is read through `get<int>()`, which casts 1.5 to 1. -/
theorem parseStat_merge_float_value :
    (extractVals (stripCrafted "x 1.5 y".toList) : List (NumVal Dbl)) =
      [.flt (Dbl.fin false 6755399441055744 (-52))] ∧
    parseStat (apiOf statsOne []) (itemOf [filterX "x # y" [.int 10]]) "x 1.5 y".toList false =
      .ok (true, itemOf [filterX "x # y" [.int 11]], apiOf statsOne []) := by
  decide

/-- C6, counterexample. The filter "X" is stored with one value, the line "x 5 y 6" matches
that id with two values, and `parseStat` completes normally: it returns true, the first value
is merged and the second value is ignored without any signal. -/
theorem parseStat_longer_sequence_truncated :
    (extractVals (stripCrafted "x 5 y 6".toList) : List (NumVal Dbl)) = [.int 5, .int 6] ∧
    parseStat (apiOf statsTwo []) (itemOf [filterX "x # y #" [.int 10]]) "x 5 y 6".toList false =
      .ok (true, itemOf [filterX "x # y #" [.int 15]], apiOf statsTwo []) := by
  decide

/-- Witness of `parseStat_merge_lengths`: two values are stored and the line brings one. -/
theorem parseStat_merge_lengths_witness :
    parseStat (apiOf statsOne []) (itemOf [filterX "x # y" [.int 10, .int 20]])
      "x 5 y".toList false = .error .type_error :=
  (parseStat_merge_lengths (apiOf statsOne []) (itemOf [filterX "x # y" [.int 10, .int 20]])
    "x 5 y".toList "x 5 y".toList false "x # y".toList [.int 5] (filterX "x # y" [.int 5]).2
    (filterX "x # y" [.int 10, .int 20]).2 (Or.inl ⟨rfl, by decide⟩) (by decide) (by decide)
    (by decide)).1 (by decide)

/-- C2, counterexample. The line "5% reduced Y" has one value, its templated form is no key
and its flipped form is a key whose entry has the id "X"; that id is in the filters with the
value 10, and after the call the value recorded for "X" is 5, not -5. -/
theorem parseStat_reduced_merged :
    (extractVals (stripCrafted "5% reduced Y".toList) : List (NumVal Dbl)) = [.int 5] ∧
    containsStr "5% reduced Y".toList reducedWord = true ∧
    hasKey statsIncreased (templated (stripCrafted "5% reduced Y".toList)) = false ∧
    hasKey statsIncreased
      (replaceStr (templated (stripCrafted "5% reduced Y".toList)) reducedWord increasedWord)
      = true ∧
    parseStat (apiOf statsIncreased []) (itemOf [filterX "#% increased Y" [.int 10]])
      "5% reduced Y".toList false =
      .ok (true, itemOf [filterX "#% increased Y" [.int 5]], apiOf statsIncreased []) := by
  decide

/-! ## The word "reduced" survives the rewriting of the line -/

theorem startsWith_iff (s p : Str) : startsWith s p = true ↔ ∃ v, s = p ++ v := by
  induction p generalizing s with
  | nil => cases s <;> simp [startsWith]
  | cons c cs ih =>
    cases s with
    | nil => simp [startsWith]
    | cons x xs =>
      simp only [startsWith, Bool.and_eq_true, beq_iff_eq, ih, List.cons_append, List.cons.injEq]
      constructor
      · rintro ⟨h1, v, h2⟩
        exact ⟨v, h1, h2⟩
      · rintro ⟨v, h1, h2⟩
        exact ⟨h1, v, h2⟩

theorem containsStr_of_append (u w v : Str) : containsStr (u ++ (w ++ v)) w = true := by
  induction u with
  | nil =>
    have h : startsWith (w ++ v) w = true := (startsWith_iff _ _).mpr ⟨v, rfl⟩
    cases hw : w ++ v with
    | nil =>
      have : w = [] := by
        cases w with
        | nil => rfl
        | cons a as => simp at hw
      subst this
      rfl
    | cons x xs =>
      rw [hw] at h
      simp [containsStr, h]
  | cons x xs ih => simp [containsStr, ih]

theorem containsStr_split (s w : Str) (h : containsStr s w = true) :
    ∃ u v, s = u ++ (w ++ v) := by
  induction s with
  | nil =>
    cases w with
    | nil => exact ⟨[], [], rfl⟩
    | cons a as => simp [containsStr] at h
  | cons x xs ih =>
    simp only [containsStr, Bool.or_eq_true] at h
    rcases h with h | h
    · obtain ⟨v, hv⟩ := (startsWith_iff _ _).mp h
      exact ⟨[], v, hv⟩
    · obtain ⟨u, v, huv⟩ := ih h
      exact ⟨x :: u, v, by rw [huv]; rfl⟩

/-- Every non-empty end of the crafted tag, followed by anything, does not start with
"reduced". -/
theorem tag_end_not_reduced (k : Nat) (hk : k < craftedTagSp.length) (rest : Str) :
    startsWith (craftedTagSp.drop k ++ rest) reducedWord = false := by
  have hk10 : k < 10 := hk
  interval_cases k <;> simp [craftedTagSp, reducedWord, startsWith]

/-- No occurrence of the crafted tag starts inside the word "reduced". -/
theorem replaceAux_reduced (v : Str) :
    replaceAux craftedTagSp [] (reducedWord ++ v) 0 =
      reducedWord ++ replaceAux craftedTagSp [] v 0 := by
  simp [reducedWord, craftedTagSp, replaceAux, startsWith]

theorem containsStr_cons (c : Char) (s w : Str) (h : containsStr s w = true) :
    containsStr (c :: s) w = true := by
  simp [containsStr, h]

theorem containsStr_replaceAux (s : Str) (k : Nat) (hk : k < craftedTagSp.length)
    (hs : k = 0 ∨ ∃ rest, s = craftedTagSp.drop (craftedTagSp.length - k) ++ rest)
    (h : containsStr s reducedWord = true) :
    containsStr (replaceAux craftedTagSp [] s k) reducedWord = true := by
  induction s generalizing k with
  | nil => simp [containsStr, reducedWord] at h
  | cons c cs ih =>
    cases k with
    | zero =>
      unfold replaceAux
      split_ifs with hst
      · obtain ⟨rest, hrest⟩ := (startsWith_iff _ _).mp hst
        have h0 : startsWith (c :: cs) reducedWord = false := by
          rw [hrest]
          exact tag_end_not_reduced 0 (by decide) rest
        have hcs : containsStr cs reducedWord = true := by
          simp only [containsStr, h0, Bool.false_or] at h
          exact h
        rw [List.nil_append]
        refine ih (craftedTagSp.length - 1) (by decide) (Or.inr ⟨rest, ?_⟩) hcs
        have : c :: cs = ' ' :: ("(crafted)".toList ++ rest) := hrest
        simp only [List.cons.injEq] at this
        rw [this.2]
        rfl
      · simp only [containsStr, Bool.or_eq_true] at h
        rcases h with h | h
        · obtain ⟨v, hv⟩ := (startsWith_iff _ _).mp h
          have e : c :: replaceAux craftedTagSp [] cs 0 =
              reducedWord ++ replaceAux craftedTagSp [] v 0 := by
            have h1 := replaceAux_reduced v
            rw [← hv] at h1
            rw [← h1, replaceAux, if_neg hst]
          rw [e]
          exact containsStr_of_append [] reducedWord (replaceAux craftedTagSp [] v 0)
        · exact containsStr_cons _ _ _ (ih 0 (by decide) (Or.inl rfl) h)
    | succ k =>
      rcases hs with hs | ⟨rest, hrest⟩
      · omega
      · have hlen : craftedTagSp.length = 10 := rfl
        have h0 : startsWith (c :: cs) reducedWord = false := by
          rw [hrest]
          exact tag_end_not_reduced _ (by omega) rest
        have hcs : containsStr cs reducedWord = true := by
          simp only [containsStr, h0, Bool.false_or] at h
          exact h
        simp only [replaceAux]
        refine ih k (by omega) ?_ hcs
        by_cases hk0 : k = 0
        · exact Or.inl hk0
        · right
          refine ⟨rest, ?_⟩
          have hk9 : k < 9 := by
            have := hk
            rw [hlen] at this
            omega
          interval_cases k
          · exact absurd rfl hk0
          all_goals
            simp only [craftedTagSp, hlen] at hrest ⊢
            simp at hrest ⊢
            exact hrest.2

/-- A line that contains "reduced" still contains it without its crafted tags. -/
theorem containsStr_stripCrafted (s : Str) (h : containsStr s reducedWord = true) :
    containsStr (stripCrafted s) reducedWord = true :=
  containsStr_replaceAux s 0 (by decide) (Or.inl rfl) h

/-- A character outside the classes `[\d\.]` and `[\+\-]` is a piece of its own. -/
theorem scanNums_plain (c : Char) (cs : Str) (h1 : isNumCh c = false) (h2 : isSignCh c = false) :
    scanNums (c :: cs) = .lit c :: scanNums cs := by
  rw [scanNums]
  split
  · split_ifs <;> simp_all
  · simp [h1]

/-- The pieces of a line that continues with a plain character are the pieces of its start
followed by the pieces of its end. -/
theorem scanNums_append_plain (u : Str) (c : Char) (cs : Str) (h1 : isNumCh c = false)
    (h2 : isSignCh c = false) :
    scanNums (u ++ c :: cs) = scanNums u ++ scanNums (c :: cs) := by
  induction u with
  | nil => rfl
  | cons x xs ih =>
    rw [List.cons_append, scanNums, ih, scanNums_plain c cs h1 h2]
    conv_rhs => rw [scanNums]
    cases hxs : scanNums xs with
    | nil =>
      simp only [List.nil_append]
      split_ifs <;> rfl
    | cons t ts =>
      cases t with
      | lit a =>
        simp only [List.cons_append]
        split_ifs <;> rfl
      | num w =>
        cases w with
        | nil =>
          simp only [List.cons_append]
          split_ifs <;> rfl
        | cons d w1 =>
          simp only [List.cons_append]
          split_ifs <;> rfl

theorem templated_append_plain (u : Str) (c : Char) (cs : Str) (h1 : isNumCh c = false)
    (h2 : isSignCh c = false) :
    templated (u ++ c :: cs) = templated u ++ c :: templated cs := by
  unfold templated
  rw [scanNums_append_plain u c cs h1 h2, scanNums_plain c cs h1 h2]
  simp [List.flatMap_append, List.flatMap_cons]

/-- A line that contains "reduced" still contains it after the numbers are replaced. -/
theorem containsStr_templated (s : Str) (h : containsStr s reducedWord = true) :
    containsStr (templated s) reducedWord = true := by
  obtain ⟨u, v, huv⟩ := containsStr_split s reducedWord h
  have e : templated s = templated u ++ (reducedWord ++ templated v) := by
    rw [huv]
    simp only [reducedWord, String.toList, List.cons_append, List.nil_append]
    rw [templated_append_plain u 'r' _ (by decide) (by decide)]
    rw [show ('e' :: 'd' :: 'u' :: 'c' :: 'e' :: 'd' :: v) = [] ++ ('e' :: 'd' :: 'u' :: 'c' :: 'e' :: 'd' :: v) from rfl,
      templated_append_plain [] 'e' _ (by decide) (by decide)]
    rw [show ('d' :: 'u' :: 'c' :: 'e' :: 'd' :: v) = [] ++ ('d' :: 'u' :: 'c' :: 'e' :: 'd' :: v) from rfl,
      templated_append_plain [] 'd' _ (by decide) (by decide)]
    rw [show ('u' :: 'c' :: 'e' :: 'd' :: v) = [] ++ ('u' :: 'c' :: 'e' :: 'd' :: v) from rfl,
      templated_append_plain [] 'u' _ (by decide) (by decide)]
    rw [show ('c' :: 'e' :: 'd' :: v) = [] ++ ('c' :: 'e' :: 'd' :: v) from rfl,
      templated_append_plain [] 'c' _ (by decide) (by decide)]
    rw [show ('e' :: 'd' :: v) = [] ++ ('e' :: 'd' :: v) from rfl,
      templated_append_plain [] 'e' _ (by decide) (by decide)]
    rw [show ('d' :: v) = [] ++ ('d' :: v) from rfl,
      templated_append_plain [] 'd' _ (by decide) (by decide)]
    simp [templated, scanNums]
  rw [e]
  exact containsStr_of_append _ _ _

theorem contains_reduced_not_flag (stat : Str) (h : containsStr stat reducedWord = true) :
    stat ∉ flagStats := by
  intro hm
  simp only [flagStats, List.mem_cons, List.mem_singleton, List.not_mem_nil, or_false] at hm
  rcases hm with hm | hm | hm | hm <;> rw [hm] at h <;> exact absurd h (by decide)

section Flip

variable {F : Type} [DoubleOps F]

omit [DoubleOps F] in
theorem selectEntry_mem_aux (crafted : Bool) (val : List (NumVal F)) (all entries : List StatEntry)
    (hsub : ∀ e ∈ entries, e ∈ all) (init : Option (Filter F)) (f : Filter F)
    (hinit : ∀ g, init = some g → ∃ e ∈ all, g = mkFilter e val)
    (h : selectEntry crafted val entries init = some f) :
    ∃ e ∈ all, f = mkFilter e val := by
  induction entries generalizing init with
  | nil => exact hinit f h
  | cons e rest ih =>
    have hrest : ∀ x ∈ rest, x ∈ all := fun x hx => hsub x (List.mem_cons_of_mem _ hx)
    have he : e ∈ all := hsub e (List.mem_cons_self _ _)
    have hnew : ∀ g, some (mkFilter e val) = some g → ∃ e1 ∈ all, g = mkFilter e1 val := by
      intro g hg
      simp only [Option.some.injEq] at hg
      exact ⟨e, he, hg.symm⟩
    unfold selectEntry at h
    split_ifs at h with h1 h2 h3
    · exact ih hrest init hinit h
    · simp only [Option.some.injEq] at h
      exact ⟨e, he, h.symm⟩
    · exact ih hrest init hinit h
    · cases init with
      | none =>
        simp only at h
        exact ih hrest _ hnew h
      | some g0 =>
        simp only at h
        split_ifs at h
        · exact ih hrest _ hnew h
        · exact ih hrest _ hinit h

omit [DoubleOps F] in
/-- The selected filter is built from an entry stored under the key, with the values handed
to the selection. -/
theorem selectEntry_mem (crafted : Bool) (val : List (NumVal F))
    (stats : List (Str × StatEntry)) (stoken : Str) (f : Filter F)
    (h : selectEntry crafted val (equalRange stats stoken) none = some f) :
    ∃ e, (stoken, e) ∈ stats ∧ f = ⟨e.id, e.type, e.text, val⟩ := by
  obtain ⟨e, he, hf⟩ := selectEntry_mem_aux crafted val _ _ (fun _ h => h) none f
    (fun g hg => by cases hg) h
  refine ⟨e, ?_, hf⟩
  unfold equalRange at he
  simp only [List.mem_map, List.mem_filter, beq_iff_eq] at he
  obtain ⟨⟨k, e1⟩, ⟨hm, hk⟩, he1⟩ := he
  simp only at hk he1
  subst hk
  subst he1
  exact hm

theorem clipInt_range (n : Int) : INT_MIN ≤ clipInt n ∧ clipInt n ≤ INT_MAX := by
  unfold clipInt
  split_ifs with h
  · exact h
  · decide

theorem toInt_range (w : Str) : INT_MIN ≤ toInt w ∧ toInt w ≤ INT_MAX := by
  unfold toInt
  split <;> split_ifs <;> first | exact clipInt_range _ | decide

/-- An integer of the array `val` is a C++ `int`. -/
theorem extractVals_int_range (stat : Str) (n : Int)
    (h : NumVal.int n ∈ (extractVals stat : List (NumVal F))) : INT_MIN ≤ n ∧ n ≤ INT_MAX := by
  unfold extractVals at h
  simp only [List.mem_filterMap] at h
  obtain ⟨t, _, ht⟩ := h
  cases t with
  | lit c => simp at ht
  | num w =>
    simp only [wordVal, Option.some.injEq] at ht
    split_ifs at ht
    · simp only [NumVal.int.injEq] at ht
      rw [← ht]
      exact toInt_range w

/-- The flip of an `int` other than the smallest one is its opposite. -/
theorem negVal_int (n : Int) (h1 : INT_MIN < n) (h2 : n ≤ INT_MAX) :
    negVal (NumVal.int n : NumVal F) = .int (-n) := by
  unfold INT_MIN at h1
  unfold INT_MAX at h2
  simp only [negVal, NumVal.is_number_float, NumVal.getInt, wrapInt, Bool.false_eq_true,
    if_false, NumVal.int.injEq]
  omega

/-- The lookups of `parseStat` on a line whose templated form is no key, which has a value
and contains "reduced", and whose flipped form is a key. -/
theorem findKey_flip (stats : List (Str × StatEntry)) (orig stat : Str)
    (hnum : (extractVals stat : List (NumVal F)) ≠ [])
    (hred : containsStr (templated stat) reducedWord = true)
    (hno : hasKey stats (templated stat) = false)
    (hyes : hasKey stats (replaceStr (templated stat) reducedWord increasedWord) = true) :
    findKey stats orig stat =
      some (replaceStr (templated stat) reducedWord increasedWord,
        (extractVals stat : List (NumVal F)).map negVal) := by
  have hne : (extractVals stat : List (NumVal F)).isEmpty = false := by
    cases h : (extractVals stat : List (NumVal F)) with
    | nil => exact absurd h hnum
    | cons a as => rfl
  unfold findKey flipReduced
  simp [hno, hne, hred, hyes]

/-- C2, amended. For every line that has at least one numeric value and contains "reduced",
whose templated form is no dictionary key and whose templated form with "reduced" rewritten
to "increased" is a key with a qualifying entry, `parseStat` selects that entry with the
extracted values, each multiplied by -1, in the same order (the opposite of every integer
other than the smallest `int`). If the id of the entry is not yet in the filters the call
returns true and records exactly this filter; if it is, the call merges the flipped values
into the stored sequence. -/
theorem parseStat_reduced_flip (api : ItemAPI F) (item : PItem F) (stat : Str)
    (multiline : Bool) (filter : Filter F)
    (hnum : (extractVals (stripCrafted stat) : List (NumVal F)) ≠ [])
    (hred : containsStr stat reducedWord = true)
    (hno : hasKey api.m_stats_by_text (templated (stripCrafted stat)) = false)
    (hyes : hasKey api.m_stats_by_text
      (replaceStr (templated (stripCrafted stat)) reducedWord increasedWord) = true)
    (hsel : selectEntry (endsWith stat craftedTag)
      ((extractVals (stripCrafted stat) : List (NumVal F)).map negVal)
      (equalRange api.m_stats_by_text
        (replaceStr (templated (stripCrafted stat)) reducedWord increasedWord)) none
      = some filter) :
    (∃ e : StatEntry,
      (replaceStr (templated (stripCrafted stat)) reducedWord increasedWord, e)
        ∈ api.m_stats_by_text ∧
      filter = ⟨e.id, e.type, e.text,
        (extractVals (stripCrafted stat) : List (NumVal F)).map negVal⟩) ∧
    (∀ n : Int, NumVal.int n ∈ (extractVals (stripCrafted stat) : List (NumVal F)) →
      n ≠ INT_MIN → negVal (NumVal.int n : NumVal F) = .int (-n)) ∧
    (lookupKey filter.id item.filters = none →
      parseStat api item stat multiline =
        .ok (true, { item with filters := emplaceKey filter.id filter item.filters },
          { api with m_section := [] }) ∧
      lookupKey filter.id (emplaceKey filter.id filter item.filters) = some filter) ∧
    (∀ efil : Filter F, lookupKey filter.id item.filters = some efil →
      parseStat api item stat multiline =
        match mergeValues efil.value filter.value with
        | .error x => .error x
        | .ok merged =>
          .ok (true,
            { item with filters := assignKey filter.id { efil with value := merged } item.filters },
            { api with m_section := [] })) := by
  have hflag := contains_reduced_not_flag stat hred
  have hred1 := containsStr_templated _ (containsStr_stripCrafted stat hred)
  have hk := findKey_flip api.m_stats_by_text stat (stripCrafted stat) hnum hred1 hno hyes
  have hmain := parseStat_matched api item stat stat multiline _ _ filter
    (Or.inl ⟨rfl, hflag⟩) hk hsel
  refine ⟨selectEntry_mem _ _ _ _ _ hsel, ?_, ?_, ?_⟩
  · intro n hn hmin
    have hr := extractVals_int_range (stripCrafted stat) n hn
    exact negVal_int n (lt_of_le_of_ne hr.1 (Ne.symm hmin)) hr.2
  · intro hnew
    rw [hmain, storeFilter_new _ _ hnew]
    exact ⟨rfl, lookupKey_emplaceKey_self _ _ _ hnew⟩
  · intro efil hfil
    rw [hmain, storeFilter_present _ _ _ hfil]
    cases mergeValues efil.value filter.value with
    | error x => rfl
    | ok merged => rfl

end Flip

/-- Witness of `parseStat_reduced_flip`: "5% reduced Y" is recorded for the new id "X" with
the value -5. -/
theorem parseStat_reduced_flip_witness :
    parseStat (apiOf statsIncreased []) (itemOf []) "5% reduced Y".toList false =
      .ok (true, itemOf [filterX "#% increased Y" [.int (-5)]], apiOf statsIncreased []) :=
  ((parseStat_reduced_flip (apiOf statsIncreased []) (itemOf []) "5% reduced Y".toList false
    (filterX "#% increased Y" [.int (-5)]).2 (by decide) (by decide) (by decide) (by decide)
    (by decide)).2.2.1 (by decide)).1

/-! ## The pseudo aggregator -/

section Pseudos

variable {F : Type} [DoubleOps F]

/-- The "add" loop on a pseudo array of integers that is not shorter than the array of
integers of the filter. -/
theorem accumulateVals_ints (factor : F) (p v : List Int) (h : v.length ≤ p.length) :
    accumulateVals factor (p.map NumVal.int) (v.map NumVal.int) =
      .ok ((List.zipWith (fun y x => (NumVal.int (wrapInt (y +
          DoubleOps.toInt (DoubleOps.mul (DoubleOps.ofInt (wrapInt x) : F) factor))) : NumVal F))
        p v) ++ (p.drop v.length).map NumVal.int) := by
  induction v generalizing p with
  | nil => cases p <;> simp [accumulateVals]
  | cons x xs ih =>
    cases p with
    | nil => simp at h
    | cons y ys =>
      simp only [List.length_cons, Nat.add_le_add_iff_right] at h
      simp only [List.map_cons, accumulateVals, ih ys h, NumVal.is_number_float, NumVal.getInt,
        wrapInt_wrapInt_add, List.zipWith_cons_cons, List.drop_succ_cons, List.cons_append]
      rfl

/-- The "add" loop throws when the pseudo array is shorter than the array of the filter. -/
theorem accumulateVals_short (factor : F) (p v : List (NumVal F)) (h : p.length < v.length) :
    accumulateVals factor p v = .error .type_error := by
  induction v generalizing p with
  | nil => simp at h
  | cons x xs ih =>
    cases p with
    | nil => rfl
    | cons y ys =>
      simp only [List.length_cons, Nat.add_lt_add_iff_right] at h
      simp only [accumulateVals, ih ys h]

theorem map_scaleVal_ints (factor : F) (v : List Int)
    (hv : ∀ x ∈ v, INT_MIN ≤ x ∧ x ≤ INT_MAX) :
    (v.map NumVal.int).map (scaleVal factor) =
      v.map (fun x => (NumVal.int (DoubleOps.toInt
        (DoubleOps.mul (DoubleOps.ofInt x : F) factor)) : NumVal F)) := by
  rw [List.map_map]
  apply List.map_congr_left
  intro x hx
  have := hv x hx
  simp [scaleVal, NumVal.is_number_float, NumVal.getInt, wrapInt_of_range x this.1 this.2]

theorem zipWith_wrap_congr (factor : F) (p v : List Int)
    (hv : ∀ x ∈ v, INT_MIN ≤ x ∧ x ≤ INT_MAX) :
    List.zipWith (fun y x => (NumVal.int (wrapInt (y +
        DoubleOps.toInt (DoubleOps.mul (DoubleOps.ofInt (wrapInt x) : F) factor))) : NumVal F))
      p v =
    List.zipWith (fun y x => (NumVal.int (wrapInt (y +
        DoubleOps.toInt (DoubleOps.mul (DoubleOps.ofInt x : F) factor))) : NumVal F)) p v := by
  induction v generalizing p with
  | nil => simp
  | cons x xs ih =>
    cases p with
    | nil => simp
    | cons y ys =>
      have hx := hv x (List.mem_cons_self _ _)
      simp only [List.zipWith_cons_cons, wrapInt_of_range x hx.1 hx.2,
        ih ys (fun z hz => hv z (List.mem_cons_of_mem _ hz))]

/-- The shape of the result of one rule of operator "add" on a filter of `int` values, for
any type of `double`s: a new pseudo, the sums into an existing one, or the thrown error. -/
theorem applyRule_shape (fil : Filter F) (r : PseudoRule F)
    (st : List (Str × Option StatEntry) × List (Str × Pseudo F)) (v : List Int)
    (hfil : fil.value = v.map NumVal.int) (hv : ∀ x ∈ v, INT_MIN ≤ x ∧ x ≤ INT_MAX)
    (hop : r.op = addOp) :
    (lookupKey r.id st.2 = none →
      applyRule fil st r =
        .ok ((statsByIdAt r.id st.1).2,
          emplaceKey r.id
            ⟨(statsByIdAt r.id st.1).1,
              v.map (fun x => NumVal.int (DoubleOps.toInt
                (DoubleOps.mul (DoubleOps.ofInt x : F) r.factor)))⟩ st.2) ∧
      lookupKey r.id (emplaceKey r.id
          (⟨(statsByIdAt r.id st.1).1,
            v.map (fun x => NumVal.int (DoubleOps.toInt
              (DoubleOps.mul (DoubleOps.ofInt x : F) r.factor)))⟩ : Pseudo F) st.2) =
        some ⟨lookupKey r.id st.1 |>.getD none,
          v.map (fun x => NumVal.int (DoubleOps.toInt
            (DoubleOps.mul (DoubleOps.ofInt x : F) r.factor)))⟩) ∧
    (∀ (ps : Pseudo F) (p : List Int), lookupKey r.id st.2 = some ps →
      ps.value = p.map NumVal.int →
      (v.length ≤ p.length →
        applyRule fil st r =
          .ok ((statsByIdAt r.id st.1).2,
            assignKey r.id
              ⟨ps.entry,
                List.zipWith (fun y x => NumVal.int (wrapInt (y + DoubleOps.toInt
                  (DoubleOps.mul (DoubleOps.ofInt x : F) r.factor)))) p v ++
                (p.drop v.length).map NumVal.int⟩ st.2)) ∧
      (p.length < v.length → applyRule fil st r = .error .type_error)) := by
  constructor
  · intro hnone
    have e : applyRule fil st r =
        .ok ((statsByIdAt r.id st.1).2,
          emplaceKey r.id ⟨(statsByIdAt r.id st.1).1, fil.value.map (scaleVal r.factor)⟩ st.2) := by
      unfold applyRule
      simp only [hnone]
    rw [e, hfil, map_scaleVal_ints r.factor v hv]
    refine ⟨rfl, ?_⟩
    rw [lookupKey_emplaceKey_self _ _ _ hnone]
    unfold statsByIdAt
    cases lookupKey r.id st.1 <;> rfl
  · intro ps p hps hp
    constructor
    · intro hlen
      unfold applyRule
      simp only [hps, hop, if_true, hfil, hp, accumulateVals_ints r.factor p v hlen,
        zipWith_wrap_congr r.factor p v hv]
    · intro hlen
      unfold applyRule
      simp only [hps, hop, if_true]
      rw [accumulateVals_short r.factor ps.value fil.value (by rw [hp, hfil]; simpa using hlen)]

end Pseudos

/-- C7, counterexample. The filters "A", of value 20, and "B", of values 20 and 20, feed the
pseudo "Y" by a rule of factor 0.5 and operator "add". After "A" the pseudo "Y" exists
with the sequence 10; the rule applied to "B" then throws, and so does `parse` on the item that
carries the two lines. -/
theorem parse_pseudo_shorter_sequence :
    pseudosOf (parse apiPseudo "Rarity: Rare\nN\nT\n---\n---\na 20".toList) =
      some [("Y".toList, ⟨some entryY, [.int 10]⟩)] ∧
    applyRule ⟨"B".toList, "explicit".toList, "b # #".toList, [.int 20, .int 20]⟩
      (apiPseudo.m_stats_by_id, [("Y".toList, (⟨some entryY, [.int 10]⟩ : Pseudo Dbl))]) ruleY =
      .error .type_error ∧
    parse apiPseudo "Rarity: Rare\nN\nT\n---\n---\na 20\nb 20 20".toList = .error .type_error := by
  decide

/-- C7, amended. Let a filter have the sequence `v` of `int` values and let a rule of
operator "add", target `Y` and factor `f` be applied to it in the pseudo pass of `parse`. If
no pseudo `Y` exists yet, the pass creates it with the values `(int)(v[i] * f)` and the entry
of `Y` in the id dictionary. If a pseudo `Y` exists with a sequence `p` of integers at least as
long as `v`, its value at each index `i` of `v` becomes the `int` sum of `p[i]` and
`(int)(v[i] * f)`, and the values past the length of `v` stay. If `p` is shorter than `v` the
pass throws a `json` type error. Every value `(int)(v[i] * f)` is an `int`: the cast gives the
number of the `double` truncated toward zero when the `double` is finite and that truncation
is an `int`, and the smallest `int` otherwise, where the cast is undefined in C++. For a
finite factor `f` the conversion of `v[i]` to `double` is exact and the product is the number
`v[i] * f` rounded to the nearest `double`; so the value is the truncation of the number
`v[i] * f` whenever that number is itself a `double` and its truncation is an `int`. -/
theorem applyRule_ints (fil : Filter Dbl) (r : PseudoRule Dbl)
    (st : List (Str × Option StatEntry) × List (Str × Pseudo Dbl)) (v : List Int)
    (hfil : fil.value = v.map NumVal.int) (hv : ∀ x ∈ v, INT_MIN ≤ x ∧ x ≤ INT_MAX)
    (hop : r.op = addOp) :
    (lookupKey r.id st.2 = none →
      applyRule fil st r =
        .ok ((statsByIdAt r.id st.1).2,
          emplaceKey r.id
            ⟨(statsByIdAt r.id st.1).1,
              v.map (fun x => NumVal.int (Dbl.toInt (Dbl.mul (Dbl.ofInt x) r.factor)))⟩ st.2) ∧
      lookupKey r.id (emplaceKey r.id
          (⟨(statsByIdAt r.id st.1).1,
            v.map (fun x => NumVal.int (Dbl.toInt (Dbl.mul (Dbl.ofInt x) r.factor)))⟩ :
            Pseudo Dbl) st.2) =
        some ⟨lookupKey r.id st.1 |>.getD none,
          v.map (fun x => NumVal.int (Dbl.toInt (Dbl.mul (Dbl.ofInt x) r.factor)))⟩) ∧
    (∀ (ps : Pseudo Dbl) (p : List Int), lookupKey r.id st.2 = some ps →
      ps.value = p.map NumVal.int →
      (v.length ≤ p.length →
        applyRule fil st r =
          .ok ((statsByIdAt r.id st.1).2,
            assignKey r.id
              ⟨ps.entry,
                List.zipWith (fun y x => NumVal.int (wrapInt (y +
                  Dbl.toInt (Dbl.mul (Dbl.ofInt x) r.factor)))) p v ++
                (p.drop v.length).map NumVal.int⟩ st.2)) ∧
      (p.length < v.length → applyRule fil st r = .error .type_error)) ∧
    (∀ x : Int, INT_MIN ≤ Dbl.toInt (Dbl.mul (Dbl.ofInt x) r.factor) ∧
      Dbl.toInt (Dbl.mul (Dbl.ofInt x) r.factor) ≤ INT_MAX) ∧
    (∀ p : Dbl, Dbl.toInt p =
      if p.isFinite = true ∧ INT_MIN ≤ truncQ p.val ∧ truncQ p.val ≤ INT_MAX
      then truncQ p.val else INT_MIN) ∧
    (r.factor.isFinite = true → ∀ x ∈ v,
      ((Dbl.ofInt x).isFinite = true ∧ (Dbl.ofInt x).val = x) ∧
      Dbl.isNearest (x * r.factor.val) (Dbl.mul (Dbl.ofInt x) r.factor) ∧
      (∀ d : Dbl, d.isDouble → d.isFinite = true → d.val = x * r.factor.val →
        INT_MIN ≤ truncQ (x * r.factor.val) → truncQ (x * r.factor.val) ≤ INT_MAX →
        Dbl.toInt (Dbl.mul (Dbl.ofInt x) r.factor) = truncQ (x * r.factor.val))) := by
  obtain ⟨g1, g2⟩ := @applyRule_shape Dbl _ fil r st v hfil hv hop
  exact ⟨g1, g2, fun x => DoubleOps.toInt_range (Dbl.mul (Dbl.ofInt x) r.factor), toInt_spec,
    fun hf x hx => scaled_int x r.factor (hv x hx) hf⟩

/-- Witness of `applyRule_ints`: the value 20 with the factor 0.5 creates the pseudo with the
value 10, which is the truncation of the number 20 * 0.5, a second filter of value 20 makes it
20, the value -5 gives -2 (truncation toward zero), and `parse` on an item with two such lines
returns the pseudo with the value 20. The value 100 with the factor 0.29 gives 28, the
`double` read from "0.29" being less than 0.29. The value 3 with the factor
0.3333333333333333 gives 1 although the number 3 * f is less than 1: the product is rounded
to 1.0 before the cast. The value 2147483647 with the factor 2.0 gives the smallest `int`. -/
theorem applyRule_ints_witness :
    applyRule ⟨"A".toList, "explicit".toList, "a #".toList, [.int 20]⟩
      (apiPseudo.m_stats_by_id, []) ruleY =
      .ok (apiPseudo.m_stats_by_id, [("Y".toList, (⟨some entryY, [.int 10]⟩ : Pseudo Dbl))]) ∧
    applyRule ⟨"C".toList, "explicit".toList, "c #".toList, [.int 20]⟩
      (apiPseudo.m_stats_by_id, [("Y".toList, (⟨some entryY, [.int 10]⟩ : Pseudo Dbl))]) ruleY =
      .ok (apiPseudo.m_stats_by_id, [("Y".toList, (⟨some entryY, [.int 20]⟩ : Pseudo Dbl))]) ∧
    applyRule ⟨"A".toList, "explicit".toList, "a #".toList, [.int (-5)]⟩
      (apiPseudo.m_stats_by_id, []) ruleY =
      .ok (apiPseudo.m_stats_by_id, [("Y".toList, (⟨some entryY, [.int (-2)]⟩ : Pseudo Dbl))]) ∧
    pseudosOf (parse apiPseudo "Rarity: Rare\nN\nT\n---\n---\na 20\nc 20".toList) =
      some [("Y".toList, ⟨some entryY, [.int 20]⟩)] ∧
    (Dbl.toInt (Dbl.mul (Dbl.ofInt 20) ruleY.factor) = truncQ (((20 : Int) : ℚ) * ruleY.factor.val) ∧
      truncQ (((20 : Int) : ℚ) * ruleY.factor.val) = 10 ∧
      Dbl.isNearest (((20 : Int) : ℚ) * ruleY.factor.val) (Dbl.mul (Dbl.ofInt 20) ruleY.factor)) ∧
    (Dbl.parse "0.29".toList = Dbl.fin false 5224175567749775 (-54) ∧
      Dbl.toInt (Dbl.mul (Dbl.ofInt 100) (Dbl.parse "0.29".toList)) = 28) ∧
    (Dbl.parse "0.3333333333333333".toList = Dbl.fin false 6004799503160661 (-54) ∧
      Dbl.toInt (Dbl.mul (Dbl.ofInt 3) (Dbl.fin false 6004799503160661 (-54))) = 1 ∧
      truncQ (((3 : Int) : ℚ) * Dbl.val (Dbl.fin false 6004799503160661 (-54))) = 0) ∧
    (Dbl.parse "2.0".toList = Dbl.fin false 4503599627370496 (-51) ∧
      Dbl.toInt (Dbl.mul (Dbl.ofInt 2147483647) (Dbl.parse "2.0".toList)) = -2147483648) := by
  have hval : ((20 : Int) : ℚ) * ruleY.factor.val = ((10 : Int) : ℚ) := by
    norm_num [ruleY, Dbl.val]
  have htr : truncQ (((20 : Int) : ℚ) * ruleY.factor.val) = 10 := by
    rw [hval]
    simp [truncQ]
  have hA := applyRule_ints ⟨"A".toList, "explicit".toList, "a #".toList, [.int 20]⟩ ruleY
    (apiPseudo.m_stats_by_id, []) [20] rfl (by decide) rfl
  have hx := hA.2.2.2.2 rfl 20 (List.mem_singleton.mpr rfl)
  refine ⟨?_, ?_, ?_, by decide, ⟨?_, htr, hx.2.1⟩, by decide, ⟨by decide, by decide, ?_⟩,
    by decide⟩
  · exact (hA.1 rfl).1.trans (by decide)
  · have h := ((applyRule_ints ⟨"C".toList, "explicit".toList, "c #".toList, [.int 20]⟩ ruleY
      (apiPseudo.m_stats_by_id, [("Y".toList, (⟨some entryY, [.int 10]⟩ : Pseudo Dbl))]) [20] rfl
      (by decide) rfl).2.1 ⟨some entryY, [.int 10]⟩ [10] rfl rfl).1 (by decide)
    exact h.trans (by decide)
  · have h := (applyRule_ints ⟨"A".toList, "explicit".toList, "a #".toList, [.int (-5)]⟩ ruleY
      (apiPseudo.m_stats_by_id, []) [-5] rfl (by decide) rfl).1 rfl
    exact h.1.trans (by decide)
  · refine hx.2.2 (Dbl.fin false 10 0) (by decide) rfl ?_ ?_ ?_
    · rw [hval]
      norm_num [Dbl.val]
    · rw [htr]
      decide
    · rw [htr]
      decide
  · have h : ((3 : Int) : ℚ) * Dbl.val (Dbl.fin false 6004799503160661 (-54)) =
        18014398509481983 / 18014398509481984 := by norm_num [Dbl.val]
    rw [h]
    unfold truncQ
    rw [if_pos (by norm_num), Int.floor_eq_iff]
    norm_num

/-! ## The item assembler -/

section Parse

variable {F : Type} [DoubleOps F]

/-- C1, amended. `parse` returns no record when the first line of the input does not start
with "Rarity:", and leaves the members of `ItemAPI` as they were. For every input whose first
line starts with "Rarity:" the call never returns the null record: it returns a record, or it
is ended by the `json` type error of a merge of sequences of different lengths. -/
theorem parse_returns_record (api : ItemAPI F) (itemText : Str) :
    (startsWith ((readLines itemText).getD 0 []) rarityMarker = false →
      parse api itemText = .ok (none, api)) ∧
    (startsWith ((readLines itemText).getD 0 []) rarityMarker = true →
      parse api itemText = .error .type_error ∨
      ∃ (item : PItem F) (api1 : ItemAPI F), parse api itemText = .ok (some item, api1)) := by
  constructor
  · intro h
    unfold parse
    simp only [h, Bool.not_false, if_true]
  · intro h
    unfold parse
    simp only [h, Bool.not_true, Bool.false_eq_true, if_false]
    split
    · rename_i x _
      cases x
      exact Or.inl rfl
    · split
      · rename_i x _
        cases x
        exact Or.inl rfl
      · exact Or.inr ⟨_, _, rfl⟩

end Parse

/-- C1, counterexample. The first line of the input starts with "Rarity:", its two stat lines
match the same template with one value and with no value, and `parse` returns no record: the
merge of the second line throws. -/
theorem parse_rarity_led_throws :
    startsWith ((readLines "Rarity: Rare\nN\nT\n---\n---\nx 5 y\nx # y".toList).getD 0 [])
      rarityMarker = true ∧
    parse (apiOf statsOne []) "Rarity: Rare\nN\nT\n---\n---\nx 5 y\nx # y".toList =
      .error .type_error := by
  decide

/-- Witness of `parse_returns_record`: a text that is no item gives no record, and an item
with one stat line gives a record with one filter. -/
theorem parse_returns_record_witness :
    parse (apiOf statsOne []) "hello".toList = .ok (none, apiOf statsOne []) ∧
    (parse (apiOf statsOne []) "Rarity: Rare\nN\nT\n---\n---\nx 5 y".toList =
        .error .type_error ∨
      ∃ (item : PItem Dbl) (api1 : ItemAPI Dbl),
        parse (apiOf statsOne []) "Rarity: Rare\nN\nT\n---\n---\nx 5 y".toList =
          .ok (some item, api1)) ∧
    (parse (apiOf statsOne []) "Rarity: Rare\nN\nT\n---\n---\nx 5 y".toList).toOption.map
        (fun r => r.1.map (fun item => item.filters)) =
      some (some [filterX "x # y" [.int 5]]) :=
  ⟨(parse_returns_record (apiOf statsOne []) "hello".toList).1 (by decide),
   (parse_returns_record (apiOf statsOne [])
      "Rarity: Rare\nN\nT\n---\n---\nx 5 y".toList).2 (by decide),
   by decide⟩

/-! ## The numeric literals of a stat line -/

/-- The pieces of a line, put end to end, are the line. -/
theorem scanNums_text (s : Str) : (scanNums s).flatMap Tok.text = s := by
  induction s with
  | nil => rfl
  | cons c cs ih =>
    rw [scanNums]
    cases hxs : scanNums cs with
    | nil =>
      rw [hxs] at ih
      simp only [List.flatMap_nil] at ih
      simp only
      split_ifs <;> simp [Tok.text, ← ih]
    | cons t ts =>
      rw [hxs] at ih
      cases t with
      | lit a =>
        simp only
        split_ifs <;> simp [Tok.text, List.flatMap_cons, ← ih]
      | num w =>
        cases w with
        | nil =>
          simp only
          split_ifs <;> simp [Tok.text, List.flatMap_cons, ← ih]
        | cons d w1 =>
          simp only
          split_ifs <;> simp [Tok.text, List.flatMap_cons, ← ih]

/-- The shape of every match of `([\+\-]?[\d\.]+)`: one or more digits and dots, after at
most one sign. -/
theorem scanNums_num_shape (s : Str) (w : Str) (h : Tok.num w ∈ scanNums s) :
    ∃ body : Str, body ≠ [] ∧ (∀ c ∈ body, isNumCh c = true) ∧
      (w = body ∨ ∃ c, isSignCh c = true ∧ isNumCh c = false ∧ w = c :: body) := by
  induction s generalizing w with
  | nil => simp [scanNums] at h
  | cons c cs ih =>
    have hsign : ∀ x : Char, isSignCh x = true → isNumCh x = false := by
      intro x hx
      simp only [isSignCh, Bool.or_eq_true, beq_iff_eq] at hx
      rcases hx with hx | hx <;> subst hx <;> decide
    rw [scanNums] at h
    cases hxs : scanNums cs with
    | nil =>
      rw [hxs] at h
      simp only at h
      split_ifs at h with h1
      · simp only [List.mem_singleton, Tok.num.injEq] at h
        exact ⟨[c], by simp, by simpa using h1, Or.inl h⟩
      · simp at h
    | cons t ts =>
      rw [hxs] at h ih
      have ihts : ∀ w, Tok.num w ∈ t :: ts → _ := fun w hw => ih w hw
      cases t with
      | lit a =>
        simp only at h
        split_ifs at h with h1
        · rcases List.mem_cons.mp h with h | h
          · simp only [Tok.num.injEq] at h
            exact ⟨[c], by simp, by simpa using h1, Or.inl h⟩
          · exact ihts w h
        · rcases List.mem_cons.mp h with h | h
          · cases h
          · exact ihts w h
      | num w0 =>
        cases w0 with
        | nil =>
          simp only at h
          split_ifs at h with h1
          · rcases List.mem_cons.mp h with h | h
            · simp only [Tok.num.injEq] at h
              exact ⟨[c], by simp, by simpa using h1, Or.inl h⟩
            · exact ihts w h
          · rcases List.mem_cons.mp h with h | h
            · cases h
            · exact ihts w h
        | cons d w1 =>
          simp only at h
          obtain ⟨body, hne, hall, hw0⟩ := ihts (d :: w1) (List.mem_cons_self _ _)
          split_ifs at h with h1 h2 h3
          · rcases List.mem_cons.mp h with h | h
            · simp only [Tok.num.injEq] at h
              have hb : d :: w1 = body := by
                rcases hw0 with hw0 | ⟨x, hx, hxn, hw0⟩
                · exact hw0
                · simp only [List.cons.injEq] at hw0
                  rw [hw0.1, hxn] at h1
                  exact absurd h1 (by decide)
              simp only [Bool.or_eq_true] at h2
              by_cases hcn : isNumCh c = true
              · refine ⟨c :: body, by simp, ?_, Or.inl (by rw [h, hb])⟩
                intro x hx
                rcases List.mem_cons.mp hx with hx | hx
                · rw [hx]; exact hcn
                · exact hall x hx
              · have hcs : isSignCh c = true := by
                  rcases h2 with h2 | h2
                  · exact absurd h2 hcn
                  · exact h2
                exact ⟨body, hne, hall, Or.inr ⟨c, hcs, by simpa using hcn, by rw [h, hb]⟩⟩
            · exact ihts w (List.mem_cons_of_mem _ h)
          · rcases List.mem_cons.mp h with h | h
            · cases h
            · exact ihts w h
          · rcases List.mem_cons.mp h with h | h
            · simp only [Tok.num.injEq] at h
              exact ⟨[c], by simp, by simpa using h3, Or.inl h⟩
            · exact ihts w h
          · rcases List.mem_cons.mp h with h | h
            · cases h
            · exact ihts w h

theorem digitChar_digitVal (c : Char) (h : c.isDigit = true) : Nat.digitChar (digitVal c) = c := by
  have hc : c ∈ ['0', '1', '2', '3', '4', '5', '6', '7', '8', '9'] := by
    simp only [Char.isDigit, Bool.and_eq_true, decide_eq_true_eq] at h
    obtain ⟨h1, h2⟩ := h
    have h1n : 48 ≤ c.val.toNat := h1
    have h2n : c.val.toNat ≤ 57 := h2
    have hval : c = Char.ofNat c.toNat := (Char.ofNat_toNat c).symm
    have hn : c.toNat = c.val.toNat := rfl
    rw [hval, hn]
    interval_cases c.val.toNat <;> decide
  simp only [List.mem_cons, List.mem_singleton, List.not_mem_nil, or_false] at hc
  rcases hc with h | h | h | h | h | h | h | h | h | h <;> subst h <;> rfl

theorem digitVal_lt (c : Char) (h : c.isDigit = true) : digitVal c < 10 := by
  simp only [Char.isDigit, Bool.and_eq_true, decide_eq_true_eq] at h
  obtain ⟨h1, h2⟩ := h
  have h2n : c.val.toNat ≤ 57 := h2
  have hn : c.toNat = c.val.toNat := rfl
  unfold digitVal
  omega

theorem digitsVal_append (ds : Str) (c : Char) :
    digitsVal (ds ++ [c]) = digitsVal ds * 10 + digitVal c := by
  simp [digitsVal, List.foldl_append]

theorem digitsVal_foldl_ge (t : Str) (a : Nat) :
    a ≤ t.foldl (fun n c => n * 10 + digitVal c) a := by
  induction t generalizing a with
  | nil => exact Nat.le_refl _
  | cons x xs ih =>
    simp only [List.foldl_cons]
    exact Nat.le_trans (by omega) (ih _)

theorem digitVal_pos (c : Char) (h : c.isDigit = true) (h0 : c ≠ '0') : 0 < digitVal c := by
  have hd := digitChar_digitVal c h
  by_contra hz
  have : digitVal c = 0 := by omega
  rw [this] at hd
  exact h0 hd.symm

theorem digitsVal_pos (d : Char) (ds : Str) (h : d.isDigit = true) (h0 : d ≠ '0') :
    0 < digitsVal (d :: ds) := by
  have h1 := digitVal_pos d h h0
  have h2 := digitsVal_foldl_ge ds (0 * 10 + digitVal d)
  simp only [digitsVal, List.foldl_cons]
  omega

/-- The decimal digits of the value of a string of digits without leading zero are the
string. -/
theorem toDigitsCore_digitsVal (ds : Str) (hall : ∀ c ∈ ds, c.isDigit = true) (hne : ds ≠ [])
    (hlead : ds = ['0'] ∨ ds.head? ≠ some '0') (fuel : Nat) (hf : digitsVal ds < fuel)
    (acc : Str) : Nat.toDigitsCore 10 fuel (digitsVal ds) acc = ds ++ acc := by
  induction ds using List.reverseRecOn generalizing fuel acc with
  | nil => exact absurd rfl hne
  | append_singleton init c ih =>
    have hc : c.isDigit = true := hall c (by simp)
    have hinit : ∀ x ∈ init, x.isDigit = true := fun x hx => hall x (by simp [hx])
    rw [digitsVal_append] at hf ⊢
    have hlt := digitVal_lt c hc
    cases fuel with
    | zero => omega
    | succ f =>
      have hmod : (digitsVal init * 10 + digitVal c) % 10 = digitVal c := by omega
      have hdiv : (digitsVal init * 10 + digitVal c) / 10 = digitsVal init := by omega
      rw [Nat.toDigitsCore]
      simp only [hmod, hdiv, digitChar_digitVal c hc]
      cases init with
      | nil => simp [digitsVal]
      | cons d rest =>
        have hd : d.isDigit = true := hinit d (List.mem_cons_self _ _)
        have hd0 : d ≠ '0' := by
          rcases hlead with hl | hl
          · simp at hl
          · simpa using hl
        have hpos := digitsVal_pos d rest hd hd0
        have hnz : digitsVal (d :: rest) ≠ 0 := by omega
        rw [if_neg hnz]
        rw [ih hinit (by simp) (Or.inr (by simpa using hd0)) f (by omega)]
        simp

theorem toDigits_digitsVal (ds : Str) (h : isDigits ds = true)
    (hlead : ds = ['0'] ∨ ds.head? ≠ some '0') : Nat.toDigits 10 (digitsVal ds) = ds := by
  obtain ⟨hne, hall⟩ := isDigits_spec ds h
  unfold Nat.toDigits
  rw [toDigitsCore_digitsVal ds hall hne hlead _ (Nat.lt_succ_self _)]
  simp

theorem substituteVals_lit {F : Type} (render : NumVal F → Str) (c : Char) (cs : Str)
    (vals : List (NumVal F)) (h : c ≠ '#') :
    substituteVals render (c :: cs) vals = c :: substituteVals render cs vals := by
  cases vals with
  | nil => rfl
  | cons v vs => simp [substituteVals, h]

/-- The substitution of the values of the pieces into the placeholders of the pieces, when no
piece is the character of the placeholder. -/
theorem substituteVals_pieces {F : Type} [DoubleOps F] (render : NumVal F → Str)
    (ts : List Tok) (h : Tok.lit '#' ∉ ts) :
    substituteVals render
        (ts.flatMap (fun t => match t with
          | .num _ => ['#']
          | .lit c => [c]))
        (ts.filterMap (fun t => match t with
          | .num w => some (wordVal w)
          | .lit _ => none)) =
      ts.flatMap (fun t => match t with
        | .num w => render (wordVal w)
        | .lit c => [c]) := by
  induction ts with
  | nil => rfl
  | cons t rest ih =>
    have hrest : Tok.lit '#' ∉ rest := fun hm => h (List.mem_cons_of_mem _ hm)
    cases t with
    | lit c =>
      have hc : c ≠ '#' := fun e => h (e ▸ List.mem_cons_self _ _)
      simp only [List.flatMap_cons, List.filterMap_cons, List.singleton_append]
      rw [substituteVals_lit render c _ _ hc, ih hrest]
    | num w =>
      simp only [List.flatMap_cons, List.filterMap_cons, List.singleton_append]
      rw [substituteVals, if_pos rfl, ih hrest]

theorem lit_mem_scanNums (s : Str) (c : Char) (h : Tok.lit c ∈ scanNums s) : c ∈ s := by
  have ht := scanNums_text s
  rw [← ht]
  exact List.mem_flatMap.mpr ⟨_, h, by simp [Tok.text]⟩

theorem flatMap_congr_mem {α β : Type} (l : List α) (f g : α → List β)
    (h : ∀ x ∈ l, f x = g x) : l.flatMap f = l.flatMap g := by
  induction l with
  | nil => rfl
  | cons x xs ih =>
    simp only [List.flatMap_cons]
    rw [h x (List.mem_cons_self _ _), ih (fun y hy => h y (List.mem_cons_of_mem _ hy))]

theorem clipInt_of_range (n : Int) (h1 : INT_MIN ≤ n) (h2 : n ≤ INT_MAX) : clipInt n = n := by
  unfold clipInt
  rw [if_pos ⟨h1, h2⟩]

/-- The text of the value of a canonical decimal integer that is an `int` is the integer as
it is written. -/
theorem numberStr_toInt (w ds : Str) (hd : isDigits ds = true)
    (hlead : ds = ['0'] ∨ ds.head? ≠ some '0')
    (hw : (w = ds ∧ (digitsVal ds : Int) ≤ INT_MAX) ∨
      (w = '-' :: ds ∧ ds ≠ ['0'] ∧ (digitsVal ds : Int) ≤ 2147483648)) :
    numberStr (toInt w) = w := by
  obtain ⟨hne, hall⟩ := isDigits_spec ds hd
  rcases hw with ⟨hw, hr⟩ | ⟨hw, hnz, hr⟩
  · subst hw
    rw [toInt_digits w hd, clipInt_of_range _ (by unfold INT_MIN; omega) hr]
    unfold numberStr
    rw [if_neg (by omega)]
    simp only [Int.toNat_ofNat]
    exact toDigits_digitsVal w hd hlead
  · subst hw
    have h0 : ds.head? ≠ some '0' := by
      rcases hlead with h | h
      · exact absurd h hnz
      · exact h
    have hpos : 0 < digitsVal ds := by
      cases ds with
      | nil => exact absurd rfl hne
      | cons d rest =>
        exact digitsVal_pos d rest (hall d (List.mem_cons_self _ _)) (by simpa using h0)
    have ht : toInt ('-' :: ds) = -(digitsVal ds : Int) := by
      unfold toInt
      simp only [hd, if_true]
      exact clipInt_of_range _ (by unfold INT_MIN; omega) (by unfold INT_MAX; omega)
    rw [ht]
    unfold numberStr
    rw [if_pos (by omega)]
    simp only [Int.natAbs_neg, Int.natAbs_ofNat]
    rw [toDigits_digitsVal ds hd hlead]

theorem isCanonicalInt_spec (w : Str) (h : isCanonicalInt w = true)
    (h1 : INT_MIN ≤ literalVal w) (h2 : literalVal w ≤ INT_MAX) (h0 : w ≠ ['-', '0']) :
    ∃ ds : Str, isDigits ds = true ∧ (ds = ['0'] ∨ ds.head? ≠ some '0') ∧
      ((w = ds ∧ (digitsVal ds : Int) ≤ INT_MAX) ∨
        (w = '-' :: ds ∧ ds ≠ ['0'] ∧ (digitsVal ds : Int) ≤ 2147483648)) := by
  unfold isCanonicalInt at h
  simp only [Bool.and_eq_true, Bool.or_eq_true, beq_iff_eq, bne_iff_ne, ne_eq] at h
  by_cases hm : w.head? = some '-'
  · simp only [hm, if_true] at h
    cases w with
    | nil => simp at hm
    | cons c cs =>
      simp only [List.head?_cons, Option.some.injEq] at hm
      subst hm
      simp only [List.drop_succ_cons, List.drop_zero] at h
      refine ⟨cs, h.1, h.2, Or.inr ⟨rfl, ?_, ?_⟩⟩
      · intro e
        exact h0 (by rw [e])
      · simp only [literalVal] at h1
        unfold INT_MIN at h1
        omega
  · simp only [hm, if_false] at h
    refine ⟨w, h.1, h.2, Or.inl ⟨rfl, ?_⟩⟩
    obtain ⟨hne, hall⟩ := isDigits_spec w h.1
    have hv : literalVal w = digitsVal w := by
      unfold literalVal
      split
      · exact absurd (hall '+' (List.mem_cons_self _ _)) (by decide)
      · exact absurd (hall '-' (List.mem_cons_self _ _)) (by decide)
      · rfl
    rw [hv] at h2
    exact h2

section Extraction

variable {F : Type} [DoubleOps F]

/-- C11, amended. For every line that contains no placeholder character, the pieces of the line
put end to end are the line, and the templated line with the extracted values put back into
its placeholders from left to right is the line in which every numeric literal is replaced by
the text of its value: it differs from the line only in the writing of the numeric literals.
When every numeric literal of the line is a canonical decimal integer (no plus sign, no
leading zero, no dot) other than "-0" and within the `int` range, the result is the line
itself. -/
theorem extraction_round_trip (render : NumVal F → Str) (s : Str) (h : '#' ∉ s) :
    (scanNums s).flatMap Tok.text = s ∧
    substituteVals render (templated s) (extractVals s) =
      (scanNums s).flatMap (fun t => match t with
        | .num w => render (wordVal w)
        | .lit c => [c]) ∧
    (∀ fmt : F → Str,
      (∀ w, Tok.num w ∈ scanNums s →
        isCanonicalInt w = true ∧ INT_MIN ≤ literalVal w ∧ literalVal w ≤ INT_MAX ∧
          w ≠ ['-', '0']) →
      substituteVals (renderVal fmt) (templated s) (extractVals s) = s) := by
  have hlit : Tok.lit '#' ∉ scanNums s := fun hm => h (lit_mem_scanNums s '#' hm)
  have hsub : ∀ r : NumVal F → Str, substituteVals r (templated s) (extractVals s) =
      (scanNums s).flatMap (fun t => match t with
        | .num w => r (wordVal w)
        | .lit c => [c]) := fun r => substituteVals_pieces r (scanNums s) hlit
  refine ⟨scanNums_text s, hsub render, ?_⟩
  intro fmt hcan
  rw [hsub (renderVal fmt)]
  conv_rhs => rw [← scanNums_text s]
  apply flatMap_congr_mem
  intro t ht
  cases t with
  | lit c => rfl
  | num w =>
    obtain ⟨hc, h1, h2, h0⟩ := hcan w ht
    obtain ⟨ds, hd, hlead, hw⟩ := isCanonicalInt_spec w hc h1 h2 h0
    have hdot : w.contains '.' = false := by
      obtain ⟨_, hall⟩ := isDigits_spec ds hd
      have hnd : ('.' : Char) ∉ ds := not_mem_of_digits ds '.' (by decide) hall
      rcases hw with ⟨hw, _⟩ | ⟨hw, _, _⟩
      · rw [hw]
        simpa using hnd
      · rw [hw]
        simp only [List.contains_cons, Bool.or_eq_false_iff]
        exact ⟨by decide, by simpa using hnd⟩
    simp only [wordVal, hdot, Bool.false_eq_true, if_false, renderVal, Tok.text]
    exact numberStr_toInt w ds hd hlead hw

omit [DoubleOps F] in
/-- C12, amended. Every part of a stat line that the extraction of `parseStat` treats as a
numeric literal (one value pushed, one placeholder written) is made of an optional leading
plus or minus sign followed by one or more characters, each a digit or a dot; a lone dot and a
text with several dots are such parts. -/
theorem extraction_literal_shape (s w : Str) (h : Tok.num w ∈ scanNums s) :
    ∃ body : Str, body ≠ [] ∧ (∀ c ∈ body, c.isDigit = true ∨ c = '.') ∧
      (w = body ∨ w = '+' :: body ∨ w = '-' :: body) := by
  obtain ⟨body, hne, hall, hw⟩ := scanNums_num_shape s w h
  refine ⟨body, hne, ?_, ?_⟩
  · intro c hc
    have := hall c hc
    simpa [isNumCh] using this
  · rcases hw with hw | ⟨c, hc, _, hw⟩
    · exact Or.inl hw
    · simp only [isSignCh, Bool.or_eq_true, beq_iff_eq] at hc
      rcases hc with hc | hc
      · exact Or.inr (Or.inl (by rw [hw, hc]))
      · exact Or.inr (Or.inr (by rw [hw, hc]))

end Extraction

/-- Witness of `extraction_round_trip`: the line "+5% to x, -12 y" without the plus sign of
its first literal, and the line "-12 to 7" as it is. -/
theorem extraction_round_trip_witness :
    substituteVals (renderVal fmtDbl) (templated "+5% to x, -12 y".toList)
        (extractVals "+5% to x, -12 y".toList) = "5% to x, -12 y".toList ∧
    substituteVals (renderVal fmtDbl) (templated "-12 to 7".toList)
        (extractVals "-12 to 7".toList) = "-12 to 7".toList := by
  refine ⟨?_, ?_⟩
  · rw [(extraction_round_trip (renderVal fmtDbl) "+5% to x, -12 y".toList (by decide)).2.1]
    decide
  · refine (extraction_round_trip (renderVal fmtDbl) "-12 to 7".toList (by decide)).2.2 fmtDbl
      ?_
    intro w hw
    have hs : scanNums "-12 to 7".toList =
        [.num "-12".toList, .lit ' ', .lit 't', .lit 'o', .lit ' ', .num ['7']] := by decide
    rw [hs] at hw
    simp only [List.mem_cons, Tok.num.injEq, List.mem_singleton, List.not_mem_nil, or_false,
      reduceCtorEq, false_or] at hw
    rcases hw with h | h <;> subst h <;> decide

/-- C11, counterexample. The line "x 99999999999 y" has no placeholder character and one
numeric literal, a canonical decimal integer, and the templated line with the extracted value
put back is "x 0 y". -/
theorem extraction_round_trip_out_of_range :
    '#' ∉ "x 99999999999 y".toList ∧
    scanNums "x 99999999999 y".toList =
      [.lit 'x', .lit ' ', .num "99999999999".toList, .lit ' ', .lit 'y'] ∧
    isCanonicalInt "99999999999".toList = true ∧
    substituteVals (renderVal fmtDbl) (templated "x 99999999999 y".toList)
      (extractVals "x 99999999999 y".toList) = "x 0 y".toList := by
  decide

/-- C12, counterexample. In the line "a . b 1.2.3" the lone dot and the text "1.2.3" are
extracted: each is replaced by the placeholder and pushes the value 0.0, and neither has the
shape of a sign, digits and at most one dot followed by digits. -/
theorem extraction_lone_dot :
    scanNums "a . b 1.2.3".toList =
      [.lit 'a', .lit ' ', .num ['.'], .lit ' ', .lit 'b', .lit ' ', .num "1.2.3".toList] ∧
    isDecimalLiteral ['.'] = false ∧ isDecimalLiteral "1.2.3".toList = false ∧
    templated "a . b 1.2.3".toList = "a # b #".toList ∧
    (extractVals "a . b 1.2.3".toList : List (NumVal Dbl)) = [.flt (Dbl.zero false), .flt (Dbl.zero false)] := by
  decide

/-! ## Exact and verbatim matches -/

section Exact

variable {F : Type} [DoubleOps F]

omit [DoubleOps F] in
theorem selectEntry_of_init (val : List (NumVal F)) (entries : List StatEntry) (g : Filter F) :
    ∃ f, selectEntry false val entries (some g) = some f := by
  induction entries generalizing g with
  | nil => exact ⟨g, rfl⟩
  | cons e rest ih =>
    unfold selectEntry
    simp only [Bool.false_eq_true, if_false]
    split_ifs
    · exact ih g
    · exact ih _
    · exact ih g

omit [DoubleOps F] in
/-- A line without the crafted mark selects an entry as soon as one entry of the key is no
pseudo. -/
theorem selectEntry_of_non_pseudo (val : List (NumVal F)) (entries : List StatEntry)
    (h : ∃ e ∈ entries, e.type ≠ pseudoKind) :
    ∃ f, selectEntry false val entries none = some f := by
  induction entries with
  | nil =>
    obtain ⟨e, he, _⟩ := h
    simp at he
  | cons e rest ih =>
    unfold selectEntry
    simp only [Bool.false_eq_true, if_false]
    split_ifs with hp
    · apply ih
      obtain ⟨e1, he1, hne⟩ := h
      rcases List.mem_cons.mp he1 with h1 | h1
      · subst h1
        exact absurd hp hne
      · exact ⟨e1, h1, hne⟩
    · exact selectEntry_of_init val rest _

theorem extractVals_eq_literals (s : Str) :
    (extractVals s : List (NumVal F)) = (literals s).map wordVal := by
  unfold extractVals literals
  rw [List.map_filterMap]
  congr 1
  funext t
  cases t <;> rfl

theorem mem_literals (s w : Str) : w ∈ literals s ↔ Tok.num w ∈ scanNums s := by
  unfold literals
  simp only [List.mem_filterMap]
  constructor
  · rintro ⟨t, ht, hw⟩
    cases t with
    | lit c => simp at hw
    | num w1 =>
      simp only [Option.some.injEq] at hw
      rw [← hw]
      exact ht
  · intro h
    exact ⟨_, h, rfl⟩

/-- The `int` read from a literal without dot is the number that the literal writes, or 0
when that number is no `int`. -/
theorem toInt_literal (s w : Str) (h : w ∈ literals s) (hdot : '.' ∉ w) :
    toInt w = clipInt (literalVal w) := by
  obtain ⟨body, hne, hall, hw⟩ := scanNums_num_shape s w ((mem_literals s w).mp h)
  have hbody : '.' ∉ body := by
    rcases hw with hw | ⟨c, _, _, hw⟩
    · rw [← hw]
      exact hdot
    · intro hm
      exact hdot (by rw [hw]; exact List.mem_cons_of_mem _ hm)
  have hdig : isDigits body = true := by
    unfold isDigits
    simp only [Bool.and_eq_true, Bool.not_eq_true', List.isEmpty_eq_false, List.all_eq_true]
    refine ⟨by simpa using hne, fun c hc => ?_⟩
    have hn := hall c hc
    simp only [isNumCh, Bool.or_eq_true, beq_iff_eq] at hn
    rcases hn with hn | hn
    · exact hn
    · exact absurd (hn ▸ hc) hbody
  obtain ⟨_, hdall⟩ := isDigits_spec body hdig
  rcases hw with hw | ⟨c, hc, _, hw⟩
  · rw [hw, toInt_digits body hdig]
    unfold literalVal
    split
    · exact absurd (hdall '+' (List.mem_cons_self _ _)) (by decide)
    · exact absurd (hdall '-' (List.mem_cons_self _ _)) (by decide)
    · rfl
  · simp only [isSignCh, Bool.or_eq_true, beq_iff_eq] at hc
    rcases hc with hc | hc
    · subst hc
      rw [hw]
      simp [toInt, literalVal, hdig]
    · subst hc
      rw [hw]
      simp [toInt, literalVal, hdig]

theorem findKey_exact (stats : List (Str × StatEntry)) (orig stat : Str)
    (h : hasKey stats (templated stat) = true) :
    findKey stats orig stat = some (templated stat, (extractVals stat : List (NumVal F))) := by
  unfold findKey flipReduced
  simp [h]

/-- C13, amended. For every line that is none of the four fixed lines and does not end in
"(crafted)", whose templated form is a dictionary key with at least one entry that is no
pseudo and whose selected id is not yet in the filters, `parseStat` returns true and adds
exactly one filter: it carries the id, kind and text of the selected entry, and its values are
the values of the numeric literals of the line without its crafted tags, from left to right. A
literal with a dot gives a `double`; a literal without a dot gives an `int`, the number that
the literal writes with its sign when that number is an `int`, and 0 when it is not. -/
theorem parseStat_exact_match (api : ItemAPI F) (item : PItem F) (stat : Str)
    (multiline : Bool)
    (hflag : stat ∉ flagStats) (hcr : endsWith stat craftedTag = false)
    (hkey : hasKey api.m_stats_by_text (templated (stripCrafted stat)) = true)
    (hent : ∃ e ∈ equalRange api.m_stats_by_text (templated (stripCrafted stat)),
      e.type ≠ pseudoKind)
    (hnew : ∀ f : Filter F,
      selectEntry false (extractVals (stripCrafted stat))
        (equalRange api.m_stats_by_text (templated (stripCrafted stat))) none = some f →
      lookupKey f.id item.filters = none) :
    ∃ (e : StatEntry) (filter : Filter F),
      (templated (stripCrafted stat), e) ∈ api.m_stats_by_text ∧
      filter = ⟨e.id, e.type, e.text, (literals (stripCrafted stat)).map wordVal⟩ ∧
      parseStat api item stat multiline =
        .ok (true, { item with filters := emplaceKey filter.id filter item.filters },
          { api with m_section := [] }) ∧
      lookupKey filter.id item.filters = none ∧
      lookupKey filter.id (emplaceKey filter.id filter item.filters) = some filter ∧
      (∀ k, k ≠ filter.id →
        lookupKey k (emplaceKey filter.id filter item.filters) = lookupKey k item.filters) ∧
      (∀ w ∈ literals (stripCrafted stat), '.' ∈ w →
        (wordVal w : NumVal F) = .flt (DoubleOps.toDouble w)) ∧
      (∀ w ∈ literals (stripCrafted stat), '.' ∉ w →
        (wordVal w : NumVal F) = .int (clipInt (literalVal w)) ∧
        (INT_MIN ≤ literalVal w → literalVal w ≤ INT_MAX →
          (wordVal w : NumVal F) = .int (literalVal w))) := by
  obtain ⟨filter, hsel⟩ := selectEntry_of_non_pseudo
    (extractVals (stripCrafted stat) : List (NumVal F)) _ hent
  have hn := hnew filter hsel
  obtain ⟨e, hmem, hf⟩ := selectEntry_mem _ _ _ _ _ hsel
  have hk := @findKey_exact F _ api.m_stats_by_text stat (stripCrafted stat) hkey
  have hsel1 : selectEntry (endsWith stat craftedTag) (extractVals (stripCrafted stat))
      (equalRange api.m_stats_by_text (templated (stripCrafted stat))) none = some filter := by
    rw [hcr]
    exact hsel
  have hmain := parseStat_matched api item stat stat multiline _ _ filter
    (Or.inl ⟨rfl, hflag⟩) hk hsel1
  rw [storeFilter_new _ _ hn] at hmain
  refine ⟨e, filter, hmem, ?_, hmain, hn, lookupKey_emplaceKey_self _ _ _ hn,
    fun k hk => lookupKey_emplaceKey_other _ _ _ _ hk, ?_, ?_⟩
  · rw [hf, extractVals_eq_literals]
  · intro w _ hdot
    simp [wordVal, hdot]
  · intro w hw hdot
    have ht := toInt_literal _ w hw hdot
    refine ⟨by simp [wordVal, hdot, ht], fun h1 h2 => ?_⟩
    simp [wordVal, hdot, ht, clipInt_of_range _ h1 h2]

/-- C14. In `parseStat`, on a line that is none of the four fixed lines, when the exact and
the flipped lookup fail, the reverse and the forward repair find no key, and the original line
is itself a dictionary key with a qualifying entry whose id is not yet in the filters, the call
returns true and the filter recorded for that id has an empty value sequence, whatever values
were extracted from the line. -/
theorem parseStat_verbatim_match (api : ItemAPI F) (item : PItem F) (stat : Str)
    (multiline : Bool) (stat1 : Str) (val : List (NumVal F)) (filter : Filter F)
    (hflag : stat ∉ flagStats)
    (hflip : flipReduced api.m_stats_by_text (templated (stripCrafted stat))
      (extractVals (stripCrafted stat)) = (false, stat1, val))
    (hrev : reverseSearch api.m_stats_by_text val (countHash stat1) stat1 = none)
    (hfwd : forwardSearch api.m_stats_by_text val (countHash stat1) stat1 = none)
    (horig : hasKey api.m_stats_by_text stat = true)
    (hsel : selectEntry (endsWith stat craftedTag) ([] : List (NumVal F))
      (equalRange api.m_stats_by_text stat) none = some filter)
    (hnew : lookupKey filter.id item.filters = none) :
    filter.value = [] ∧
    parseStat api item stat multiline =
      .ok (true, { item with filters := emplaceKey filter.id filter item.filters },
        { api with m_section := [] }) ∧
    lookupKey filter.id (emplaceKey filter.id filter item.filters) = some filter := by
  have hk : findKey api.m_stats_by_text stat (stripCrafted stat) =
      some (stat, ([] : List (NumVal F))) := by
    unfold findKey
    rw [hflip]
    simp only [hrev, hfwd, horig, if_true]
  have hmain := parseStat_matched api item stat stat multiline _ _ filter
    (Or.inl ⟨rfl, hflag⟩) hk hsel
  rw [storeFilter_new _ _ hnew] at hmain
  exact ⟨selectEntry_none_value _ _ _ _ hsel, hmain, lookupKey_emplaceKey_self _ _ _ hnew⟩

end Exact

/-- C13, counterexample. The line "x 99999999999 y" is none of the fixed lines, does not end
in "(crafted)", its templated form "x # y" is a key with an explicit entry and the filters are
empty; `parseStat` returns true and the value of the filter is 0, not the literal of the
line. -/
theorem parseStat_exact_out_of_range :
    literals "x 99999999999 y".toList = ["99999999999".toList] ∧
    literalVal "99999999999".toList = 99999999999 ∧
    parseStat (apiOf statsOne []) (itemOf []) "x 99999999999 y".toList false =
      .ok (true, itemOf [filterX "x # y" [.int 0]], apiOf statsOne []) := by
  decide

/-- Witness of `parseStat_exact_match`: the line "x -5 y" adds the filter "X" with the
value -5. -/
theorem parseStat_exact_match_witness :
    ∃ (e : StatEntry) (filter : Filter Dbl),
      filter = ⟨e.id, e.type, e.text, [.int (-5)]⟩ ∧
      parseStat (apiOf statsOne []) (itemOf []) "x -5 y".toList false =
        .ok (true, itemOf (emplaceKey filter.id filter []), apiOf statsOne []) := by
  obtain ⟨e, filter, _, hf, hp, _⟩ :=
    parseStat_exact_match (apiOf statsOne []) (itemOf []) "x -5 y".toList false
      (by decide) (by decide) (by decide) ⟨(entryOf "X" "explicit" "x # y").2, by decide, by decide⟩
      (fun f hf => rfl)
  have hv : ((literals (stripCrafted "x -5 y".toList)).map wordVal : List (NumVal Dbl)) =
      [.int (-5)] := by decide
  rw [hv] at hf
  exact ⟨e, filter, hf, hp⟩

/-- Witness of `parseStat_verbatim_match`: the line "+5 foo" is found as it is written, and
its value 5 is dropped. -/
theorem parseStat_verbatim_match_witness :
    (extractVals (stripCrafted "+5 foo".toList) : List (NumVal Dbl)) = [.int 5] ∧
    parseStat (apiOf statsVerbatim []) (itemOf []) "+5 foo".toList false =
      .ok (true,
        itemOf [("V".toList, ⟨"V".toList, "explicit".toList, "+5 foo".toList, []⟩)],
        apiOf statsVerbatim []) :=
  ⟨by decide,
   (parseStat_verbatim_match (apiOf statsVerbatim []) (itemOf []) "+5 foo".toList false
    "# foo".toList [.int 5] ⟨"V".toList, "explicit".toList, "+5 foo".toList, []⟩
    (by decide) (by decide) (by decide) (by decide) (by decide) (by decide) (by decide)).2.1⟩

/-! ## What the body of `parse` leaves alone -/

section Frame

variable {F : Type} [DoubleOps F]

omit [DoubleOps F] in
theorem sameHeader_refl (a : PItem F) : sameHeader a a := ⟨rfl, rfl, rfl, rfl, rfl, rfl⟩

omit [DoubleOps F] in
theorem sameTables_refl (a : ItemAPI F) : sameTables a a := ⟨rfl, rfl, rfl, rfl, rfl, rfl⟩

omit [DoubleOps F] in
theorem sameHeader_trans {a b c : PItem F} (h1 : sameHeader a b) (h2 : sameHeader b c) :
    sameHeader a c := by
  obtain ⟨a1, a2, a3, a4, a5, a6⟩ := h1
  obtain ⟨b1, b2, b3, b4, b5, b6⟩ := h2
  exact ⟨a1.trans b1, a2.trans b2, a3.trans b3, a4.trans b4, a5.trans b5, a6.trans b6⟩

omit [DoubleOps F] in
theorem sameTables_trans {a b c : ItemAPI F} (h1 : sameTables a b) (h2 : sameTables b c) :
    sameTables a c := by
  obtain ⟨a1, a2, a3, a4, a5, a6⟩ := h1
  obtain ⟨b1, b2, b3, b4, b5, b6⟩ := h2
  exact ⟨a1.trans b1, a2.trans b2, a3.trans b3, a4.trans b4, a5.trans b5, a6.trans b6⟩

theorem parsePropBody_frame (recur : ItemAPI F → PItem F → Str → PItem F × ItemAPI F)
    (hrec : ∀ a i s, sameHeader i (recur a i s).1 ∧ sameTables a (recur a i s).2)
    (api : ItemAPI F) (item : PItem F) (prop : Str) :
    sameHeader item (parsePropBody recur api item prop).1 ∧
      sameTables api (parsePropBody recur api item prop).2 := by
  unfold parsePropBody
  simp only
  split
  · exact ⟨sameHeader_refl _, sameTables_refl _⟩
  · split <;> (try split_ifs) <;>
      first
      | exact hrec _ _ _
      | exact ⟨⟨rfl, rfl, rfl, rfl, rfl, rfl⟩, ⟨rfl, rfl, rfl, rfl, rfl, rfl⟩⟩

theorem parseProp_frame (api : ItemAPI F) (item : PItem F) (prop : Str) :
    sameHeader item (parseProp api item prop).1 ∧ sameTables api (parseProp api item prop).2 := by
  unfold parseProp
  apply parsePropBody_frame
  intro a i s
  unfold parsePropInner
  apply parsePropBody_frame
  intro a1 i1 _
  exact ⟨sameHeader_refl _, sameTables_refl _⟩

theorem parseStatBody_flag (recur : ItemAPI F → PItem F → Str → StatResult F)
    (api : ItemAPI F) (item : PItem F) (stat : Str) (multiline : Bool) (h : stat ∈ flagStats) :
    ∃ m : misc_filters_t,
      parseStatBody recur api item stat multiline = .ok (true, { item with f_misc := m }, api) := by
  simp only [flagStats, List.mem_cons, List.mem_singleton, List.not_mem_nil, or_false] at h
  rcases h with h | h | h | h <;> subst h <;> exact ⟨_, rfl⟩

theorem parseStatBody_not_found (recur : ItemAPI F → PItem F → Str → StatResult F)
    (api : ItemAPI F) (item : PItem F) (stat : Str)
    (hflag : stat ∉ flagStats)
    (hk : (findKey api.m_stats_by_text stat (stripCrafted stat) :
      Option (Str × List (NumVal F))) = none) :
    parseStatBody recur api item stat false =
      if api.m_section.isEmpty then .ok (false, item, { api with m_section := stat })
      else
        match recur api item (api.m_section ++ '\n' :: stat) with
        | .error x => .error x
        | .ok (result, item1, api1) =>
          if result then .ok (result, item1, { api1 with m_section := [] })
          else .ok (result, item1, { api1 with m_section := stat }) := by
  obtain ⟨h1, h2, h3, h4⟩ := not_flag_ne stat hflag
  unfold stripCrafted at hk
  rw [parseStatBody]
  simp only [h1, h2, h3, h4, if_false, hk]
  rfl

theorem parseStatBody_frame (recur : ItemAPI F → PItem F → Str → StatResult F)
    (hrec : ∀ a i s r, recur a i s = .ok r → sameHeader i r.2.1 ∧ sameTables a r.2.2)
    (api : ItemAPI F) (item : PItem F) (stat : Str) (multiline : Bool)
    (r : Bool × PItem F × ItemAPI F) (h : parseStatBody recur api item stat multiline = .ok r) :
    sameHeader item r.2.1 ∧ sameTables api r.2.2 := by
  by_cases hflag : stat ∈ flagStats
  · obtain ⟨m, hm⟩ := parseStatBody_flag recur api item stat multiline hflag
    rw [hm] at h
    cases h
    exact ⟨⟨rfl, rfl, rfl, rfl, rfl, rfl⟩, sameTables_refl _⟩
  · cases hk : (findKey api.m_stats_by_text stat (stripCrafted stat) :
        Option (Str × List (NumVal F))) with
    | some p =>
      obtain ⟨stoken, val⟩ := p
      rw [parseStatBody_found recur api item stat multiline stoken val hflag hk] at h
      split at h
      · cases h
        exact ⟨sameHeader_refl _, ⟨rfl, rfl, rfl, rfl, rfl, rfl⟩⟩
      · split at h
        · cases h
        · cases h
          exact ⟨⟨rfl, rfl, rfl, rfl, rfl, rfl⟩, ⟨rfl, rfl, rfl, rfl, rfl, rfl⟩⟩
    | none =>
      cases multiline with
      | true =>
        rw [parseStatBody_not_found_multiline recur api item stat hflag hk] at h
        cases h
        exact ⟨sameHeader_refl _, sameTables_refl _⟩
      | false =>
        rw [parseStatBody_not_found recur api item stat hflag hk] at h
        split_ifs at h
        · cases h
          exact ⟨sameHeader_refl _, ⟨rfl, rfl, rfl, rfl, rfl, rfl⟩⟩
        · split at h
          · cases h
          · rename_i result item1 api1 heq
            have hr := hrec _ _ _ _ heq
            split_ifs at h
            · cases h
              exact ⟨hr.1, sameTables_trans hr.2 ⟨rfl, rfl, rfl, rfl, rfl, rfl⟩⟩
            · cases h
              exact ⟨hr.1, sameTables_trans hr.2 ⟨rfl, rfl, rfl, rfl, rfl, rfl⟩⟩

theorem parseStat_frame (api : ItemAPI F) (item : PItem F) (stat : Str) (multiline : Bool)
    (r : Bool × PItem F × ItemAPI F) (h : parseStat api item stat multiline = .ok r) :
    sameHeader item r.2.1 ∧ sameTables api r.2.2 := by
  unfold parseStat at h
  refine parseStatBody_frame _ ?_ api item stat multiline r h
  intro a i s r1 h1
  unfold parseStatCombined at h1
  refine parseStatBody_frame _ ?_ a i s true r1 h1
  intro a2 i2 _ r2 h2
  cases h2
  exact ⟨sameHeader_refl _, sameTables_refl _⟩

theorem parseLine_frame (st st1 : PItem F × ItemAPI F) (line : Str)
    (h : parseLine st line = .ok st1) : sameHeader st.1 st1.1 ∧ sameTables st.2 st1.2 := by
  obtain ⟨item, api⟩ := st
  unfold parseLine at h
  simp only at h
  split_ifs at h
  · cases h
    exact ⟨⟨rfl, rfl, rfl, rfl, rfl, rfl⟩, ⟨rfl, rfl, rfl, rfl, rfl, rfl⟩⟩
  · cases h
    exact parseProp_frame api item line
  · split at h
    · cases h
    · rename_i b item1 api1 heq
      cases h
      exact parseStat_frame api item line false _ heq
  · cases h
    exact ⟨sameHeader_refl _, sameTables_refl _⟩

theorem parseBody_frame (lines : List Str) (st st1 : PItem F × ItemAPI F)
    (h : parseBody lines st = .ok st1) : sameHeader st.1 st1.1 ∧ sameTables st.2 st1.2 := by
  induction lines generalizing st with
  | nil =>
    cases h
    exact ⟨sameHeader_refl _, sameTables_refl _⟩
  | cons line rest ih =>
    unfold parseBody at h
    split at h
    · cases h
    · rename_i st2 heq
      have h1 := parseLine_frame st st2 line heq
      have h2 := ih st2 h
      exact ⟨sameHeader_trans h1.1 h2.1, sameTables_trans h1.2 h2.2⟩

/-- The function `parse` in terms of the record at the start of the body. -/
theorem parse_eq (api : ItemAPI F) (itemText : Str) :
    parse api itemText =
      if !startsWith ((readLines itemText).getD 0 []) rarityMarker then .ok (none, api)
      else
        match parseBody ((readLines itemText).drop 3) (headerRecord api itemText, api) with
        | .error x => .error x
        | .ok (item2, api2) =>
          match applyPseudoRules api2.c_pseudoRules (baseCategory api2 item2).filters
              (api2.m_stats_by_id, (baseCategory api2 item2).pseudos) with
          | .error x => .error x
          | .ok (byId, pseudos) =>
            .ok (some { baseCategory api2 item2 with pseudos := pseudos },
              { api2 with m_stats_by_id := byId }) := rfl

/-- The shape of a call of `parse` that returns a record. -/
theorem parse_ok (api api1 : ItemAPI F) (itemText : Str) (item : PItem F)
    (h : parse api itemText = .ok (some item, api1)) :
    startsWith ((readLines itemText).getD 0 []) rarityMarker = true ∧
    ∃ (item2 : PItem F) (api2 : ItemAPI F) (byId : List (Str × Option StatEntry))
      (pseudos : List (Str × Pseudo F)),
      parseBody ((readLines itemText).drop 3) (headerRecord api itemText, api) = .ok (item2, api2) ∧
      applyPseudoRules api2.c_pseudoRules (baseCategory api2 item2).filters
        (api2.m_stats_by_id, (baseCategory api2 item2).pseudos) = .ok (byId, pseudos) ∧
      item = { baseCategory api2 item2 with pseudos := pseudos } ∧
      api1 = { api2 with m_stats_by_id := byId } := by
  rw [parse_eq] at h
  split_ifs at h with h0
  · cases h
  · refine ⟨by simpa using h0, ?_⟩
    split at h
    · cases h
    · rename_i item2 api2 heq
      split at h
      · cases h
      · rename_i byId pseudos heq2
        simp only [Except.ok.injEq, Prod.mk.injEq, Option.some.injEq] at h
        exact ⟨item2, api2, byId, pseudos, heq, heq2, h.1.symm, h.2.symm⟩

end Frame

/-! ## Category, name and type -/

section Category

variable {F : Type} [DoubleOps F]

omit [DoubleOps F] in
theorem baseCategory_of_category (api : ItemAPI F) (item : PItem F)
    (h : item.f_type.category ≠ []) : baseCategory api item = item := by
  unfold baseCategory
  have : item.f_type.category.isEmpty = false := by
    cases hc : item.f_type.category with
    | nil => exact absurd hc h
    | cons a as => rfl
  simp [this]

omit [DoubleOps F] in
theorem baseCategory_type (api : ItemAPI F) (item : PItem F) :
    (baseCategory api item).type = item.type ∧ (baseCategory api item).name = item.name ∧
      (baseCategory api item).pseudos = item.pseudos ∧
      (baseCategory api item).f_type.rarity = item.f_type.rarity := by
  unfold baseCategory
  split_ifs
  · split <;> exact ⟨rfl, rfl, rfl, rfl⟩
  · exact ⟨rfl, rfl, rfl, rfl⟩

omit [DoubleOps F] in
theorem baseCategory_empty (api : ItemAPI F) (item : PItem F) (h : item.f_type.category = []) :
    (baseCategory api item).f_type.category =
      match lookupKey item.type api.c_baseMap with
      | some cat => cat
      | none => [] := by
  unfold baseCategory
  simp only [h, List.isEmpty_nil, if_true]
  split
  · rfl
  · exact h

/-- The record that `parse` returns, in terms of the record at the start of the body. -/
theorem parse_ok_header (api api1 : ItemAPI F) (itemText : Str) (item : PItem F)
    (h : parse api itemText = .ok (some item, api1)) :
    item.name = (headerRecord api itemText).name ∧
    item.type = (headerRecord api itemText).type ∧
    item.f_type.rarity = (headerRecord api itemText).f_type.rarity ∧
    ((headerRecord api itemText).f_type.category ≠ [] →
      item.f_type.category = (headerRecord api itemText).f_type.category) ∧
    ((headerRecord api itemText).f_type.category = [] →
      item.f_type.category =
        match lookupKey item.type api.c_baseMap with
        | some cat => cat
        | none => []) := by
  obtain ⟨_, item2, api2, byId, pseudos, hbody, _, hitem, _⟩ := parse_ok api api1 itemText item h
  obtain ⟨⟨hn, ht, hf, _, _, _⟩, ⟨_, _, _, hb, _, _⟩⟩ := parseBody_frame _ _ _ hbody
  simp only at hn ht hf hb
  obtain ⟨bt, bn, _, br⟩ := baseCategory_type api2 item2
  subst hitem
  simp only
  refine ⟨by rw [bn, hn], by rw [bt, ht], by rw [br, hf], ?_, ?_⟩
  · intro hne
    rw [baseCategory_of_category api2 item2 (by rw [← hf]; exact hne), hf]
  · intro he
    rw [baseCategory_empty api2 item2 (by rw [← hf]; exact he), bt, hb]

omit [DoubleOps F] in
/-- The category rules of the rarity, and the name and the type of a record whose type is no
prophecy. -/
theorem processCategory_spec (api : ItemAPI F) (item : PItem F) :
    (item.f_type.rarity = "Gem".toList →
      processCategory api item =
        { item with f_type := ⟨"Gem".toList,
            if endsWith item.type "Map".toList then "map".toList else "gem".toList⟩ }) ∧
    (item.f_type.rarity = "Divination Card".toList →
      processCategory api item =
        { item with f_type := ⟨"card".toList,
            if endsWith item.type "Map".toList then "map".toList else "card".toList⟩ }) ∧
    ((∀ je, lookupKey item.type api.m_uniques = some je → je.type ≠ "Prophecy".toList) →
      (processCategory api item).name = item.name ∧
      (processCategory api item).type = item.type) := by
  refine ⟨?_, ?_, ?_⟩
  · intro hr
    unfold processCategory
    simp only [hr, if_true]
    split_ifs <;> simp_all
  · intro hr
    unfold processCategory
    have hne : ¬ "Divination Card".toList = "Gem".toList := by decide
    simp only [hr, hne, if_true, if_false]
    split_ifs <;> simp_all
  · intro hp
    unfold processCategory
    simp only
    split_ifs
    all_goals first
      | exact ⟨rfl, rfl⟩
      | (split
         · rename_i je hje
           split_ifs with hje2
           · exact absurd hje2 (hp je (by simpa using hje))
           · exact ⟨rfl, rfl⟩
         · exact ⟨rfl, rfl⟩)

end Category

section CategoryClaims

variable {F : Type} [DoubleOps F]

theorem replaceStr_of_not_contains (s before after : Str)
    (h : containsStr s before = false) : replaceStr s before after = s := by
  unfold replaceStr
  induction s with
  | nil => rfl
  | cons c cs ih =>
    simp only [containsStr, Bool.or_eq_false_iff] at h
    rw [replaceAux, if_neg (by simp [h.1]), ih h.2]

/-- The record at the start of the body in terms of its lines. -/
theorem headerRecord_eq (api : ItemAPI F) (itemText : Str) :
    ∃ item1 : PItem F,
      headerRecord api itemText = processCategory api item1 ∧
      item1.f_type = ⟨rarityOf itemText, []⟩ ∧
      (startsWith (thirdLine itemText) separator = true →
        item1.name = [] ∧ item1.type = readType item1 (secondLine itemText)) ∧
      (startsWith (thirdLine itemText) separator = false →
        item1.name = readName (secondLine itemText) ∧
        item1.type = readType item1 (thirdLine itemText)) := by
  by_cases hs : startsWith (thirdLine itemText) separator = true
  · have hs' : startsWith ((readLines itemText).getD 2 []) separator = true := hs
    refine ⟨_, by unfold headerRecord; simp only; rw [if_pos hs'], rfl, fun _ => ⟨rfl, rfl⟩, ?_⟩
    intro hf
    rw [hs] at hf
    cases hf
  · have hs' : ¬ startsWith ((readLines itemText).getD 2 []) separator = true := hs
    refine ⟨_, by unfold headerRecord; simp only; rw [if_neg hs'], rfl, ?_, fun _ => ⟨rfl, rfl⟩⟩
    intro hf
    exact absurd hf hs

omit [DoubleOps F] in
theorem readType_plain (item : PItem F) (line : Str) (hr : item.f_type.rarity ≠ "Magic".toList)
    (hm : containsStr line setMarker = false)
    (hsup : containsStr line "Superior ".toList = false) : readType item line = line := by
  unfold readType
  simp only [hr, if_false]
  rw [replaceStr_of_not_contains line setMarker [] hm,
    replaceStr_of_not_contains line _ [] hsup]

/-- C16, amended. When `parse` returns a record for an input whose rarity is "Gem", the
category of the record is "gem", unless its type ends in "Map", in which case the category is
"map"; for an input whose rarity is "Divination Card" the rarity of the record is "card" and
its category is "card", unless its type ends in "Map", in which case the category is "map". -/
theorem parse_rarity_category (api api1 : ItemAPI F) (itemText : Str) (item : PItem F)
    (h : parse api itemText = .ok (some item, api1)) :
    (rarityOf itemText = "Gem".toList →
      item.f_type.category =
        if endsWith item.type "Map".toList then "map".toList else "gem".toList) ∧
    (rarityOf itemText = "Divination Card".toList →
      item.f_type.rarity = "card".toList ∧
      item.f_type.category =
        if endsWith item.type "Map".toList then "map".toList else "card".toList) := by
  obtain ⟨_, ht, hr, hc, _⟩ := parse_ok_header api api1 itemText item h
  obtain ⟨item1, hh, hf, _, _⟩ := headerRecord_eq api itemText
  obtain ⟨hgem, hdiv, _⟩ := processCategory_spec api item1
  have hrar : item1.f_type.rarity = rarityOf itemText := by rw [hf]
  constructor
  · intro hg
    have e := hgem (hrar.trans hg)
    rw [hh, e] at ht hc
    simp only at ht hc
    rw [ht]
    apply hc
    split_ifs <;> decide
  · intro hd
    have e := hdiv (hrar.trans hd)
    rw [hh, e] at ht hc hr
    simp only at ht hc hr
    rw [ht]
    refine ⟨hr, hc ?_⟩
    split_ifs <;> decide

/-- C17. When `parse` returns a record, its type is the type of the record after the rules of
the rarity, of the "Map" suffix and of the prophecies. If the category after these rules is
not empty, it is the category of the returned record, whatever the base-item category map
holds (the rules read the unique-item dictionary only); if it is empty, the category of the
returned record is the value of the base-item category map for the type when the type is a
key, and is empty otherwise. -/
theorem parse_base_category (api api1 : ItemAPI F) (itemText : Str) (item : PItem F)
    (h : parse api itemText = .ok (some item, api1)) :
    item.type = (headerRecord api itemText).type ∧
    ((headerRecord api itemText).f_type.category ≠ [] →
      item.f_type.category = (headerRecord api itemText).f_type.category) ∧
    ((headerRecord api itemText).f_type.category = [] →
      item.f_type.category =
        match lookupKey item.type api.c_baseMap with
        | some cat => cat
        | none => []) ∧
    (∀ other : ItemAPI F, other.m_uniques = api.m_uniques →
      headerRecord other itemText = headerRecord api itemText) := by
  obtain ⟨_, ht, _, hc, he⟩ := parse_ok_header api api1 itemText item h
  refine ⟨ht, hc, he, ?_⟩
  intro other ho
  unfold headerRecord processCategory
  simp only [ho]

/-- C19, amended. Let `parse` return a record for an input whose rarity is not "Magic",
whose type line contains neither the set marker nor the text "Superior " and is no prophecy
of the unique-item dictionary. If the third line starts with "---", the type line is the
second line: the name of the record is empty and its type is the second line. Otherwise the
type line is the third line: the name is the second line, provided it contains no set marker,
and the type is the third line. -/
theorem parse_name_type (api api1 : ItemAPI F) (itemText : Str) (item : PItem F)
    (h : parse api itemText = .ok (some item, api1))
    (hr : rarityOf itemText ≠ "Magic".toList) :
    (startsWith (thirdLine itemText) separator = true →
      containsStr (secondLine itemText) setMarker = false →
      containsStr (secondLine itemText) "Superior ".toList = false →
      (∀ je, lookupKey (secondLine itemText) api.m_uniques = some je →
        je.type ≠ "Prophecy".toList) →
      item.name = [] ∧ item.type = secondLine itemText) ∧
    (startsWith (thirdLine itemText) separator = false →
      containsStr (secondLine itemText) setMarker = false →
      containsStr (thirdLine itemText) setMarker = false →
      containsStr (thirdLine itemText) "Superior ".toList = false →
      (∀ je, lookupKey (thirdLine itemText) api.m_uniques = some je →
        je.type ≠ "Prophecy".toList) →
      item.name = secondLine itemText ∧ item.type = thirdLine itemText) := by
  obtain ⟨hn, ht, _, _, _⟩ := parse_ok_header api api1 itemText item h
  obtain ⟨item1, hh, hf, hsep, hnosep⟩ := headerRecord_eq api itemText
  have hrar : item1.f_type.rarity ≠ "Magic".toList := by
    rw [hf]
    exact hr
  obtain ⟨_, _, hplain⟩ := processCategory_spec api item1
  rw [hh] at hn ht
  constructor
  · intro hs hm hsup hp
    obtain ⟨h1, h2⟩ := hsep hs
    rw [readType_plain item1 _ hrar hm hsup] at h2
    obtain ⟨e1, e2⟩ := hplain (by rw [h2]; exact hp)
    exact ⟨by rw [hn, e1, h1], by rw [ht, e2, h2]⟩
  · intro hs hm2 hm hsup hp
    obtain ⟨h1, h2⟩ := hnosep hs
    rw [readType_plain item1 _ hrar hm hsup] at h2
    obtain ⟨e1, e2⟩ := hplain (by rw [h2]; exact hp)
    refine ⟨?_, by rw [ht, e2, h2]⟩
    rw [hn, e1, h1]
    exact replaceStr_of_not_contains _ _ _ hm2

end CategoryClaims

/-- C16, counterexample. The rarity of the input is "Gem" and its type ends in "Map": the
category of the returned record is "map", not "gem". -/
theorem parse_gem_map :
    rarityOf "Rarity: Gem\nFoo Map\n--------".toList = "Gem".toList ∧
    categoryOf (parse (apiOf [] []) "Rarity: Gem\nFoo Map\n--------".toList) =
      some "map".toList := by
  decide

theorem categoryOf_some (r : Except Exn (Option (PItem Dbl) × ItemAPI Dbl)) (c : Str)
    (h : categoryOf r = some c) :
    ∃ item api1, r = .ok (some item, api1) ∧ item.f_type.category = c := by
  unfold categoryOf at h
  split at h
  · rename_i item api1
    exact ⟨item, api1, rfl, Option.some.inj h⟩
  · cases h

theorem nameTypeOf_some (r : Except Exn (Option (PItem Dbl) × ItemAPI Dbl)) (n t : Str)
    (h : nameTypeOf r = some (n, t)) :
    ∃ item api1, r = .ok (some item, api1) ∧ item.name = n ∧ item.type = t := by
  unfold nameTypeOf at h
  split at h
  · rename_i item api1
    simp only [Option.some.injEq, Prod.mk.injEq] at h
    exact ⟨item, api1, rfl, h.1, h.2⟩
  · cases h

/-- Witness of `parse_rarity_category`: a gem whose type does not end in "Map" has the
category "gem". -/
theorem parse_rarity_category_witness :
    ∃ item api1, parse (apiOf [] []) "Rarity: Gem\nFireball\n--------".toList =
        .ok (some item, api1) ∧
      item.f_type.category = "gem".toList := by
  obtain ⟨item, api1, hp, _, ht⟩ := nameTypeOf_some
    (parse (apiOf [] []) "Rarity: Gem\nFireball\n--------".toList) [] "Fireball".toList
    (by decide)
  refine ⟨item, api1, hp, ?_⟩
  have h := (parse_rarity_category (apiOf [] []) api1 _ item hp).1 (by decide)
  rw [ht] at h
  exact h.trans (by decide)

/-- Witness of `parse_base_category`: the category of a ring is the value of the base-item
category map for its type. -/
theorem parse_base_category_witness :
    ∃ item api1, parse apiBase "Rarity: Rare\nDoom Knot\nIron Ring\n--------".toList =
        .ok (some item, api1) ∧
      item.f_type.category = "accessory.ring".toList := by
  obtain ⟨item, api1, hp, _, ht⟩ := nameTypeOf_some
    (parse apiBase "Rarity: Rare\nDoom Knot\nIron Ring\n--------".toList)
    "Doom Knot".toList "Iron Ring".toList (by decide)
  refine ⟨item, api1, hp, ?_⟩
  have h := (parse_base_category apiBase api1 _ item hp).2.2.1 (by decide)
  rw [ht] at h
  exact h.trans (by decide)

/-- C19, counterexample. The rarity is not "Magic", no line holds a set marker, the type line
does not start with "Superior " and the unique-item dictionary is empty; the third line is
"A Superior B" and the type of the record is "A B". -/
theorem parse_type_inner_superior :
    rarityOf "Rarity: Rare\nName\nA Superior B\n--------".toList = "Rare".toList ∧
    thirdLine "Rarity: Rare\nName\nA Superior B\n--------".toList = "A Superior B".toList ∧
    startsWith "A Superior B".toList "Superior ".toList = false ∧
    nameTypeOf (parse (apiOf [] []) "Rarity: Rare\nName\nA Superior B\n--------".toList) =
      some ("Name".toList, "A B".toList) := by
  decide

/-- Witness of `parse_name_type`: the second line is the name and the third line is the
type. -/
theorem parse_name_type_witness :
    ∃ item api1, parse (apiOf [] []) "Rarity: Rare\nDoom Knot\nIron Ring\n--------".toList =
        .ok (some item, api1) ∧
      item.name = "Doom Knot".toList ∧ item.type = "Iron Ring".toList := by
  obtain ⟨item, api1, hp, _⟩ := categoryOf_some
    (parse (apiOf [] []) "Rarity: Rare\nDoom Knot\nIron Ring\n--------".toList) [] (by decide)
  refine ⟨item, api1, hp, ?_⟩
  have h := (parse_name_type (apiOf [] []) api1 _ item hp (by decide)).2 (by decide) (by decide)
    (by decide) (by decide) (by
      intro je hje
      simp [apiOf, lookupKey] at hje)
  exact ⟨h.1.trans (by decide), h.2.trans (by decide)⟩

section Props

variable {F : Type} [DoubleOps F]

/-- Field 0 of the split on one character is the text before its first occurrence. -/
theorem sectionStr_zero (s : Str) (c : Char) :
    sectionStr s [c] 0 = s.takeWhile (fun x => x != c) := by
  unfold sectionStr splitStr
  induction s with
  | nil => rfl
  | cons x xs ih =>
    by_cases hx : x = c
    · subst hx
      simp [splitAux, startsWith, List.takeWhile]
    · have hb : (x == c) = false := by simpa using hx
      rw [splitAux, if_neg (by simp [startsWith, hb])]
      rw [List.takeWhile_cons, show (x != c) = true by simp [bne, hb]]
      simp only [if_true]
      rw [← ih]
      cases splitAux [c] xs 0 <;> rfl

/-- C20. A line whose key, the text before the first ':', is not a key of the property schema
leaves the record and the members of `ItemAPI`, the held line included, as they are:
`parseProp` returns its arguments. -/
theorem parseProp_unknown_key (api : ItemAPI F) (item : PItem F) (prop : Str)
    (h : lookupKey (prop.takeWhile (fun x => x != ':')) api.c_propMap = none) :
    parseProp api item prop = (item, api) := by
  rw [← sectionStr_zero] at h
  unfold parseProp parsePropBody
  simp only [h]

end Props

/-- Witness of `parseProp_unknown_key`: the key "Foo" is not in the schema. -/
theorem parseProp_unknown_key_witness :
    parseProp apiProps (itemOf []) "Foo: 12".toList = (itemOf [], apiProps) :=
  parseProp_unknown_key apiProps (itemOf []) "Foo: 12".toList (by decide)

/-- Witness of `extraction_literal_shape`: the number of the line "a -1.5 b". -/
theorem extraction_literal_shape_witness :
    Tok.num "-1.5".toList ∈ scanNums "a -1.5 b".toList ∧
    ∃ body : Str, body ≠ [] ∧ (∀ c ∈ body, c.isDigit = true ∨ c = '.') ∧
      ("-1.5".toList = body ∨ "-1.5".toList = '+' :: body ∨ "-1.5".toList = '-' :: body) :=
  ⟨by decide, extraction_literal_shape "a -1.5 b".toList "-1.5".toList (by decide)⟩

section Serialisation

variable {F : Type}

theorem keysOf_assignKey (k : Str) (v : JVal) (j : List (Str × JVal)) :
    keysOf (assignKey k v j) = keysOf j := by
  induction j with
  | nil => rfl
  | cons p rest ih =>
    obtain ⟨k1, v1⟩ := p
    unfold assignKey
    split_ifs
    · rfl
    · simp only [keysOf, List.map_cons] at ih ⊢
      rw [ih]

theorem keysOf_emplaceKey (k : Str) (v : JVal) (j : List (Str × JVal)) :
    keysOf (emplaceKey k v j) = insKey k (keysOf j) := by
  induction j with
  | nil => rfl
  | cons p rest ih =>
    obtain ⟨k1, v1⟩ := p
    simp only [keysOf, List.map_cons] at ih ⊢
    unfold emplaceKey insKey
    split_ifs
    · rfl
    · rfl
    · simp only [List.map_cons]
      rw [ih]

theorem keysOf_setKey (k : Str) (v : JVal) (j : List (Str × JVal)) :
    keysOf (setKey k v j) = insKey k (keysOf j) := by
  unfold setKey
  rw [keysOf_assignKey, keysOf_emplaceKey]

theorem mem_setKey (k : Str) (v : JVal) (j : List (Str × JVal)) (p : Str × JVal)
    (h : p ∈ setKey k v j) : p = (k, v) ∨ p ∈ j := by
  unfold setKey at h
  induction j with
  | nil =>
    simp only [emplaceKey, assignKey, if_true, List.mem_singleton] at h
    exact Or.inl h
  | cons q rest ih =>
    obtain ⟨k1, v1⟩ := q
    unfold emplaceKey at h
    split_ifs at h with h1 h2
    · subst h1
      simp only [assignKey, if_true, List.mem_cons] at h
      rcases h with h | h
      · exact Or.inl h
      · exact Or.inr (List.mem_cons_of_mem _ h)
    · simp only [assignKey, if_true, List.mem_cons] at h
      rcases h with h | h | h
      · exact Or.inl h
      · exact Or.inr (h ▸ List.mem_cons_self _ _)
      · exact Or.inr (List.mem_cons_of_mem _ h)
    · rw [assignKey, if_neg h1, List.mem_cons] at h
      rcases h with h | h
      · exact Or.inr (h ▸ List.mem_cons_self _ _)
      · rcases ih h with h | h
        · exact Or.inl h
        · exact Or.inr (List.mem_cons_of_mem _ h)

theorem setKey_no_null (k : Str) (v : JVal) (j : List (Str × JVal)) (hv : v ≠ JVal.null)
    (hj : ∀ p ∈ j, p.2 ≠ JVal.null) : ∀ p ∈ setKey k v j, p.2 ≠ JVal.null := by
  intro p hp
  rcases mem_setKey k v j p hp with h | h
  · rw [h]
    exact hv
  · exact hj p h

theorem ite_no_null (c : Prop) [Decidable c] (k : Str) (v : JVal) (j : List (Str × JVal))
    (hv : v ≠ JVal.null) (hj : ∀ p ∈ j, p.2 ≠ JVal.null) :
    ∀ p ∈ (if c then setKey k v j else j), p.2 ≠ JVal.null := by
  split_ifs
  · exact setKey_no_null k v j hv hj
  · exact hj

theorem keysOf_ite (c : Prop) [Decidable c] (k : Str) (v : JVal) (j : List (Str × JVal)) :
    keysOf (if c then setKey k v j else j) = if c then insKey k (keysOf j) else keysOf j := by
  split_ifs
  · exact keysOf_setKey k v j
  · rfl

/-- The keys of the object of `toJson`, in the order of the object. -/
theorem toJson_keys (item : PItem F) :
    keysOf (toJson item) =
      (if !item.f_type.category.isEmpty then ["category".toList] else []) ++
      ["corrupted".toList, "elder_item".toList] ++
      (if item.f_type.category = "gem".toList then ["gem_level".toList] else []) ++
      ["identified".toList, "ilvl".toList, "links".toList, "name".toList] ++
      (if !item.m_options.isEmpty then ["options".toList] else []) ++
      ["quality".toList, "rarity".toList, "shaper_item".toList, "sockets".toList] ++
      (if item.name ≠ item.type then ["type".toList] else []) := by
  unfold toJson
  simp only [keysOf_ite, keysOf_setKey, show keysOf ([] : List (Str × JVal)) = [] from rfl]
  split_ifs <;> decide

set_option maxHeartbeats 1000000 in
theorem toJson_keys_nodup (item : PItem F) : (keysOf (toJson item)).Nodup := by
  rw [toJson_keys]
  split_ifs <;> decide

theorem key_presence (kcat kcor keld kgem kid kilvl klinks kname kopt kq kr ksh ksock ktype : Str)
    (p1 p2 p3 p4 : Prop) [Decidable p1] [Decidable p2] [Decidable p3] [Decidable p4] (k : Str) :
    k ∈ (if p1 then [kcat] else []) ++ [kcor, keld] ++ (if p3 then [kgem] else []) ++
        [kid, kilvl, klinks, kname] ++ (if p4 then [kopt] else []) ++ [kq, kr, ksh, ksock] ++
        (if p2 then [ktype] else []) ↔
      (k ∈ [kname, kr, ksock, klinks, kilvl, kq, keld, ksh, kid, kcor] ∨
        (k = kcat ∧ p1) ∨ (k = ktype ∧ p2) ∨ (k = kgem ∧ p3) ∨ (k = kopt ∧ p4)) := by
  have m1 : ∀ (p : Prop) [Decidable p] (x : Str), k ∈ (if p then [x] else []) ↔ (k = x ∧ p) := by
    intro p _ x
    split_ifs with h
    · simp [h]
    · simp [h]
  simp only [List.mem_append, List.mem_cons, List.mem_singleton, List.not_mem_nil,
      or_false, false_or, m1]
  constructor <;> intro h <;> casesm* _ ∨ _, _ ∧ _ <;> simp [*]

/-- C18. The object that `toJson` serialises holds a key if and only if it is one of the ten
keys name, rarity, sockets, links, ilvl, quality, elder_item, shaper_item, identified and
corrupted, or "category" with a category that is not empty, or "type" with a type that
differs from the name, or "gem_level" with the category "gem", or "options" with options that
are not empty; no key occurs twice and no value is `null`. -/
theorem toJson_field_presence (item : PItem F) :
    (∀ k : Str, k ∈ keysOf (toJson item) ↔
      (k ∈ alwaysKeys ∨
        (k = "category".toList ∧ item.f_type.category ≠ []) ∨
        (k = "type".toList ∧ item.name ≠ item.type) ∨
        (k = "gem_level".toList ∧ item.f_type.category = "gem".toList) ∨
        (k = "options".toList ∧ item.m_options ≠ []))) ∧
    (keysOf (toJson item)).Nodup ∧
    (∀ p ∈ toJson item, p.2 ≠ JVal.null) := by
  refine ⟨?_, toJson_keys_nodup item, ?_⟩
  · intro k
    have e1 : ((!item.f_type.category.isEmpty) = true) ↔ item.f_type.category ≠ [] := by
      cases item.f_type.category <;> simp
    have e4 : ((!item.m_options.isEmpty) = true) ↔ item.m_options ≠ [] := by
      cases item.m_options <;> simp
    rw [toJson_keys]
    simp only [e1, e4]
    exact key_presence _ _ _ _ _ _ _ _ _ _ _ _ _ _ _ _ _ _ k
  · unfold toJson
    refine ite_no_null _ _ _ _ (by simp) ?_
    repeat first
      | refine ite_no_null _ _ _ _ (by simp) ?_
      | refine setKey_no_null _ _ _ (by simp) ?_
    intro p hp
    cases hp

end Serialisation

theorem pseudosOf_some (r : Except Exn (Option (PItem Dbl) × ItemAPI Dbl))
    (l : List (Str × Pseudo Dbl)) (h : pseudosOf r = some l) :
    ∃ item api1, r = .ok (some item, api1) ∧ item.pseudos = l := by
  unfold pseudosOf at h
  split at h
  · rename_i item api1
    exact ⟨item, api1, rfl, Option.some.inj h⟩
  · cases h

section PseudoMetadata

variable {F : Type} [DoubleOps F]

theorem lookupKey_append_single {α : Type} (k p : Str) (v : α) (m : List (Str × α)) :
    lookupKey k (m ++ [(p, v)]) =
      match lookupKey k m with
      | some x => some x
      | none => if p = k then some v else none := by
  induction m with
  | nil => rfl
  | cons q rest ih =>
    obtain ⟨k1, v1⟩ := q
    rw [List.cons_append, lookupKey, lookupKey]
    by_cases hk : k1 = k
    · rw [if_pos hk, if_pos hk]
    · rw [if_neg hk, if_neg hk]
      exact ih

/-- The value that `m_stats_by_id[pid]` returns is the value of the id afterwards; the values
of the map stay, and an id that was absent is absent or holds a `null`. -/
theorem statsByIdAt_spec (pid : Str) (m : List (Str × Option StatEntry)) :
    lookupKey pid (statsByIdAt pid m).2 = some (statsByIdAt pid m).1 ∧
    (∀ k x, lookupKey k m = some x → lookupKey k (statsByIdAt pid m).2 = some x) ∧
    (∀ k, lookupKey k m = none →
      lookupKey k (statsByIdAt pid m).2 = none ∨ lookupKey k (statsByIdAt pid m).2 = some none) := by
  unfold statsByIdAt
  cases hm : lookupKey pid m with
  | some e =>
    simp only
    exact ⟨hm, fun _ _ h => h, fun _ h => Or.inl h⟩
  | none =>
    simp only
    refine ⟨?_, ?_, ?_⟩
    · rw [lookupKey_append_single, hm]
      simp
    · intro k x h
      rw [lookupKey_append_single, h]
    · intro k h
      rw [lookupKey_append_single, h]
      simp only
      split_ifs
      · exact Or.inr rfl
      · exact Or.inl rfl

theorem applyRule_inv (base : List (Str × Option StatEntry)) (fil : Filter F)
    (st st1 : List (Str × Option StatEntry) × List (Str × Pseudo F)) (r : PseudoRule F)
    (hinv : pseudoInv base st) (h : applyRule fil st r = .ok st1) : pseudoInv base st1 := by
  obtain ⟨ha, hb, hc⟩ := hinv
  obtain ⟨hs1, hs2, hs3⟩ := statsByIdAt_spec r.id st.1
  have hA : ∀ k e, lookupKey k base = some e →
      lookupKey k (statsByIdAt r.id st.1).2 = some e := fun k e hk => hs2 k e (ha k e hk)
  have hB : ∀ k, lookupKey k base = none →
      lookupKey k (statsByIdAt r.id st.1).2 = none ∨
        lookupKey k (statsByIdAt r.id st.1).2 = some none := by
    intro k hk
    rcases hb k hk with h1 | h1
    · exact hs3 k h1
    · exact Or.inr (hs2 k _ h1)
  unfold applyRule at h
  simp only at h
  cases hp : lookupKey r.id st.2 with
  | none =>
    rw [hp] at h
    simp only [Except.ok.injEq] at h
    subst h
    refine ⟨hA, hB, ?_⟩
    intro Y ps hY
    by_cases hy : Y = r.id
    · subst hy
      rw [lookupKey_emplaceKey_self _ _ _ hp] at hY
      cases hY
      exact hs1
    · rw [lookupKey_emplaceKey_other _ _ _ _ hy] at hY
      exact hs2 Y _ (hc Y ps hY)
  | some ps_entry =>
    rw [hp] at h
    simp only at h
    split_ifs at h
    · split at h
      · cases h
      · rename_i vals _
        simp only [Except.ok.injEq] at h
        subst h
        refine ⟨hA, hB, ?_⟩
        intro Y ps hY
        by_cases hy : Y = r.id
        · subst hy
          rw [lookupKey_assignKey_self _ _ _ _ hp] at hY
          cases hY
          exact hs2 _ _ (hc _ ps_entry hp)
        · rw [lookupKey_assignKey_other _ _ _ _ hy] at hY
          exact hs2 Y _ (hc Y ps hY)
    · simp only [Except.ok.injEq] at h
      subst h
      exact ⟨hA, hB, fun Y ps hY => hs2 Y _ (hc Y ps hY)⟩

theorem applyRules_inv (base : List (Str × Option StatEntry)) (fil : Filter F)
    (rs : List (PseudoRule F))
    (st st1 : List (Str × Option StatEntry) × List (Str × Pseudo F))
    (hinv : pseudoInv base st) (h : applyRules fil rs st = .ok st1) : pseudoInv base st1 := by
  induction rs generalizing st with
  | nil =>
    cases h
    exact hinv
  | cons r rest ih =>
    unfold applyRules at h
    split at h
    · cases h
    · rename_i st2 heq
      exact ih st2 (applyRule_inv base fil st st2 r hinv heq) h

theorem applyPseudoRules_inv (base : List (Str × Option StatEntry))
    (rules : List (Str × List (PseudoRule F))) (fs : List (Str × Filter F))
    (st st1 : List (Str × Option StatEntry) × List (Str × Pseudo F))
    (hinv : pseudoInv base st) (h : applyPseudoRules rules fs st = .ok st1) :
    pseudoInv base st1 := by
  induction fs generalizing st with
  | nil =>
    cases h
    exact hinv
  | cons p rest ih =>
    obtain ⟨key, fil⟩ := p
    unfold applyPseudoRules at h
    split at h
    · exact ih st hinv h
    · rename_i rs _
      split at h
      · cases h
      · rename_i st2 heq
        exact ih st2 (applyRules_inv base fil rs st st2 hinv heq) h

omit [DoubleOps F] in
theorem processCategory_pseudos (api : ItemAPI F) (item : PItem F) :
    (processCategory api item).pseudos = item.pseudos := by
  unfold processCategory
  simp only
  split_ifs <;> (try split) <;> (try split_ifs) <;> rfl

theorem headerRecord_pseudos (api : ItemAPI F) (itemText : Str) :
    (headerRecord api itemText).pseudos = [] := by
  unfold headerRecord
  simp only
  rw [processCategory_pseudos]
  split_ifs <;> rfl

omit [DoubleOps F] in
theorem baseCategory_pseudos (api : ItemAPI F) (item : PItem F) :
    (baseCategory api item).pseudos = item.pseudos := by
  unfold baseCategory
  split_ifs <;> (try split) <;> rfl

/-- C15, amended. When `parse` returns a record, every pseudo entry of the record, of key
`Y`, carries the value that the id dictionary holds for `Y` after the call. If `Y` is a key
of the id dictionary before the call, this is its entry there (id, kind and template text),
whatever the filters are; if `Y` is not a key before the call, the pseudo entry has no id, no
kind and no template text. -/
theorem parse_pseudo_metadata (api api1 : ItemAPI F) (itemText : Str) (item : PItem F)
    (h : parse api itemText = .ok (some item, api1)) (Y : Str) (ps : Pseudo F)
    (hps : lookupKey Y item.pseudos = some ps) :
    lookupKey Y api1.m_stats_by_id = some ps.entry ∧
    (∀ e, lookupKey Y api.m_stats_by_id = some e → ps.entry = e) ∧
    (lookupKey Y api.m_stats_by_id = none → ps.entry = none) := by
  obtain ⟨_, item2, api2, byId, pseudos, hbody, hrules, hitem, hapi⟩ :=
    parse_ok api api1 itemText item h
  obtain ⟨hh, ht⟩ := parseBody_frame _ _ _ hbody
  have hp2 : item2.pseudos = [] := by
    rw [← hh.2.2.2.1]
    exact headerRecord_pseudos api itemText
  have hid : api2.m_stats_by_id = api.m_stats_by_id := ht.2.1.symm
  rw [baseCategory_pseudos, hp2, hid] at hrules
  have hinv := applyPseudoRules_inv api.m_stats_by_id _ _ _ _
    (⟨fun _ _ hk => hk, fun _ hk => Or.inl hk, fun _ _ hk => by cases hk⟩ :
      pseudoInv api.m_stats_by_id (api.m_stats_by_id, ([] : List (Str × Pseudo F)))) hrules
  obtain ⟨ha, hb, hc⟩ := hinv
  subst hitem hapi
  have hY := hc Y ps hps
  refine ⟨hY, ?_, ?_⟩
  · intro e he
    have := ha Y e he
    rw [hY] at this
    exact Option.some.inj this
  · intro hn
    rcases hb Y hn with h1 | h1
    · rw [hY] at h1
      cases h1
    · rw [hY] at h1
      exact Option.some.inj h1

end PseudoMetadata

/-- C15, counterexample. The target "Y" of the rule is not a key of the id dictionary: the
pseudo entry that `parse` creates under "Y" has no id, no kind and no template text. -/
theorem parse_pseudo_without_metadata :
    lookupKey "Y".toList apiPseudoAbsent.m_stats_by_id = none ∧
    pseudosOf (parse apiPseudoAbsent "Rarity: Rare\nN\nT\n---\n---\na 20".toList) =
      some [("Y".toList, ⟨none, [.int 10]⟩)] := by
  decide

/-- Witness of `parse_pseudo_metadata`: the pseudo "Y" made from the filter "A" carries the
entry of "Y" in the id dictionary. -/
theorem parse_pseudo_metadata_witness :
    ∃ item api1, parse apiPseudo "Rarity: Rare\nN\nT\n---\n---\na 20".toList =
        .ok (some item, api1) ∧
      lookupKey "Y".toList item.pseudos = some ⟨some entryY, [.int 10]⟩ ∧
      lookupKey "Y".toList api1.m_stats_by_id = some (some entryY) := by
  obtain ⟨item, api1, hp, hps⟩ := pseudosOf_some
    (parse apiPseudo "Rarity: Rare\nN\nT\n---\n---\na 20".toList)
    [("Y".toList, ⟨some entryY, [.int 10]⟩)] (by decide)
  have hl : lookupKey "Y".toList item.pseudos = some ⟨some entryY, [.int 10]⟩ := by
    rw [hps]
    decide
  exact ⟨item, api1, hp, hl, (parse_pseudo_metadata apiPseudo api1 _ item hp _ _ hl).1⟩

/-! ## Flag lines, failed calls and the routing of the body lines -/

section Routing

variable {F : Type} [DoubleOps F]

/-- C28. For each of the four fixed lines "Unidentified", "Shaper Item", "Elder Item" and
"Corrupted", whatever the members of `ItemAPI` (the dictionaries and the held line), the
record and the `multiline` argument are, `parseStat` returns true, the record differs from
the record before the call in the one boolean of the line only (identified false, shaper
true, elder true, corrupted true), and the members of `ItemAPI`, the held line included, are
those before the call. -/
theorem parseStat_flag_lines (api : ItemAPI F) (item : PItem F) (multiline : Bool) :
    parseStat api item "Unidentified".toList multiline =
      .ok (true, { item with f_misc := { item.f_misc with identified := false } }, api) ∧
    parseStat api item "Shaper Item".toList multiline =
      .ok (true, { item with f_misc := { item.f_misc with shaper_item := true } }, api) ∧
    parseStat api item "Elder Item".toList multiline =
      .ok (true, { item with f_misc := { item.f_misc with elder_item := true } }, api) ∧
    parseStat api item "Corrupted".toList multiline =
      .ok (true, { item with f_misc := { item.f_misc with corrupted := true } }, api) :=
  ⟨rfl, rfl, rfl, rfl⟩

/-- A call of the body of `parseStat` that returns false leaves the record as it is, when
the recursive call does. -/
theorem parseStatBody_false (recur : ItemAPI F → PItem F → Str → StatResult F)
    (hrec : ∀ a i s i1 a1, recur a i s = .ok (false, i1, a1) → i1 = i)
    (api : ItemAPI F) (item : PItem F) (stat : Str) (multiline : Bool)
    (item1 : PItem F) (api1 : ItemAPI F)
    (h : parseStatBody recur api item stat multiline = .ok (false, item1, api1)) :
    item1 = item := by
  by_cases hflag : stat ∈ flagStats
  · obtain ⟨m, hm⟩ := parseStatBody_flag recur api item stat multiline hflag
    rw [hm] at h
    cases h
  · cases hk : (findKey api.m_stats_by_text stat (stripCrafted stat) :
        Option (Str × List (NumVal F))) with
    | some p =>
      obtain ⟨stoken, val⟩ := p
      rw [parseStatBody_found recur api item stat multiline stoken val hflag hk] at h
      split at h
      · cases h
        rfl
      · split at h
        · cases h
        · cases h
    | none =>
      cases multiline with
      | true =>
        rw [parseStatBody_not_found_multiline recur api item stat hflag hk] at h
        cases h
        rfl
      | false =>
        rw [parseStatBody_not_found recur api item stat hflag hk] at h
        split_ifs at h with he
        · cases h
          rfl
        · split at h
          · cases h
          · rename_i result i2 a2 heq
            cases result with
            | true =>
              simp only [if_true] at h
              cases h
            | false =>
              simp only [Bool.false_eq_true, if_false, Except.ok.injEq, Prod.mk.injEq,
                true_and] at h
              rw [← h.1]
              exact hrec _ _ _ _ _ heq

/-- C29. Whenever `parseStat` returns false, the record after the call is the record before
the call (filters, pseudos, facets and flags), and the members of `ItemAPI` are those before
the call but for the held line. -/
theorem parseStat_false_atomic (api api1 : ItemAPI F) (item item1 : PItem F) (stat : Str)
    (multiline : Bool) (h : parseStat api item stat multiline = .ok (false, item1, api1)) :
    item1 = item ∧ sameTables api api1 := by
  refine ⟨?_, (parseStat_frame api item stat multiline _ h).2⟩
  unfold parseStat at h
  refine parseStatBody_false _ ?_ api item stat multiline item1 api1 h
  intro a i s i1 a1 h1
  unfold parseStatCombined at h1
  refine parseStatBody_false _ ?_ a i s true i1 a1 h1
  intro a2 i2 _ i3 a3 h2
  cases h2
  rfl

/-- The four cases of the body of the loop of `parse` on one line, and the step of the
loop. -/
theorem parseLine_cases (item : PItem F) (api : ItemAPI F) (line : Str) :
    (startsWith line separator = true →
      parseLine (item, api) line =
        .ok ({ item with m_sections := item.m_sections + 1 }, { api with m_section := [] })) ∧
    (startsWith line separator = false → containsStr line [':'] = true →
      parseLine (item, api) line = .ok (parseProp api item line)) ∧
    (startsWith line separator = false → containsStr line [':'] = false →
      2 ≤ item.m_sections →
      parseLine (item, api) line =
        match parseStat api item line false with
        | .error x => .error x
        | .ok (_, item1, api1) => .ok (item1, api1)) ∧
    (startsWith line separator = false → containsStr line [':'] = false →
      item.m_sections < 2 →
      parseLine (item, api) line = .ok (item, api)) ∧
    (∀ rest : List Str, parseBody (line :: rest) (item, api) =
      match parseLine (item, api) line with
      | .error x => .error x
      | .ok st1 => parseBody rest st1) := by
  refine ⟨?_, ?_, ?_, ?_, fun _ => rfl⟩
  · intro h1
    unfold parseLine
    simp only [h1, if_true]
  · intro h1 h2
    unfold parseLine
    simp only [h1, h2, if_true, if_false, Bool.false_eq_true]
  · intro h1 h2 h3
    unfold parseLine
    have h4 : item.m_sections > 1 := by omega
    simp only [h1, h2, h4, if_true, if_false, Bool.false_eq_true]
  · intro h1 h2 h3
    unfold parseLine
    have h4 : ¬ item.m_sections > 1 := by omega
    simp only [h1, h2, h4, if_false, Bool.false_eq_true]

/-- C26. The body of the loop of `parse` over the lines after the name and the type: a line
that starts with "---" adds one to the section counter, clears the held line and reaches
neither parser; any other line that contains ':' goes to `parseProp` and not to `parseStat`;
any other line goes to `parseStat` when the section counter is at least 2, and leaves the
record and the members of `ItemAPI` as they are when it is less than 2. The loop applies
this to the lines one after the other. -/
theorem parseLine_routing (item : PItem F) (api : ItemAPI F) (line : Str) :
    (startsWith line separator = true →
      parseLine (item, api) line =
        .ok ({ item with m_sections := item.m_sections + 1 }, { api with m_section := [] })) ∧
    (startsWith line separator = false → containsStr line [':'] = true →
      parseLine (item, api) line = .ok (parseProp api item line)) ∧
    (startsWith line separator = false → containsStr line [':'] = false →
      2 ≤ item.m_sections →
      parseLine (item, api) line =
        match parseStat api item line false with
        | .error x => .error x
        | .ok (_, item1, api1) => .ok (item1, api1)) ∧
    (startsWith line separator = false → containsStr line [':'] = false →
      item.m_sections < 2 →
      parseLine (item, api) line = .ok (item, api)) ∧
    (∀ rest : List Str, parseBody (line :: rest) (item, api) =
      match parseLine (item, api) line with
      | .error x => .error x
      | .ok st1 => parseBody rest st1) :=
  parseLine_cases item api line

end Routing

/-- Witness of `parseStat_false_atomic`: an unmatched line is held and the record stays. -/
theorem parseStat_false_atomic_witness :
    parseStat (apiOf statsOne []) (itemOf []) "foo".toList false =
      .ok (false, itemOf [], apiOf statsOne "foo".toList) ∧
    itemOf [] = itemOf [] ∧ sameTables (apiOf statsOne []) (apiOf statsOne "foo".toList) :=
  ⟨by decide, parseStat_false_atomic (apiOf statsOne []) (apiOf statsOne "foo".toList)
    (itemOf []) (itemOf []) "foo".toList false (by decide)⟩

/-- Witness of `parseLine_routing`: a separator line, at a counter of 1 and with a line
held. -/
theorem parseLine_routing_witness :
    parseLine ({ itemOf [] with m_sections := 1 }, apiOf statsOne "foo".toList) "--------".toList =
      .ok ({ itemOf [] with m_sections := 2 }, apiOf statsOne []) :=
  (parseLine_routing { itemOf [] with m_sections := 1 } (apiOf statsOne "foo".toList)
    "--------".toList).1 (by decide)

/-! ## The choice among the entries of a key -/

section Selection

variable {F : Type} [DoubleOps F]

omit [DoubleOps F] in
theorem selectEntry_keep (val : List (NumVal F)) (entries : List StatEntry) (g : Filter F)
    (hg : g.type ≠ implicitKind) : selectEntry false val entries (some g) = some g := by
  induction entries with
  | nil => rfl
  | cons e rest ih =>
    unfold selectEntry
    simp only [Bool.false_eq_true, if_false, hg, false_and]
    split_ifs <;> exact ih

omit [DoubleOps F] in
theorem selectEntry_implicit (val : List (NumVal F)) (entries : List StatEntry) (g : Filter F)
    (hg : g.type = implicitKind) :
    selectEntry false val entries (some g) =
      match entries.find? (fun x => x.type = explicitKind) with
      | some x => some (mkFilter x val)
      | none => some g := by
  induction entries with
  | nil => rfl
  | cons e rest ih =>
    unfold selectEntry
    simp only [Bool.false_eq_true, if_false, hg, true_and]
    by_cases hp : e.type = pseudoKind
    · have hne : ¬ e.type = explicitKind := by
        rw [hp]
        decide
      rw [if_pos hp, ih, List.find?_cons_of_neg _ (by simpa using hne)]
    · rw [if_neg hp]
      by_cases he : e.type = explicitKind
      · rw [if_pos he, List.find?_cons_of_pos _ (by simpa using he)]
        apply selectEntry_keep
        show e.type ≠ implicitKind
        rw [he]
        decide
      · rw [if_neg he, ih, List.find?_cons_of_neg _ (by simpa using he)]

omit [DoubleOps F] in
/-- The loop of `parseStat` over the entries of the key, on a line without the crafted mark,
writes the entry that the specification names. -/
theorem selectEntry_plain (val : List (NumVal F)) (entries : List StatEntry) :
    selectEntry false val entries none =
      (preferredEntry entries).map (fun e => mkFilter e val) := by
  induction entries with
  | nil => rfl
  | cons e rest ih =>
    unfold selectEntry
    simp only [Bool.false_eq_true, if_false]
    by_cases hp : e.type = pseudoKind
    · rw [if_pos hp, ih]
      unfold preferredEntry
      rw [List.dropWhile_cons_of_pos (by simpa using hp)]
    · rw [if_neg hp]
      unfold preferredEntry
      rw [List.dropWhile_cons_of_neg (by simpa using hp)]
      simp only
      by_cases hi : e.type = implicitKind
      · rw [if_pos hi, selectEntry_implicit val rest (mkFilter e val) hi]
        cases rest.find? (fun x => x.type = explicitKind) <;> rfl
      · rw [if_neg hi]
        exact selectEntry_keep val rest (mkFilter e val) hi

omit [DoubleOps F] in
/-- The loop of `parseStat` over the entries of the key, on a line with the crafted mark,
writes the first crafted entry. -/
theorem selectEntry_crafted (val : List (NumVal F)) (entries : List StatEntry) :
    selectEntry true val entries none =
      (craftedEntry entries).map (fun e => mkFilter e val) := by
  induction entries with
  | nil => rfl
  | cons e rest ih =>
    unfold selectEntry craftedEntry
    simp only [if_true]
    by_cases hc : e.type = craftedKind
    · rw [if_neg (by simpa using hc), List.find?_cons_of_pos _ (by simpa using hc)]
      rfl
    · rw [if_pos (by simpa using hc), List.find?_cons_of_neg _ (by simpa using hc), ih]
      rfl

theorem mem_equalRange (stats : List (Str × StatEntry)) (stoken : Str) (e : StatEntry) :
    e ∈ equalRange stats stoken ↔ (stoken, e) ∈ stats := by
  unfold equalRange
  simp only [List.mem_map, List.mem_filter, beq_iff_eq]
  constructor
  · rintro ⟨⟨k, e1⟩, ⟨hm, hk⟩, he1⟩
    simp only at hk he1
    subst hk
    subst he1
    exact hm
  · intro h
    exact ⟨(stoken, e), ⟨h, rfl⟩, rfl⟩

theorem preferredEntry_spec (entries : List StatEntry) :
    (∀ e, preferredEntry entries = some e → e ∈ entries ∧ e.type ≠ pseudoKind) ∧
    (preferredEntry entries = none ↔ ∀ e ∈ entries, e.type = pseudoKind) := by
  induction entries with
  | nil =>
    refine ⟨?_, ?_⟩
    · intro e h
      cases h
    · simp [preferredEntry]
  | cons x rest ih =>
    by_cases hp : x.type = pseudoKind
    · have e1 : preferredEntry (x :: rest) = preferredEntry rest := by
        unfold preferredEntry
        rw [List.dropWhile_cons_of_pos (by simpa using hp)]
      rw [e1]
      refine ⟨?_, ?_⟩
      · intro e h
        exact ⟨List.mem_cons_of_mem _ (ih.1 e h).1, (ih.1 e h).2⟩
      · rw [ih.2]
        simp [hp]
    · have e1 : preferredEntry (x :: rest) =
          if x.type = implicitKind then
            match rest.find? (fun y => y.type = explicitKind) with
            | some y => some y
            | none => some x
          else some x := by
        unfold preferredEntry
        rw [List.dropWhile_cons_of_neg (by simpa using hp)]
      rw [e1]
      refine ⟨?_, ?_⟩
      · intro e h
        split_ifs at h with hi
        · cases hf : rest.find? (fun y => y.type = explicitKind) with
          | none =>
            rw [hf] at h
            cases h
            exact ⟨List.mem_cons_self _ _, hp⟩
          | some y =>
            rw [hf] at h
            cases h
            have hm := List.mem_of_find?_eq_some hf
            have ht := List.find?_some hf
            simp only [decide_eq_true_eq] at ht
            refine ⟨List.mem_cons_of_mem _ hm, ?_⟩
            rw [ht]
            decide
        · cases h
          exact ⟨List.mem_cons_self _ _, hp⟩
      · constructor
        · intro h
          split_ifs at h
          · split at h <;> cases h
        · intro h
          exact absurd (h x (List.mem_cons_self _ _)) hp

theorem startsWith_append_other (x y p : Str) (c : Char) (hc : c ∉ p) :
    startsWith (x ++ c :: y) p = startsWith x p := by
  induction p generalizing x with
  | nil => cases x <;> rfl
  | cons q qs ih =>
    have hq : (c == q) = false := by
      simp only [beq_eq_false_iff_ne, ne_eq]
      intro h
      exact hc (h ▸ List.mem_cons_self _ _)
    cases x with
    | nil => simp [startsWith, hq]
    | cons h t =>
      have e := ih t (fun hm => hc (List.mem_cons_of_mem _ hm))
      show (h == q && startsWith (t ++ c :: y) qs) = (h == q && startsWith t qs)
      rw [e]

/-- The crafted mark of a held line joined to a line is the crafted mark of the line. -/
theorem endsWith_combined (a stat : Str) :
    endsWith (a ++ '\n' :: stat) craftedTag = endsWith stat craftedTag := by
  unfold endsWith
  rw [List.reverse_append, List.reverse_cons, List.append_assoc, List.singleton_append]
  exact startsWith_append_other _ _ _ '\n' (by decide)

/-- A call of `parseStat` whose lookup finds a key, on the line or on the held line joined to
the line, and selects no entry, returns false and leaves the record. -/
theorem parseStat_none_selected (api : ItemAPI F) (item : PItem F) (stat T : Str)
    (multiline : Bool) (stoken : Str) (val : List (NumVal F))
    (hT : (T = stat ∧ stat ∉ flagStats) ∨
      (multiline = false ∧ api.m_section ≠ [] ∧ stat ∉ flagStats ∧
        (findKey api.m_stats_by_text stat (stripCrafted stat) :
          Option (Str × List (NumVal F))) = none ∧
        T = api.m_section ++ '\n' :: stat))
    (hk : findKey api.m_stats_by_text T (stripCrafted T) = some (stoken, val))
    (hsel : selectEntry (endsWith T craftedTag) val (equalRange api.m_stats_by_text stoken) none
      = none) :
    ∃ held, parseStat api item stat multiline = .ok (false, item, { api with m_section := held }) := by
  rcases hT with ⟨hTs, hflag⟩ | ⟨hml, hsec, hflag, hnone, hTs⟩
  · subst hTs
    unfold parseStat
    rw [parseStatBody_found _ api item T multiline stoken val hflag hk, hsel]
    exact ⟨[], rfl⟩
  · subst hTs
    subst hml
    rw [parseStat_not_found_pending api item stat hflag hnone hsec]
    unfold parseStatCombined
    rw [parseStatBody_found _ api item _ true stoken val (combined_not_flag _ _) hk, hsel]
    exact ⟨stat, rfl⟩

end Selection

section SelectionClaims

variable {F : Type} [DoubleOps F]

/-- C22. Let a line without the crafted mark be matched: a key is found for the line (or for
the held line joined to it), with the entries `e1..en` in lookup order. The entry selected is
the first entry that is no pseudo, but, when that entry is implicit and a later entry is
explicit, the first such later entry; it is an entry of the key and no pseudo, and the call
hands the filter of that one entry, with the values, to the store, which changes the filters
at the id of the entry only. If every entry of the key is a pseudo, the call returns false
and leaves the record. -/
theorem parseStat_plain_selection (api : ItemAPI F) (item : PItem F) (stat T : Str)
    (multiline : Bool) (stoken : Str) (val : List (NumVal F))
    (hT : (T = stat ∧ stat ∉ flagStats) ∨
      (multiline = false ∧ api.m_section ≠ [] ∧ stat ∉ flagStats ∧
        (findKey api.m_stats_by_text stat (stripCrafted stat) :
          Option (Str × List (NumVal F))) = none ∧
        T = api.m_section ++ '\n' :: stat))
    (hk : findKey api.m_stats_by_text T (stripCrafted T) = some (stoken, val))
    (hcr : endsWith stat craftedTag = false) :
    (∀ e, preferredEntry (equalRange api.m_stats_by_text stoken) = some e →
      (stoken, e) ∈ api.m_stats_by_text ∧ e.type ≠ pseudoKind ∧
      parseStat api item stat multiline =
        (match storeFilter item.filters (mkFilter e val) with
        | .error x => .error x
        | .ok filters =>
          .ok (true, { item with filters := filters }, { api with m_section := [] })) ∧
      (∀ filters, storeFilter item.filters (mkFilter e val) = .ok filters →
        ∀ k, k ≠ e.id → lookupKey k filters = lookupKey k item.filters)) ∧
    ((∀ e ∈ equalRange api.m_stats_by_text stoken, e.type = pseudoKind) →
      ∃ held, parseStat api item stat multiline =
        .ok (false, item, { api with m_section := held })) := by
  have hcrT : endsWith T craftedTag = false := by
    rcases hT with ⟨hTs, _⟩ | ⟨_, _, _, _, hTs⟩
    · rw [hTs]
      exact hcr
    · rw [hTs, endsWith_combined]
      exact hcr
  obtain ⟨hp1, hp2⟩ := preferredEntry_spec (equalRange api.m_stats_by_text stoken)
  refine ⟨?_, ?_⟩
  · intro e he
    refine ⟨(mem_equalRange _ _ _).1 (hp1 e he).1, (hp1 e he).2, ?_, ?_⟩
    · apply parseStat_matched api item stat T multiline stoken val (mkFilter e val) hT hk
      rw [hcrT, selectEntry_plain, he]
      rfl
    · intro filters hst k hne
      exact storeFilter_other _ _ _ hst k hne
  · intro hall
    apply parseStat_none_selected api item stat T multiline stoken val hT hk
    rw [hcrT, selectEntry_plain, hp2.2 hall]
    rfl

/-- C23. Let a line that ends in "(crafted)" be matched: a key is found for the line (or for
the held line joined to it). The call hands to the store the filter of the first entry of the
key, in lookup order, whose kind is "crafted", and of no other entry; the store changes the
filters at the id of that entry only. If the key has no entry of kind "crafted", the call
returns false and leaves the record, so that no filter is added or changed. -/
theorem parseStat_crafted_selection (api : ItemAPI F) (item : PItem F) (stat T : Str)
    (multiline : Bool) (stoken : Str) (val : List (NumVal F))
    (hT : (T = stat ∧ stat ∉ flagStats) ∨
      (multiline = false ∧ api.m_section ≠ [] ∧ stat ∉ flagStats ∧
        (findKey api.m_stats_by_text stat (stripCrafted stat) :
          Option (Str × List (NumVal F))) = none ∧
        T = api.m_section ++ '\n' :: stat))
    (hk : findKey api.m_stats_by_text T (stripCrafted T) = some (stoken, val))
    (hcr : endsWith stat craftedTag = true) :
    (∀ e, craftedEntry (equalRange api.m_stats_by_text stoken) = some e →
      (stoken, e) ∈ api.m_stats_by_text ∧ e.type = craftedKind ∧
      parseStat api item stat multiline =
        (match storeFilter item.filters (mkFilter e val) with
        | .error x => .error x
        | .ok filters =>
          .ok (true, { item with filters := filters }, { api with m_section := [] })) ∧
      (∀ filters, storeFilter item.filters (mkFilter e val) = .ok filters →
        ∀ k, k ≠ e.id → lookupKey k filters = lookupKey k item.filters)) ∧
    ((∀ e ∈ equalRange api.m_stats_by_text stoken, e.type ≠ craftedKind) →
      ∃ held, parseStat api item stat multiline =
        .ok (false, item, { api with m_section := held })) := by
  have hcrT : endsWith T craftedTag = true := by
    rcases hT with ⟨hTs, _⟩ | ⟨_, _, _, _, hTs⟩
    · rw [hTs]
      exact hcr
    · rw [hTs, endsWith_combined]
      exact hcr
  refine ⟨?_, ?_⟩
  · intro e he
    have hm := List.mem_of_find?_eq_some he
    have ht := List.find?_some he
    simp only [decide_eq_true_eq] at ht
    refine ⟨(mem_equalRange _ _ _).1 hm, ht, ?_, ?_⟩
    · apply parseStat_matched api item stat T multiline stoken val (mkFilter e val) hT hk
      rw [hcrT, selectEntry_crafted, he]
      rfl
    · intro filters hst k hne
      exact storeFilter_other _ _ _ hst k hne
  · intro hall
    apply parseStat_none_selected api item stat T multiline stoken val hT hk
    have hn : craftedEntry (equalRange api.m_stats_by_text stoken) = none := by
      unfold craftedEntry
      rw [List.find?_eq_none]
      intro x hx
      simpa using hall x hx
    rw [hcrT, selectEntry_crafted, hn]
    rfl

end SelectionClaims

/-- Witness of `parseStat_plain_selection`: under the key "x #" the pseudo is skipped and the
first explicit entry is preferred to the implicit one before it. -/
theorem parseStat_plain_selection_witness :
    parseStat (apiOf statsKinds []) (itemOf []) "x 5".toList false =
      .ok (true, itemOf [("E".toList, ⟨"E".toList, "explicit".toList, "x #".toList, [.int 5]⟩)],
        apiOf statsKinds []) ∧
    ∃ held, parseStat (apiOf statsPseudoOnly []) (itemOf []) "x 5".toList false =
      .ok (false, itemOf [], { apiOf statsPseudoOnly [] with m_section := held }) :=
  ⟨((parseStat_plain_selection (apiOf statsKinds []) (itemOf []) "x 5".toList "x 5".toList false
      "x #".toList [.int 5] (Or.inl ⟨rfl, by decide⟩) (by decide) (by decide)).1
      ⟨"E".toList, "explicit".toList, "x #".toList⟩ (by decide)).2.2.1.trans (by decide),
   (parseStat_plain_selection (apiOf statsPseudoOnly []) (itemOf []) "x 5".toList "x 5".toList
      false "x #".toList [.int 5] (Or.inl ⟨rfl, by decide⟩) (by decide) (by decide)).2
      (by decide)⟩

/-- Witness of `parseStat_crafted_selection`: under the key "x #" the crafted line selects
the crafted entry, the last of the five, and a key without a crafted entry gives false. -/
theorem parseStat_crafted_selection_witness :
    parseStat (apiOf statsKinds []) (itemOf []) "x 5 (crafted)".toList false =
      .ok (true, itemOf [("C".toList, ⟨"C".toList, "crafted".toList, "x #".toList, [.int 5]⟩)],
        apiOf statsKinds []) ∧
    ∃ held, parseStat (apiOf statsOne []) (itemOf []) "x 5 y (crafted)".toList false =
      .ok (false, itemOf [], { apiOf statsOne [] with m_section := held }) :=
  ⟨((parseStat_crafted_selection (apiOf statsKinds []) (itemOf []) "x 5 (crafted)".toList
      "x 5 (crafted)".toList false "x #".toList [.int 5] (Or.inl ⟨rfl, by decide⟩) (by decide)
      (by decide)).1
      ⟨"C".toList, "crafted".toList, "x #".toList⟩ (by decide)).2.2.1.trans (by decide),
   (parseStat_crafted_selection (apiOf statsOne []) (itemOf []) "x 5 y (crafted)".toList
      "x 5 y (crafted)".toList false "x # y".toList [.int 5] (Or.inl ⟨rfl, by decide⟩)
      (by decide) (by decide)).2 (by decide)⟩

/-! ## The section counter -/

section Sections

variable {F : Type} [DoubleOps F]

theorem parsePropBody_sections (recur : ItemAPI F → PItem F → Str → PItem F × ItemAPI F)
    (hrec : ∀ a i s, (recur a i s).1.m_sections = i.m_sections)
    (api : ItemAPI F) (item : PItem F) (prop : Str) :
    (parsePropBody recur api item prop).1.m_sections = item.m_sections := by
  unfold parsePropBody
  simp only
  split
  · rfl
  · split <;> (try split_ifs) <;>
      first
      | exact hrec _ _ _
      | rfl

theorem parseProp_sections (api : ItemAPI F) (item : PItem F) (prop : Str) :
    (parseProp api item prop).1.m_sections = item.m_sections := by
  unfold parseProp
  apply parsePropBody_sections
  intro a i s
  unfold parsePropInner
  apply parsePropBody_sections
  intro a1 i1 _
  rfl

theorem parseStatBody_sections (recur : ItemAPI F → PItem F → Str → StatResult F)
    (hrec : ∀ a i s r, recur a i s = .ok r → r.2.1.m_sections = i.m_sections)
    (api : ItemAPI F) (item : PItem F) (stat : Str) (multiline : Bool)
    (r : Bool × PItem F × ItemAPI F) (h : parseStatBody recur api item stat multiline = .ok r) :
    r.2.1.m_sections = item.m_sections := by
  by_cases hflag : stat ∈ flagStats
  · obtain ⟨m, hm⟩ := parseStatBody_flag recur api item stat multiline hflag
    rw [hm] at h
    cases h
    rfl
  · cases hk : (findKey api.m_stats_by_text stat (stripCrafted stat) :
        Option (Str × List (NumVal F))) with
    | some p =>
      obtain ⟨stoken, val⟩ := p
      rw [parseStatBody_found recur api item stat multiline stoken val hflag hk] at h
      split at h
      · cases h
        rfl
      · split at h
        · cases h
        · cases h
          rfl
    | none =>
      cases multiline with
      | true =>
        rw [parseStatBody_not_found_multiline recur api item stat hflag hk] at h
        cases h
        rfl
      | false =>
        rw [parseStatBody_not_found recur api item stat hflag hk] at h
        split_ifs at h with he
        · cases h
          rfl
        · split at h
          · cases h
          · rename_i result i2 a2 heq
            have h2 := hrec _ _ _ _ heq
            split_ifs at h <;> cases h <;> exact h2

theorem parseStat_sections (api : ItemAPI F) (item : PItem F) (stat : Str) (multiline : Bool)
    (r : Bool × PItem F × ItemAPI F) (h : parseStat api item stat multiline = .ok r) :
    r.2.1.m_sections = item.m_sections := by
  unfold parseStat at h
  refine parseStatBody_sections _ ?_ api item stat multiline r h
  intro a i s r1 h1
  unfold parseStatCombined at h1
  refine parseStatBody_sections _ ?_ a i s true r1 h1
  intro a2 i2 _ r2 h2
  cases h2
  rfl

theorem parseLine_sections (st st1 : PItem F × ItemAPI F) (line : Str)
    (h : parseLine st line = .ok st1) :
    st1.1.m_sections = st.1.m_sections + separatorCount [line] := by
  obtain ⟨item, api⟩ := st
  unfold parseLine at h
  simp only at h
  unfold separatorCount
  by_cases hs : startsWith line separator = true
  · rw [if_pos hs] at h
    cases h
    simp [hs]
  · rw [if_neg hs] at h
    have e : (List.countP (fun l => startsWith l separator) [line] : Nat) = 0 := by
      simp [hs]
    rw [e]
    simp only [Nat.cast_zero, add_zero]
    split_ifs at h
    · cases h
      exact parseProp_sections api item line
    · split at h
      · cases h
      · rename_i b item1 api1 heq
        cases h
        exact parseStat_sections api item line false _ heq
    · cases h
      rfl

theorem parseBody_sections (lines : List Str) (st st1 : PItem F × ItemAPI F)
    (h : parseBody lines st = .ok st1) :
    st1.1.m_sections = st.1.m_sections + separatorCount lines := by
  induction lines generalizing st with
  | nil =>
    cases h
    simp [separatorCount]
  | cons line rest ih =>
    unfold parseBody at h
    split at h
    · cases h
    · rename_i st2 heq
      have h1 := parseLine_sections st st2 line heq
      have h2 := ih st2 h
      rw [h2, h1]
      unfold separatorCount
      rw [List.countP_cons, List.countP_cons, List.countP_nil]
      push_cast
      ring

omit [DoubleOps F] in
theorem processCategory_sections (api : ItemAPI F) (item : PItem F) :
    (processCategory api item).m_sections = item.m_sections := by
  unfold processCategory
  simp only
  split_ifs <;> (try split) <;> (try split_ifs) <;> rfl

theorem headerRecord_sections (api : ItemAPI F) (itemText : Str) :
    (headerRecord api itemText).m_sections = 0 := by
  unfold headerRecord
  simp only
  rw [processCategory_sections]
  split_ifs <;> rfl

omit [DoubleOps F] in
theorem baseCategory_sections (api : ItemAPI F) (item : PItem F) :
    (baseCategory api item).m_sections = item.m_sections := by
  unfold baseCategory
  split_ifs <;> (try split) <;> rfl

/-- C27, amended. When `parse` returns a record, the section counter of the record is the
number of lines after the third line of the input that start with "---": the counter is
incremented at each separator line of the body, and a separator that is the third line of the
input, right after the type line of an item without a separate name, is read with the name
and the type and is not counted. -/
theorem parse_section_counter (api api1 : ItemAPI F) (itemText : Str) (item : PItem F)
    (h : parse api itemText = .ok (some item, api1)) :
    item.m_sections = separatorCount ((readLines itemText).drop 3) := by
  obtain ⟨_, item2, api2, byId, pseudos, hbody, _, hitem, _⟩ := parse_ok api api1 itemText item h
  have hb := parseBody_sections _ _ _ hbody
  simp only at hb
  rw [headerRecord_sections, zero_add] at hb
  rw [hitem]
  show (baseCategory api2 item2).m_sections = _
  rw [baseCategory_sections, hb]

end Sections

/-- C27, counterexample. The input has two lines that start with "---", the third and the
fifth, and the section counter of the returned record is 1. -/
theorem parse_third_line_separator :
    separatorCount (readLines "Rarity: Gem\nFireball\n--------\nfoo\n--------".toList) = 2 ∧
    sectionsOf (parse (apiOf [] []) "Rarity: Gem\nFireball\n--------\nfoo\n--------".toList) =
      some 1 := by
  decide

/-- Witness of `parse_section_counter`: two separator lines after the third line. -/
theorem parse_section_counter_witness :
    ∃ item api1, parse (apiOf [] []) "Rarity: Rare\nDoom Knot\nIron Ring\n--------\nfoo\n--------".toList =
        .ok (some item, api1) ∧ item.m_sections = 2 := by
  obtain ⟨item, api1, hp, _⟩ := categoryOf_some
    (parse (apiOf [] []) "Rarity: Rare\nDoom Knot\nIron Ring\n--------\nfoo\n--------".toList) []
    (by decide)
  refine ⟨item, api1, hp, ?_⟩
  have h := parse_section_counter (apiOf [] []) api1 _ item hp
  rw [h]
  decide

/-! ## The level dispatch of `parseProp` -/

section Level

variable {F : Type} [DoubleOps F]

theorem splitAux_no_sep (sep v : Str) (h : containsStr v sep = false) :
    splitAux sep v 0 = [v] := by
  induction v with
  | nil => rfl
  | cons c cs ih =>
    simp only [containsStr, Bool.or_eq_false_iff] at h
    rw [splitAux, if_neg (by simp [h.1]), ih h.2]

theorem splitAux_key (k v : Str) (hk : ':' ∉ k) :
    splitAux [':', ' '] (k ++ ':' :: ' ' :: v) 0 = k :: splitAux [':', ' '] v 0 := by
  induction k with
  | nil =>
    rw [List.nil_append, splitAux, if_pos (by simp [startsWith])]
    rfl
  | cons c cs ih =>
    have hc : ¬ c = ':' := fun e => hk (e ▸ List.mem_cons_self _ _)
    have hcs : ':' ∉ cs := fun e => hk (List.mem_cons_of_mem _ e)
    rw [List.cons_append, splitAux, if_neg (by simp [startsWith, hc]), ih hcs]

theorem takeWhile_key (k v : Str) (hk : ':' ∉ k) :
    (k ++ ':' :: v).takeWhile (fun x => x != ':') = k := by
  induction k with
  | nil => simp
  | cons c cs ih =>
    have hc : ¬ c = ':' := fun e => hk (e ▸ List.mem_cons_self _ _)
    have hcs : ':' ∉ cs := fun e => hk (List.mem_cons_of_mem _ e)
    rw [List.cons_append, List.takeWhile_cons_of_pos (by simpa using hc), ih hcs]

/-- The key and the value that `parseProp` reads on a line made of a key without colon, a
colon, a space and a value without a colon followed by a space. -/
theorem sections_of_prop (k v : Str) (hk : ':' ∉ k) (hv : containsStr v [':', ' '] = false) :
    sectionStr (k ++ ':' :: ' ' :: v) [':'] 0 = k ∧
    sectionStr (k ++ ':' :: ' ' :: v) [':', ' '] 1 = v := by
  refine ⟨?_, ?_⟩
  · rw [sectionStr_zero]
    exact takeWhile_key k _ hk
  · unfold sectionStr splitStr
    rw [splitAux_key k v hk, splitAux_no_sep _ v hv]
    rfl

theorem takeWhile_all (p : Char → Bool) (s : Str) (h : ∀ c ∈ s, p c = true) :
    s.takeWhile p = s := by
  induction s with
  | nil => rfl
  | cons c cs ih =>
    rw [List.takeWhile_cons_of_pos (h c (List.mem_cons_self _ _)),
      ih (fun x hx => h x (List.mem_cons_of_mem _ hx))]

/-- The number that `readPropInt` reads on decimal digits. -/
theorem readPropInt_digits (n : Str) (h : isDigits n = true) :
    readPropInt n = clipInt (digitsVal n) := by
  obtain ⟨hne, hall⟩ := isDigits_spec n h
  have hsp : ' ' ∉ n := not_mem_of_digits n ' ' (by decide) hall
  have hnum : ∀ c ∈ n, isNumCh c = true := by
    intro c hc
    simp [isNumCh, hall c hc]
  unfold readPropInt
  have hr : replaceStr n augmentedTag [] = n := replaceAux_of_not_mem n ' ' _ [] hsp
  rw [hr]
  cases n with
  | nil => exact absurd rfl hne
  | cons c cs =>
    unfold leadingNumber
    simp only [hnum c (List.mem_cons_self _ _), if_true]
    rw [takeWhile_all isNumCh _ hnum]
    exact toInt_digits _ h

theorem parsePropBody_req_level (recur : ItemAPI F → PItem F → Str → PItem F × ItemAPI F)
    (api : ItemAPI F) (item : PItem F) (prop : Str)
    (h : lookupKey (sectionStr prop [':'] 0) api.c_propMap =
      some (.req_filter (some .req_filter_lvl))) :
    parsePropBody recur api item prop =
      ({ item with f_req := { item.f_req with
          lvl := readPropInt (sectionStr prop [':', ' '] 1) } }, api) := by
  unfold parsePropBody
  simp only [h]

theorem parsePropBody_gem_level (recur : ItemAPI F → PItem F → Str → PItem F × ItemAPI F)
    (api : ItemAPI F) (item : PItem F) (prop : Str)
    (h : lookupKey (sectionStr prop [':'] 0) api.c_propMap =
      some (.misc_filter (some .misc_filter_gem_level))) :
    parsePropBody recur api item prop =
      ({ item with f_misc := { item.f_misc with
          gem_level := readPropInt (sectionStr prop [':', ' '] 1) } }, api) := by
  unfold parsePropBody
  simp only [h]

theorem parsePropBody_level (recur : ItemAPI F → PItem F → Str → PItem F × ItemAPI F)
    (api : ItemAPI F) (item : PItem F) (prop : Str)
    (hp : sectionStr prop [':'] 0 = "Level".toList)
    (h : lookupKey "Level".toList api.c_propMap = some .special_filter) :
    parsePropBody recur api item prop =
      recur api item ((if api.m_section = requirementsKey then "req_level: ".toList
        else "gem_level: ".toList) ++ sectionStr prop [':', ' '] 1) := by
  unfold parsePropBody
  simp only [hp, h]
  rfl

theorem parsePropBody_requirements (recur : ItemAPI F → PItem F → Str → PItem F × ItemAPI F)
    (api : ItemAPI F) (item : PItem F) (prop : Str)
    (hp : sectionStr prop [':'] 0 = requirementsKey)
    (h : lookupKey requirementsKey api.c_propMap = some .special_filter) :
    parsePropBody recur api item prop = (item, { api with m_section := requirementsKey }) := by
  unfold parsePropBody
  simp only [hp, h]
  rfl

/-- The dispatch of a "Level" line on the held-line buffer. -/
theorem parseProp_level_line (api : ItemAPI F) (item : PItem F) (n : Str)
    (hL : lookupKey "Level".toList api.c_propMap = some .special_filter)
    (hreq : lookupKey "req_level".toList api.c_propMap =
      some (.req_filter (some .req_filter_lvl)))
    (hgem : lookupKey "gem_level".toList api.c_propMap =
      some (.misc_filter (some .misc_filter_gem_level)))
    (hn : containsStr n [':', ' '] = false) :
    (api.m_section = requirementsKey →
      parseProp api item ("Level".toList ++ ':' :: ' ' :: n) =
        ({ item with f_req := { item.f_req with lvl := readPropInt n } }, api)) ∧
    (api.m_section ≠ requirementsKey →
      parseProp api item ("Level".toList ++ ':' :: ' ' :: n) =
        ({ item with f_misc := { item.f_misc with gem_level := readPropInt n } }, api)) := by
  obtain ⟨hp, hv⟩ := sections_of_prop "Level".toList n (by decide) hn
  have hlev := parsePropBody_level parsePropInner api item _ hp hL
  rw [hv] at hlev
  constructor
  · intro hs
    unfold parseProp
    rw [hlev, if_pos hs]
    obtain ⟨hp2, hv2⟩ := sections_of_prop "req_level".toList n (by decide) hn
    unfold parsePropInner
    have e := parsePropBody_req_level (fun a i _ => (i, a)) api item
      ("req_level".toList ++ ':' :: ' ' :: n) (by rw [hp2]; exact hreq)
    rw [hv2] at e
    exact e
  · intro hs
    unfold parseProp
    rw [hlev, if_neg hs]
    obtain ⟨hp2, hv2⟩ := sections_of_prop "gem_level".toList n (by decide) hn
    unfold parsePropInner
    have e := parsePropBody_gem_level (fun a i _ => (i, a)) api item
      ("gem_level".toList ++ ':' :: ' ' :: n) (by rw [hp2]; exact hgem)
    rw [hv2] at e
    exact e

/-- The held-line buffer after a call of `parseStat` on a line that is no flag line: the
call throws, or it returns with a buffer that is empty or, the result being false, the line. -/
theorem parseStat_buffer (api : ItemAPI F) (item : PItem F) (stat : Str)
    (hflag : stat ∉ flagStats) :
    parseStat api item stat false = .error .type_error ∨
    ∃ (r : Bool) (item1 : PItem F) (api1 : ItemAPI F),
      parseStat api item stat false = .ok (r, item1, api1) ∧
      (api1.m_section = [] ∨ (r = false ∧ api1.m_section = stat)) := by
  cases hk : (findKey api.m_stats_by_text stat (stripCrafted stat) :
      Option (Str × List (NumVal F))) with
  | some kv =>
    obtain ⟨stoken, val⟩ := kv
    unfold parseStat
    rw [parseStatBody_found _ api item stat false stoken val hflag hk]
    cases selectEntry (endsWith stat craftedTag) val (equalRange api.m_stats_by_text stoken)
        none with
    | none => exact Or.inr ⟨_, _, _, rfl, Or.inl rfl⟩
    | some filter =>
      dsimp only
      cases storeFilter item.filters filter with
      | error x =>
        cases x
        exact Or.inl rfl
      | ok filters => exact Or.inr ⟨_, _, _, rfl, Or.inl rfl⟩
  | none =>
    unfold parseStat
    rw [parseStatBody_not_found _ api item stat hflag hk]
    by_cases hs : api.m_section.isEmpty = true
    · rw [if_pos hs]
      exact Or.inr ⟨_, _, _, rfl, Or.inr ⟨rfl, rfl⟩⟩
    · rw [if_neg hs]
      cases parseStatCombined api item (api.m_section ++ '\n' :: stat) with
      | error x =>
        cases x
        exact Or.inl rfl
      | ok res =>
        obtain ⟨result, item1, api1⟩ := res
        cases result with
        | true => exact Or.inr ⟨_, _, _, rfl, Or.inl rfl⟩
        | false => exact Or.inr ⟨_, _, _, rfl, Or.inr ⟨rfl, rfl⟩⟩

/-- C21, amended. Let the property schema hold "Requirements" and "Level" as special keys
and "req_level" and "gem_level" as the keys of the required level and of the gem level. A
line "Level: N" writes the number read in `N` to the required level, and leaves the gem
level, if and only if the held-line buffer `m_section` is "Requirements" when the line is
processed; otherwise it writes that number to the gem level and leaves the required level.
The buffer is "Requirements" right after a "Requirements" property line and empty right
after a separator line; for decimal digits `N` the number read is `N` when it is an `int`.
A call of `parseStat` on one of the four flag lines leaves the buffer as it is, so that the
"Level" line after it is dispatched as before it. On any other line `parseStat` throws a
`json` type error or returns, and then the buffer is empty or, the call having returned
false, that line itself; so the "Level" line after a returned call on such a line other than
"Requirements" writes to the gem level. -/
theorem parseProp_level_dispatch (api : ItemAPI F) (item : PItem F) (n : Str)
    (hL : lookupKey "Level".toList api.c_propMap = some .special_filter)
    (hR : lookupKey requirementsKey api.c_propMap = some .special_filter)
    (hreq : lookupKey "req_level".toList api.c_propMap =
      some (.req_filter (some .req_filter_lvl)))
    (hgem : lookupKey "gem_level".toList api.c_propMap =
      some (.misc_filter (some .misc_filter_gem_level)))
    (hn : containsStr n [':', ' '] = false) :
    (api.m_section = requirementsKey →
      parseProp api item ("Level".toList ++ ':' :: ' ' :: n) =
        ({ item with f_req := { item.f_req with lvl := readPropInt n } }, api)) ∧
    (api.m_section ≠ requirementsKey →
      parseProp api item ("Level".toList ++ ':' :: ' ' :: n) =
        ({ item with f_misc := { item.f_misc with gem_level := readPropInt n } }, api)) ∧
    (∀ v : Str, (parseProp api item (requirementsKey ++ ':' :: v)).2.m_section =
      requirementsKey) ∧
    (∀ line : Str, startsWith line separator = true →
      ∃ item1 api1, parseLine (item, api) line = .ok (item1, api1) ∧ api1.m_section = []) ∧
    (isDigits n = true → readPropInt n = clipInt (digitsVal n)) ∧
    (∀ stat : Str, stat ∈ flagStats →
      ∃ item1 : PItem F,
        parseStat api item stat false = .ok (true, item1, api) ∧
        (api.m_section = requirementsKey →
          parseProp api item1 ("Level".toList ++ ':' :: ' ' :: n) =
            ({ item1 with f_req := { item1.f_req with lvl := readPropInt n } }, api)) ∧
        (api.m_section ≠ requirementsKey →
          parseProp api item1 ("Level".toList ++ ':' :: ' ' :: n) =
            ({ item1 with f_misc := { item1.f_misc with gem_level := readPropInt n } }, api))) ∧
    (∀ stat : Str, stat ∉ flagStats →
      parseStat api item stat false = .error .type_error ∨
      ∃ (r : Bool) (item1 : PItem F) (api1 : ItemAPI F),
        parseStat api item stat false = .ok (r, item1, api1) ∧
        (api1.m_section = [] ∨ (r = false ∧ api1.m_section = stat)) ∧
        (stat ≠ requirementsKey →
          parseProp api1 item1 ("Level".toList ++ ':' :: ' ' :: n) =
            ({ item1 with f_misc := { item1.f_misc with gem_level := readPropInt n } },
              api1))) := by
  obtain ⟨h1, h2⟩ := parseProp_level_line api item n hL hreq hgem hn
  refine ⟨h1, h2, ?_, ?_, readPropInt_digits n, ?_, ?_⟩
  · intro v
    unfold parseProp
    rw [parsePropBody_requirements parsePropInner api item _
      (by rw [sectionStr_zero]; exact takeWhile_key requirementsKey v (by decide)) hR]
  · intro line hs
    exact ⟨_, _, (parseLine_cases item api line).1 hs, rfl⟩
  · intro stat hflag
    obtain ⟨m, hm⟩ := parseStatBody_flag parseStatCombined api item stat false hflag
    exact ⟨_, hm, parseProp_level_line api _ n hL hreq hgem hn⟩
  · intro stat hflag
    rcases parseStat_buffer api item stat hflag with h | ⟨r, item1, api1, hst, hbuf⟩
    · exact Or.inl h
    · refine Or.inr ⟨r, item1, api1, hst, hbuf, ?_⟩
      intro hne
      have hmap : api.c_propMap = api1.c_propMap :=
        (parseStat_frame api item stat false _ hst).2.2.2.2.2.2
      have hsec : api1.m_section ≠ requirementsKey := by
        rcases hbuf with h | ⟨_, h⟩
        · rw [h]
          decide
        · rw [h]
          exact hne
      exact (parseProp_level_line api1 item1 n (hmap ▸ hL) (hmap ▸ hreq) (hmap ▸ hgem) hn).2 hsec

end Level

/-- C21, counterexample. With the schema of the two special keys, the body of the first text
has a "Requirements" line, a stat line and a "Level" line, with no separator after the
"Requirements" line: the level 5 is written to the gem level and the required level stays 0.
The body of the second text has no "Requirements" property line but the stat line
"Requirements": the level 5 is written to the required level. -/
theorem parse_level_after_stat_line :
    levelsOf (parse (apiLevel [])
      "Rarity: Rare\nN\nT\n---\n---\nRequirements:\nfoo\nLevel: 5".toList) = some (0, 5) ∧
    levelsOf (parse (apiLevel [])
      "Rarity: Rare\nN\nT\n---\n---\nRequirements\nLevel: 5".toList) = some (5, 0) := by
  decide

/-- Witness of `parseProp_level_dispatch`: the line "Level: 12" with the buffer
"Requirements" and with an empty buffer; the flag line "Corrupted" leaves the buffer
"Requirements", so that the level of a "Level" line after the lines "Requirements:" and
"Corrupted" is the required level; the unmatched line "foo" replaces the buffer. -/
theorem parseProp_level_dispatch_witness :
    parseProp (apiLevel "Requirements".toList) (itemOf []) "Level: 12".toList =
      ({ itemOf [] with f_req := ⟨12, 0, 0, 0⟩ }, apiLevel "Requirements".toList) ∧
    parseProp (apiLevel []) (itemOf []) "Level: 12".toList =
      ({ itemOf [] with f_misc := { (itemOf []).f_misc with gem_level := 12 } }, apiLevel []) ∧
    (∃ item1 : PItem Dbl,
      parseStat (apiLevel "Requirements".toList) (itemOf []) "Corrupted".toList false =
        .ok (true, item1, apiLevel "Requirements".toList) ∧
      parseProp (apiLevel "Requirements".toList) item1 "Level: 12".toList =
        ({ item1 with f_req := { item1.f_req with lvl := readPropInt "12".toList } },
          apiLevel "Requirements".toList)) ∧
    levelsOf (parse (apiLevel [])
      "Rarity: Rare\nN\nT\n---\n---\nRequirements:\nCorrupted\nLevel: 5".toList) = some (5, 0) ∧
    parseStat (apiLevel "Requirements".toList) (itemOf []) "foo".toList false =
      .ok (false, itemOf [], apiLevel "foo".toList) :=
  ⟨((parseProp_level_dispatch (apiLevel "Requirements".toList) (itemOf []) "12".toList
      (by decide) (by decide) (by decide) (by decide) (by decide)).1 (by decide)).trans
      (by decide),
   ((parseProp_level_dispatch (apiLevel []) (itemOf []) "12".toList
      (by decide) (by decide) (by decide) (by decide) (by decide)).2.1 (by decide)).trans
      (by decide),
   (let ⟨item1, h1, h2, _⟩ :=
      (parseProp_level_dispatch (apiLevel "Requirements".toList) (itemOf []) "12".toList
        (by decide) (by decide) (by decide) (by decide) (by decide)).2.2.2.2.2.1
        "Corrupted".toList (by decide)
    ⟨item1, h1, h2 (by decide)⟩),
   by decide, by decide⟩

/-! ## The repair loops on two substitutions -/

/-- C24, evaluation at the failing inputs. The line "x 3 y 7" has the templated form
"x # y #" and the values 3 and 7. The second attempt of the reverse repair looks up
"x 7 y 7", the last value in both placeholders, not "x 3 y 7": with the only key "x 7 y 7"
the loop finds it, one value is erased and `parseStat` records the key with the value 3. With
the only key "x # y 3 z 7", which is the templated form of "x 1 y 3 z 7" with its last two
values put back, the line "x 1 y 3 z 7" is not matched: it is held and the call returns
false. -/
theorem reverseSearch_repeats_last_value :
    templated "x 3 y 7".toList = "x # y #".toList ∧
    (extractVals "x 3 y 7".toList : List (NumVal Dbl)) = [.int 3, .int 7] ∧
    reverseSearch statsSevens ([.int 3, .int 7] : List (NumVal Dbl)) 2 "x # y #".toList =
      some ("x 7 y 7".toList, [.int 3]) ∧
    parseStat (apiOf statsSevens []) (itemOf []) "x 3 y 7".toList false =
      .ok (true, itemOf [filterX "x 7 y 7" [.int 3]], apiOf statsSevens []) ∧
    parseStat (apiOf statsTrailing []) (itemOf []) "x 1 y 3 z 7".toList false =
      .ok (false, itemOf [], apiOf statsTrailing "x 1 y 3 z 7".toList) := by
  decide

/-- C25, evaluation at the failing input. The line "x 1 y 1 z 5" has three values; the
forward repair finds the key "x 1 y 1 z #" on its second attempt, erases the first value only
and `parseStat` records the filter with the two values 1 and 5, although one placeholder is
left in the key. -/
theorem forwardSearch_erases_one_value :
    templated "x 1 y 1 z 5".toList = "x # y # z #".toList ∧
    (extractVals "x 1 y 1 z 5".toList : List (NumVal Dbl)) = [.int 1, .int 1, .int 5] ∧
    hasKey statsLeading "x 1 y # z #".toList = false ∧
    forwardSearch statsLeading ([.int 1, .int 1, .int 5] : List (NumVal Dbl)) 3
      "x # y # z #".toList = some ("x 1 y 1 z #".toList, [.int 1, .int 5]) ∧
    countHash "x 1 y 1 z #".toList = 1 ∧
    parseStat (apiOf statsLeading []) (itemOf []) "x 1 y 1 z 5".toList false =
      .ok (true, itemOf [filterX "x 1 y 1 z #" [.int 1, .int 5]], apiOf statsLeading []) := by
  decide

/-! ## Calls of `parse` one after the other -/

section Independence

variable {F : Type} [DoubleOps F]

theorem parsePropBody_congr (recur recur1 : ItemAPI F → PItem F → Str → PItem F × ItemAPI F)
    (a b : ItemAPI F) (item : PItem F) (prop : Str)
    (hp : a.c_propMap = b.c_propMap) (hs : a.m_section = b.m_section)
    (hrec : ∀ i s, (recur a i s).1 = (recur1 b i s).1 ∧
      (recur a i s).2.m_section = (recur1 b i s).2.m_section) :
    (parsePropBody recur a item prop).1 = (parsePropBody recur1 b item prop).1 ∧
      (parsePropBody recur a item prop).2.m_section =
        (parsePropBody recur1 b item prop).2.m_section := by
  unfold parsePropBody
  simp only [hp, hs]
  split
  · exact ⟨rfl, hs⟩
  · split <;> (try split_ifs) <;>
      first
      | exact hrec _ _
      | exact ⟨rfl, hs⟩
      | exact ⟨rfl, rfl⟩

theorem parseProp_congr (a b : ItemAPI F) (item : PItem F) (prop : Str)
    (hp : a.c_propMap = b.c_propMap) (hs : a.m_section = b.m_section) :
    (parseProp a item prop).1 = (parseProp b item prop).1 ∧
      (parseProp a item prop).2.m_section = (parseProp b item prop).2.m_section := by
  unfold parseProp
  apply parsePropBody_congr _ _ a b item prop hp hs
  intro i s
  unfold parsePropInner
  apply parsePropBody_congr _ _ a b i s hp hs
  intro i1 _
  exact ⟨rfl, hs⟩

/-- A property line that is neither a "Requirements" nor a "Level" line of the special kind
is read without the held line. -/
theorem parsePropBody_no_read (recur recur1 : ItemAPI F → PItem F → Str → PItem F × ItemAPI F)
    (a b : ItemAPI F) (item : PItem F) (prop : Str)
    (hp : a.c_propMap = b.c_propMap)
    (hno : ¬ (lookupKey (sectionStr prop [':'] 0) a.c_propMap = some PropSel.special_filter ∧
      (sectionStr prop [':'] 0 = requirementsKey ∨ sectionStr prop [':'] 0 = "Level".toList))) :
    (parsePropBody recur a item prop).1 = (parsePropBody recur1 b item prop).1 ∧
      (parsePropBody recur a item prop).2 = a ∧ (parsePropBody recur1 b item prop).2 = b := by
  unfold parsePropBody
  simp only [← hp]
  cases hl : lookupKey (sectionStr prop [':'] 0) a.c_propMap with
  | none => exact ⟨rfl, rfl, rfl⟩
  | some pev =>
    cases pev with
    | special_filter =>
      rw [hl] at hno
      simp only [true_and, not_or] at hno
      simp only [if_neg hno.1, if_neg hno.2, and_self]
    | weapon_filter f => exact ⟨rfl, rfl, rfl⟩
    | armour_filter f => exact ⟨rfl, rfl, rfl⟩
    | socket_filter => exact ⟨rfl, rfl, rfl⟩
    | req_filter f => exact ⟨rfl, rfl, rfl⟩
    | misc_filter f => exact ⟨rfl, rfl, rfl⟩
    | other => exact ⟨rfl, rfl, rfl⟩

omit [DoubleOps F] in
theorem statOutcome_eq (r r1 : StatResult F) (h : statOutcome r = statOutcome r1) :
    (∃ x, r = .error x ∧ r1 = .error x) ∨
    (∃ c i x x1, r = .ok (c, i, x) ∧ r1 = .ok (c, i, x1) ∧ x.m_section = x1.m_section) := by
  cases r with
  | error e =>
    cases r1 with
    | error e1 =>
      cases e
      cases e1
      exact Or.inl ⟨_, rfl, rfl⟩
    | ok p1 =>
      obtain ⟨c1, i1, x1⟩ := p1
      simp [statOutcome] at h
  | ok p =>
    obtain ⟨c, i, x⟩ := p
    cases r1 with
    | error e1 => simp [statOutcome] at h
    | ok p1 =>
      obtain ⟨c1, i1, x1⟩ := p1
      simp only [statOutcome, Except.ok.injEq, Prod.mk.injEq] at h
      obtain ⟨h1, h2, h3⟩ := h
      subst h1
      subst h2
      exact Or.inr ⟨c, i, x, x1, rfl, rfl, h3⟩

theorem parseStatBody_congr (recur recur1 : ItemAPI F → PItem F → Str → StatResult F)
    (a b : ItemAPI F) (item : PItem F) (stat : Str) (multiline : Bool)
    (ht : a.m_stats_by_text = b.m_stats_by_text) (hs : a.m_section = b.m_section)
    (hrec : ∀ i s, statOutcome (recur a i s) = statOutcome (recur1 b i s)) :
    statOutcome (parseStatBody recur a item stat multiline) =
      statOutcome (parseStatBody recur1 b item stat multiline) := by
  by_cases hflag : stat ∈ flagStats
  · have hf := hflag
    simp only [flagStats, List.mem_cons, List.mem_singleton, List.not_mem_nil, or_false] at hf
    rcases hf with h | h | h | h <;> subst h <;>
      (show statOutcome (Except.ok _) = statOutcome (Except.ok _)) <;>
      simp only [statOutcome, hs]
  · cases hk : (findKey a.m_stats_by_text stat (stripCrafted stat) :
        Option (Str × List (NumVal F))) with
    | some p =>
      obtain ⟨stoken, val⟩ := p
      rw [parseStatBody_found recur a item stat multiline stoken val hflag hk,
        parseStatBody_found recur1 b item stat multiline stoken val hflag (ht ▸ hk), ← ht]
      cases selectEntry (endsWith stat craftedTag) val (equalRange a.m_stats_by_text stoken)
          none with
      | none => rfl
      | some filter =>
        simp only
        cases storeFilter item.filters filter <;> rfl
    | none =>
      have hk1 : (findKey b.m_stats_by_text stat (stripCrafted stat) :
          Option (Str × List (NumVal F))) = none := ht ▸ hk
      cases multiline with
      | true =>
        rw [parseStatBody_not_found_multiline recur a item stat hflag hk,
          parseStatBody_not_found_multiline recur1 b item stat hflag hk1]
        simp only [statOutcome, hs]
      | false =>
        rw [parseStatBody_not_found recur a item stat hflag hk,
          parseStatBody_not_found recur1 b item stat hflag hk1, ← hs]
        split_ifs
        · rfl
        · rcases statOutcome_eq _ _ (hrec item (a.m_section ++ '\n' :: stat)) with
            ⟨x, h1, h2⟩ | ⟨c, i, x, x1, h1, h2, _⟩
          · rw [h1, h2]
          · rw [h1, h2]
            cases c <;> rfl

theorem parseStat_congr (a b : ItemAPI F) (item : PItem F) (stat : Str) (multiline : Bool)
    (ht : a.m_stats_by_text = b.m_stats_by_text) (hs : a.m_section = b.m_section) :
    statOutcome (parseStat a item stat multiline) =
      statOutcome (parseStat b item stat multiline) := by
  unfold parseStat
  apply parseStatBody_congr _ _ a b item stat multiline ht hs
  intro i s
  unfold parseStatCombined
  apply parseStatBody_congr _ _ a b i s true ht hs
  intro i1 _
  simp only [statOutcome, hs]

end Independence

section IndependenceBody

variable {F : Type} [DoubleOps F]

omit [DoubleOps F] in
theorem bodyOutcome_eq (r r1 : Except Exn (PItem F × ItemAPI F))
    (h : bodyOutcome r = bodyOutcome r1) :
    (∃ x, r = .error x ∧ r1 = .error x) ∨
    (∃ i x x1, r = .ok (i, x) ∧ r1 = .ok (i, x1) ∧ x.m_section = x1.m_section) := by
  cases r with
  | error e =>
    cases r1 with
    | error e1 =>
      cases e
      cases e1
      exact Or.inl ⟨_, rfl, rfl⟩
    | ok p1 =>
      obtain ⟨i1, x1⟩ := p1
      simp [bodyOutcome] at h
  | ok p =>
    obtain ⟨i, x⟩ := p
    cases r1 with
    | error e1 => simp [bodyOutcome] at h
    | ok p1 =>
      obtain ⟨i1, x1⟩ := p1
      simp only [bodyOutcome, Except.ok.injEq, Prod.mk.injEq] at h
      obtain ⟨h1, h2⟩ := h
      subst h1
      exact Or.inr ⟨i, x, x1, rfl, rfl, h2⟩

theorem parseLine_congr (a b : ItemAPI F) (item : PItem F) (line : Str)
    (ht : a.m_stats_by_text = b.m_stats_by_text) (hp : a.c_propMap = b.c_propMap)
    (hs : a.m_section = b.m_section) :
    bodyOutcome (parseLine (item, a) line) = bodyOutcome (parseLine (item, b) line) := by
  unfold parseLine
  simp only
  split_ifs
  · rfl
  · obtain ⟨h1, h2⟩ := parseProp_congr a b item line hp hs
    show (Except.ok ((parseProp a item line).1, (parseProp a item line).2.m_section) :
        Except Exn (PItem F × Str)) =
      Except.ok ((parseProp b item line).1, (parseProp b item line).2.m_section)
    rw [h1, h2]
  · rcases statOutcome_eq _ _ (parseStat_congr a b item line false ht hs) with
      ⟨x, h1, h2⟩ | ⟨c, i, x, x1, h1, h2, h3⟩
    · rw [h1, h2]
    · rw [h1, h2]
      simp only [bodyOutcome, h3]
  · simp only [bodyOutcome, hs]

theorem parseBody_congr (lines : List Str) (a b : ItemAPI F) (item : PItem F)
    (ht : a.m_stats_by_text = b.m_stats_by_text) (hp : a.c_propMap = b.c_propMap)
    (hs : a.m_section = b.m_section) :
    bodyOutcome (parseBody lines (item, a)) = bodyOutcome (parseBody lines (item, b)) := by
  induction lines generalizing a b item with
  | nil => simp only [parseBody, bodyOutcome, hs]
  | cons line rest ih =>
    unfold parseBody
    rcases bodyOutcome_eq _ _ (parseLine_congr a b item line ht hp hs) with
      ⟨x, h1, h2⟩ | ⟨i, x, x1, h1, h2, h3⟩
    · rw [h1, h2]
    · have f1 := (parseLine_frame _ _ _ h1).2
      have f2 := (parseLine_frame _ _ _ h2).2
      rw [h1, h2]
      simp only
      apply ih x x1 i
      · exact f1.1.symm.trans (ht.trans f2.1)
      · exact f1.2.2.2.2.2.symm.trans (hp.trans f2.2.2.2.2.2)
      · exact h3

/-- The loop over the body lines does not read the held line of the start when no "Level"
line comes before the first separator line and the first "Requirements" line: from the same
record and the same dictionaries, two held lines give the same exception or the same
record. -/
theorem parseBody_sync (lines : List Str) (a b : ItemAPI F) (item : PItem F)
    (ht : a.m_stats_by_text = b.m_stats_by_text) (hp : a.c_propMap = b.c_propMap)
    (h0 : item.m_sections = 0) (hc : carriesOver a.c_propMap lines = false) :
    (∃ x, parseBody lines (item, a) = .error x ∧ parseBody lines (item, b) = .error x) ∨
    (∃ i x x1, parseBody lines (item, a) = .ok (i, x) ∧ parseBody lines (item, b) = .ok (i, x1)) := by
  induction lines generalizing a b item with
  | nil => exact Or.inr ⟨item, a, b, rfl, rfl⟩
  | cons line rest ih =>
    have fin : ∀ (a1 b1 : ItemAPI F) (i1 : PItem F),
        a1.m_stats_by_text = b1.m_stats_by_text → a1.c_propMap = b1.c_propMap →
        a1.m_section = b1.m_section →
        (∃ x, parseBody rest (i1, a1) = .error x ∧ parseBody rest (i1, b1) = .error x) ∨
        (∃ i x x1, parseBody rest (i1, a1) = .ok (i, x) ∧ parseBody rest (i1, b1) = .ok (i, x1)) := by
      intro a1 b1 i1 ht1 hp1 hs1
      rcases bodyOutcome_eq _ _ (parseBody_congr rest a1 b1 i1 ht1 hp1 hs1) with
        ⟨x, h1, h2⟩ | ⟨i, x, x1, h1, h2, _⟩
      · exact Or.inl ⟨x, h1, h2⟩
      · exact Or.inr ⟨i, x, x1, h1, h2⟩
    unfold carriesOver at hc
    obtain ⟨r1, r2, r3, r4, _⟩ := parseLine_cases item a line
    obtain ⟨q1, q2, q3, q4, _⟩ := parseLine_cases item b line
    unfold parseBody
    by_cases hsep : startsWith line separator = true
    · rw [r1 hsep, q1 hsep]
      exact fin _ _ _ ht hp rfl
    · have hsep1 : startsWith line separator = false := by simpa using hsep
      rw [if_neg hsep] at hc
      by_cases hcol : containsStr line [':'] = true
      · rw [r2 hsep1 hcol, q2 hsep1 hcol]
        simp only
        by_cases hsp : lookupKey (sectionStr line [':'] 0) a.c_propMap =
            some PropSel.special_filter
        · have hb : (containsStr line [':'] &&
              lookupKey (sectionStr line [':'] 0) a.c_propMap == some PropSel.special_filter)
              = true := by
            rw [hcol, hsp]
            rfl
          rw [if_pos hb] at hc
          by_cases hreq : sectionStr line [':'] 0 = requirementsKey
          · have e1 : parseProp a item line = (item, { a with m_section := requirementsKey }) :=
              parsePropBody_requirements parsePropInner a item line hreq (hreq ▸ hsp)
            have e2 : parseProp b item line = (item, { b with m_section := requirementsKey }) :=
              parsePropBody_requirements parsePropInner b item line hreq (hp ▸ hreq ▸ hsp)
            rw [e1, e2]
            exact fin _ _ _ ht hp rfl
          · rw [if_neg hreq] at hc
            by_cases hlev : sectionStr line [':'] 0 = "Level".toList
            · rw [if_pos hlev] at hc
              cases hc
            · rw [if_neg hlev] at hc
              obtain ⟨n1, n2, n3⟩ := parsePropBody_no_read parsePropInner parsePropInner a b item
                line hp (fun hh => hh.2.elim hreq hlev)
              have e1 : parseProp a item line = ((parseProp a item line).1, a) :=
                Prod.ext rfl n2
              have e2 : parseProp b item line = ((parseProp a item line).1, b) :=
                Prod.ext n1.symm n3
              rw [e1, e2]
              exact ih a b _ ht hp ((parseProp_sections a item line).trans h0) hc
        · have hb : (containsStr line [':'] &&
              lookupKey (sectionStr line [':'] 0) a.c_propMap == some PropSel.special_filter)
              = false := by
            rw [hcol, Bool.true_and]
            simpa using hsp
          rw [if_neg (by rw [hb]; decide)] at hc
          obtain ⟨n1, n2, n3⟩ := parsePropBody_no_read parsePropInner parsePropInner a b item
            line hp (fun hh => hsp hh.1)
          have e1 : parseProp a item line = ((parseProp a item line).1, a) :=
            Prod.ext rfl n2
          have e2 : parseProp b item line = ((parseProp a item line).1, b) :=
            Prod.ext n1.symm n3
          rw [e1, e2]
          exact ih a b _ ht hp ((parseProp_sections a item line).trans h0) hc
      · have hcol1 : containsStr line [':'] = false := by simpa using hcol
        rw [hcol1, Bool.false_and, if_neg (by decide)] at hc
        rw [r4 hsep1 hcol1 (by omega), q4 hsep1 hcol1 (by omega)]
        exact ih a b item ht hp h0 hc

end IndependenceBody

section IndependenceRules

variable {F : Type} [DoubleOps F]

theorem statsByIdAt_join (pid : Str) (m : List (Str × Option StatEntry)) :
    (statsByIdAt pid m).1 = (lookupKey pid m).join ∧
    ∀ k, (lookupKey k (statsByIdAt pid m).2).join = (lookupKey k m).join := by
  obtain ⟨_, h2, h3⟩ := statsByIdAt_spec pid m
  refine ⟨?_, ?_⟩
  · unfold statsByIdAt
    cases lookupKey pid m <;> rfl
  · intro k
    cases hk : lookupKey k m with
    | some x => rw [h2 k x hk]
    | none =>
      rcases h3 k hk with h | h
      · rw [h]
      · rw [h]
        rfl

theorem applyRule_eq (fil : Filter F)
    (st : List (Str × Option StatEntry) × List (Str × Pseudo F)) (r : PseudoRule F) :
    applyRule fil st r =
      match lookupKey r.id st.2 with
      | none => .ok ((statsByIdAt r.id st.1).2,
          emplaceKey r.id ⟨(statsByIdAt r.id st.1).1, fil.value.map (scaleVal r.factor)⟩ st.2)
      | some ps_entry =>
        if r.op = addOp then
          match accumulateVals r.factor ps_entry.value fil.value with
          | .error x => .error x
          | .ok vals =>
            .ok ((statsByIdAt r.id st.1).2, assignKey r.id { ps_entry with value := vals } st.2)
        else .ok ((statsByIdAt r.id st.1).2, st.2) := rfl

/-- The pseudo entries that a rule leaves depend on the id dictionary through its entries
only, an id that holds a `null` counting as absent. -/
theorem applyRule_congr (fil : Filter F) (m m1 : List (Str × Option StatEntry))
    (ps : List (Str × Pseudo F)) (r : PseudoRule F)
    (hm : ∀ k, (lookupKey k m).join = (lookupKey k m1).join) :
    (∃ x, applyRule fil (m, ps) r = .error x ∧ applyRule fil (m1, ps) r = .error x) ∨
    (∃ n n1 qs, applyRule fil (m, ps) r = .ok (n, qs) ∧ applyRule fil (m1, ps) r = .ok (n1, qs) ∧
      ∀ k, (lookupKey k n).join = (lookupKey k n1).join) := by
  obtain ⟨e1, j1⟩ := statsByIdAt_join r.id m
  obtain ⟨e2, j2⟩ := statsByIdAt_join r.id m1
  have hj : ∀ k, (lookupKey k (statsByIdAt r.id m).2).join =
      (lookupKey k (statsByIdAt r.id m1).2).join := fun k => by rw [j1, j2, hm]
  have he : (statsByIdAt r.id m).1 = (statsByIdAt r.id m1).1 := by rw [e1, e2, hm]
  rw [applyRule_eq, applyRule_eq]
  simp only
  cases lookupKey r.id ps with
  | none =>
    simp only
    rw [he]
    exact Or.inr ⟨_, _, _, rfl, rfl, hj⟩
  | some ps_entry =>
    simp only
    split_ifs
    · cases accumulateVals r.factor ps_entry.value fil.value with
      | error x => exact Or.inl ⟨x, rfl, rfl⟩
      | ok vals => exact Or.inr ⟨_, _, _, rfl, rfl, hj⟩
    · exact Or.inr ⟨_, _, _, rfl, rfl, hj⟩

theorem applyRules_congr (fil : Filter F) (rs : List (PseudoRule F))
    (m m1 : List (Str × Option StatEntry)) (ps : List (Str × Pseudo F))
    (hm : ∀ k, (lookupKey k m).join = (lookupKey k m1).join) :
    (∃ x, applyRules fil rs (m, ps) = .error x ∧ applyRules fil rs (m1, ps) = .error x) ∨
    (∃ n n1 qs, applyRules fil rs (m, ps) = .ok (n, qs) ∧
      applyRules fil rs (m1, ps) = .ok (n1, qs) ∧
      ∀ k, (lookupKey k n).join = (lookupKey k n1).join) := by
  induction rs generalizing m m1 ps with
  | nil => exact Or.inr ⟨m, m1, ps, rfl, rfl, hm⟩
  | cons r rest ih =>
    unfold applyRules
    rcases applyRule_congr fil m m1 ps r hm with ⟨x, h1, h2⟩ | ⟨n, n1, qs, h1, h2, h3⟩
    · rw [h1, h2]
      exact Or.inl ⟨x, rfl, rfl⟩
    · rw [h1, h2]
      exact ih n n1 qs h3

theorem applyPseudoRules_congr (rules : List (Str × List (PseudoRule F)))
    (fs : List (Str × Filter F)) (m m1 : List (Str × Option StatEntry))
    (ps : List (Str × Pseudo F))
    (hm : ∀ k, (lookupKey k m).join = (lookupKey k m1).join) :
    (∃ x, applyPseudoRules rules fs (m, ps) = .error x ∧
      applyPseudoRules rules fs (m1, ps) = .error x) ∨
    (∃ n n1 qs, applyPseudoRules rules fs (m, ps) = .ok (n, qs) ∧
      applyPseudoRules rules fs (m1, ps) = .ok (n1, qs) ∧
      ∀ k, (lookupKey k n).join = (lookupKey k n1).join) := by
  induction fs generalizing m m1 ps with
  | nil => exact Or.inr ⟨m, m1, ps, rfl, rfl, hm⟩
  | cons p rest ih =>
    obtain ⟨key, fil⟩ := p
    unfold applyPseudoRules
    cases lookupKey key rules with
    | none => exact ih m m1 ps hm
    | some rs =>
      simp only
      rcases applyRules_congr fil rs m m1 ps hm with ⟨x, h1, h2⟩ | ⟨n, n1, qs, h1, h2, h3⟩
      · rw [h1, h2]
        exact Or.inl ⟨x, rfl, rfl⟩
      · rw [h1, h2]
        exact ih n n1 qs h3

theorem headerRecord_uniques (a b : ItemAPI F) (itemText : Str)
    (h : a.m_uniques = b.m_uniques) : headerRecord a itemText = headerRecord b itemText := by
  unfold headerRecord processCategory
  simp only [h]

omit [DoubleOps F] in
theorem baseCategory_congr (a b : ItemAPI F) (item : PItem F) (h : a.c_baseMap = b.c_baseMap) :
    baseCategory a item = baseCategory b item := by
  unfold baseCategory
  rw [h]

/-- A call of `parse` leaves the reference dictionaries as they are, an id of the id
dictionary that holds a `null` counting as absent. -/
theorem parse_sameDictionaries (a a1 : ItemAPI F) (itemText : Str) (r : Option (PItem F))
    (h : parse a itemText = .ok (r, a1)) : sameDictionaries a a1 := by
  cases r with
  | none =>
    rw [parse_eq] at h
    split_ifs at h
    · cases h
      exact ⟨rfl, rfl, rfl, rfl, rfl, fun _ => rfl⟩
    · split at h
      · cases h
      · split at h
        · cases h
        · cases h
  | some item =>
    obtain ⟨_, item2, api2, byId, pseudos, hbody, hrules, _, hapi⟩ := parse_ok a a1 itemText item h
    obtain ⟨_, ht⟩ := parseBody_frame _ _ _ hbody
    obtain ⟨t1, t2, t3, t4, t5, t6⟩ := ht
    simp only at t1 t2 t3 t4 t5 t6
    have hinv := applyPseudoRules_inv api2.m_stats_by_id _ _ _ _
      (⟨fun _ _ hk => hk, fun _ hk => Or.inl hk, fun Y ps hk => by
        rw [baseCategory_pseudos] at hk
        have hp2 : item2.pseudos = [] := by
          rw [← (parseBody_frame _ _ _ hbody).1.2.2.2.1]
          exact headerRecord_pseudos a itemText
        rw [hp2] at hk
        cases hk⟩ :
        pseudoInv api2.m_stats_by_id
          (api2.m_stats_by_id, (baseCategory api2 item2).pseudos)) hrules
    obtain ⟨ha, hb, _⟩ := hinv
    subst hapi
    refine ⟨t1, t3, t4, t5, t6, ?_⟩
    intro k
    show (lookupKey k a.m_stats_by_id).join = (lookupKey k byId).join
    rw [t2]
    cases hk : lookupKey k api2.m_stats_by_id with
    | some e => rw [ha k e hk]
    | none =>
      rcases hb k hk with h1 | h1
      · rw [h1]
      · rw [h1]
        rfl

/-- C30, amended. Let two states of `ItemAPI` have the same reference dictionaries, an id
of the id dictionary that holds a `null` counting as absent. If their held lines are equal,
or if no "Level" line of the body of the text comes before the first separator line and the
first "Requirements" line of the body, `parse` returns the same record, or raises the same
exception, on the text in both states: the record is then determined by the text and the
dictionaries. A call of `parse` leaves a state with the same reference dictionaries, so that
this holds whatever calls were made before. The held line itself is not reset at the start
of a call. -/
theorem parse_independent (a b : ItemAPI F) (itemText : Str) (hd : sameDictionaries a b)
    (hc : a.m_section = b.m_section ∨
      carriesOver a.c_propMap ((readLines itemText).drop 3) = false) :
    recordOf (parse a itemText) = recordOf (parse b itemText) ∧
    (∀ r a1, parse a itemText = .ok (r, a1) → sameDictionaries a a1 ∧ sameDictionaries b a1) := by
  obtain ⟨d1, d2, d3, d4, d5, d6⟩ := hd
  refine ⟨?_, ?_⟩
  · rw [parse_eq, parse_eq, headerRecord_uniques a b itemText d2]
    split_ifs
    · rfl
    · have hbody : (∃ x, parseBody ((readLines itemText).drop 3) (headerRecord b itemText, a) =
            .error x ∧
          parseBody ((readLines itemText).drop 3) (headerRecord b itemText, b) = .error x) ∨
          (∃ i x x1, parseBody ((readLines itemText).drop 3) (headerRecord b itemText, a) =
            .ok (i, x) ∧
          parseBody ((readLines itemText).drop 3) (headerRecord b itemText, b) = .ok (i, x1)) := by
        rcases hc with hs | hno
        · rcases bodyOutcome_eq _ _ (parseBody_congr ((readLines itemText).drop 3) a b
            (headerRecord b itemText) d1 d5 hs) with ⟨x, h1, h2⟩ | ⟨i, x, x1, h1, h2, _⟩
          · exact Or.inl ⟨x, h1, h2⟩
          · exact Or.inr ⟨i, x, x1, h1, h2⟩
        · exact parseBody_sync _ a b _ d1 d5 (headerRecord_sections b itemText) hno
      rcases hbody with ⟨x, h1, h2⟩ | ⟨i, x, x1, h1, h2⟩
      · rw [h1, h2]
      · obtain ⟨_, f1⟩ := parseBody_frame _ _ _ h1
        obtain ⟨_, f2⟩ := parseBody_frame _ _ _ h2
        obtain ⟨_, u2, _, u4, u5, _⟩ := f1
        obtain ⟨_, v2, _, v4, v5, _⟩ := f2
        simp only at u2 u4 u5 v2 v4 v5
        rw [h1, h2]
        simp only
        rw [baseCategory_congr x x1 i (u4.symm.trans (d3.trans v4)),
          ← u5, ← v5, ← d4, ← u2, ← v2]
        rcases applyPseudoRules_congr a.c_pseudoRules (baseCategory x1 i).filters
          a.m_stats_by_id b.m_stats_by_id (baseCategory x1 i).pseudos d6 with
          ⟨e, g1, g2⟩ | ⟨n, n1, qs, g1, g2, _⟩
        · rw [g1, g2]
        · rw [g1, g2]
          rfl
  · intro r a1 h
    have s1 := parse_sameDictionaries a a1 itemText r h
    obtain ⟨e1, e2, e3, e4, e5, e6⟩ := s1
    exact ⟨⟨e1, e2, e3, e4, e5, e6⟩,
      ⟨d1.symm.trans e1, d2.symm.trans e2, d3.symm.trans e3, d4.symm.trans e4,
        d5.symm.trans e5, fun k => (d6 k).symm.trans (e6 k)⟩⟩

end IndependenceRules

/-- C30, counterexample. A first call of `parse`, on a text that ends in a "Requirements"
line and a "Level" line, leaves the held line "Requirements" and the dictionaries as they
were. On the text of a gem whose "Level" line comes before any separator of the body, a call
in the state of the start writes the level 5 to the gem level, and a call after the first
call writes it to the required level: the two records differ. -/
theorem parse_held_line_carries_over :
    stateOf (parse (apiLevel []) "Rarity: Rare\nN\nT\n---\nRequirements:\nLevel: 3".toList) =
      some (apiLevel "Requirements".toList) ∧
    levelsOf (parse (apiLevel []) "Rarity: Gem\nFireball\n--------\nLevel: 5".toList) =
      some (0, 5) ∧
    levelsOf (parse (apiLevel "Requirements".toList)
      "Rarity: Gem\nFireball\n--------\nLevel: 5".toList) = some (5, 0) := by
  decide

/-- Witness of `parse_independent`: on a text whose body starts with a separator line, the
record does not depend on the held line that an earlier call has left. -/
theorem parse_independent_witness :
    recordOf (parse (apiLevel [])
      "Rarity: Rare\nN\nT\n--------\nRequirements:\nLevel: 5".toList) =
    recordOf (parse (apiLevel "Requirements".toList)
      "Rarity: Rare\nN\nT\n--------\nRequirements:\nLevel: 5".toList) :=
  (parse_independent (apiLevel []) (apiLevel "Requirements".toList)
    "Rarity: Rare\nN\nT\n--------\nRequirements:\nLevel: 5".toList
    ⟨rfl, rfl, rfl, rfl, rfl, fun _ => rfl⟩ (Or.inr (by decide))).1

/-! ## Values and placeholders -/

section LineUp

variable {F : Type} [DoubleOps F]

theorem mem_replaceAux_nil (before s : Str) (k : Nat) (x : Char)
    (h : x ∈ replaceAux before [] s k) : x ∈ s := by
  induction s generalizing k with
  | nil => simp [replaceAux] at h
  | cons c cs ih =>
    cases k with
    | succ n =>
      rw [replaceAux] at h
      exact List.mem_cons_of_mem _ (ih n h)
    | zero =>
      rw [replaceAux] at h
      split_ifs at h
      · rw [List.nil_append] at h
        exact List.mem_cons_of_mem _ (ih _ h)
      · rcases List.mem_cons.mp h with h1 | h1
        · rw [h1]
          exact List.mem_cons_self _ _
        · exact List.mem_cons_of_mem _ (ih 0 h1)

/-- A line without the placeholder character has none after the removal of its crafted
tags. -/
theorem hash_not_mem_stripCrafted (stat : Str) (h : '#' ∉ stat) : '#' ∉ stripCrafted stat :=
  fun hm => h (mem_replaceAux_nil _ _ _ _ hm)

theorem fillPlaceholders_lit (c : Char) (cs : Str) (ws : List Str) (hc : c ≠ '#') :
    fillPlaceholders (c :: cs) ws = c :: fillPlaceholders cs ws := by
  cases ws with
  | nil => rfl
  | cons w ws1 => rw [fillPlaceholders, if_neg hc]

/-- The pieces of a line none of which is the placeholder character: one placeholder per
numeric piece, and the texts of the numeric pieces put back give the pieces end to end. -/
theorem pieces_line_up (ts : List Tok) (h : Tok.lit '#' ∉ ts) :
    countHash (ts.flatMap (fun t => match t with
      | .num _ => ['#']
      | .lit c => [c])) =
      (ts.filterMap (fun t => match t with
        | .num w => some w
        | .lit _ => none)).length ∧
    fillPlaceholders
        (ts.flatMap (fun t => match t with
          | .num _ => ['#']
          | .lit c => [c]))
        (ts.filterMap (fun t => match t with
          | .num w => some w
          | .lit _ => none)) =
      ts.flatMap Tok.text := by
  induction ts with
  | nil => exact ⟨rfl, rfl⟩
  | cons t rest ih =>
    have hrest : Tok.lit '#' ∉ rest := fun hm => h (List.mem_cons_of_mem _ hm)
    obtain ⟨ih1, ih2⟩ := ih hrest
    unfold countHash at ih1 ⊢
    cases t with
    | lit c =>
      have hc : c ≠ '#' := fun e => h (e ▸ List.mem_cons_self _ _)
      simp only [List.flatMap_cons, List.filterMap_cons, List.singleton_append, Tok.text]
      refine ⟨?_, ?_⟩
      · rw [List.count_cons_of_ne (Ne.symm hc), ih1]
      · rw [fillPlaceholders_lit c _ _ hc, ih2]
    | num w =>
      simp only [List.flatMap_cons, List.filterMap_cons, List.singleton_append, Tok.text,
        List.length_cons]
      refine ⟨?_, ?_⟩
      · rw [List.count_cons_self, ih1]
      · rw [fillPlaceholders, if_pos rfl, ih2]

/-- C32, amended. For every stat line that contains no placeholder character, the number of
values that `parseStat` extracts is the number of placeholders of the templated line that it
builds, the placeholders stand, from left to right, for the numeric literals of the line (the
literals put back into the placeholders give the line without its crafted tags), and the
i-th value is the value read from the i-th literal: a `double` for a literal with a dot,
and for a literal without a dot the number that the literal writes when that number is an
`int`, and 0 when it is not. -/
theorem extraction_lines_up (stat : Str) (h : '#' ∉ stat) :
    countHash (templated (stripCrafted stat)) =
      (extractVals (stripCrafted stat) : List (NumVal F)).length ∧
    countHash (templated (stripCrafted stat)) = (literals (stripCrafted stat)).length ∧
    fillPlaceholders (templated (stripCrafted stat)) (literals (stripCrafted stat)) =
      stripCrafted stat ∧
    (extractVals (stripCrafted stat) : List (NumVal F)) =
      (literals (stripCrafted stat)).map wordVal ∧
    (∀ w ∈ literals (stripCrafted stat),
      ('.' ∈ w → (wordVal w : NumVal F) = .flt (DoubleOps.toDouble w)) ∧
      ('.' ∉ w → (wordVal w : NumVal F) = .int (clipInt (literalVal w)))) := by
  have hs := hash_not_mem_stripCrafted stat h
  have hlit : Tok.lit '#' ∉ scanNums (stripCrafted stat) :=
    fun hm => hs (lit_mem_scanNums _ '#' hm)
  obtain ⟨p1, p2⟩ := pieces_line_up (scanNums (stripCrafted stat)) hlit
  have hv := @extractVals_eq_literals F _ (stripCrafted stat)
  refine ⟨?_, p1, ?_, hv, ?_⟩
  · rw [hv, List.length_map]
    exact p1
  · exact p2.trans (scanNums_text _)
  · intro w hw
    refine ⟨?_, ?_⟩
    · intro hdot
      simp [wordVal, hdot]
    · intro hdot
      have := toInt_literal _ w hw hdot
      simp [wordVal, hdot, this]

end LineUp

/-- C32, counterexample. The line "x 99999999999 y" has no placeholder character and one
numeric literal, which writes the number 99999999999; the one value extracted is 0. -/
theorem extraction_value_out_of_range :
    '#' ∉ "x 99999999999 y".toList ∧
    templated (stripCrafted "x 99999999999 y".toList) = "x # y".toList ∧
    literals (stripCrafted "x 99999999999 y".toList) = ["99999999999".toList] ∧
    literalVal "99999999999".toList = 99999999999 ∧
    (extractVals (stripCrafted "x 99999999999 y".toList) : List (NumVal Dbl)) = [.int 0] := by
  decide

/-- Witness of `extraction_lines_up`: the line "a -1 b 2.5 (crafted)" has two placeholders,
two literals and two values. -/
theorem extraction_lines_up_witness :
    countHash (templated (stripCrafted "a -1 b 2.5 (crafted)".toList)) = 2 ∧
    fillPlaceholders (templated (stripCrafted "a -1 b 2.5 (crafted)".toList))
      (literals (stripCrafted "a -1 b 2.5 (crafted)".toList)) = "a -1 b 2.5".toList ∧
    (extractVals (stripCrafted "a -1 b 2.5 (crafted)".toList) : List (NumVal Dbl)) =
      [.int (-1), .flt (Dbl.fin false 5629499534213120 (-51))] := by
  obtain ⟨h1, _, h3, _, _⟩ :=
    @extraction_lines_up Dbl _ "a -1 b 2.5 (crafted)".toList (by decide)
  exact ⟨h1.trans (by decide), h3.trans (by decide), by decide⟩

/-! ## The repairs after a failed flip -/

section FlipRepair

variable {F : Type} [DoubleOps F]

theorem replaceStr_contains_after (s before after : Str) (hb : before ≠ [])
    (h : containsStr s before = true) : containsStr (replaceStr s before after) after = true := by
  unfold replaceStr
  induction s with
  | nil =>
    cases before with
    | nil => exact absurd rfl hb
    | cons a as => simp [containsStr] at h
  | cons c cs ih =>
    rw [replaceAux]
    by_cases hst : startsWith (c :: cs) before = true
    · rw [if_pos hst]
      exact containsStr_of_append [] after _
    · rw [if_neg hst]
      simp only [containsStr, Bool.or_eq_true] at h
      rcases h with h | h
      · exact absurd h hst
      · exact containsStr_cons c _ _ (ih h)

theorem replaceFirst_append (c : Char) (r x y : Str) :
    replaceFirst c r (x ++ y) =
      if c ∈ x then replaceFirst c r x ++ y else x ++ replaceFirst c r y := by
  induction x with
  | nil => simp
  | cons a as ih =>
    rw [List.cons_append, replaceFirst]
    by_cases ha : a = c
    · subst ha
      simp [replaceFirst]
    · have hb : (a == c) = false := by simpa using ha
      rw [hb]
      simp only [Bool.false_eq_true, if_false, ih]
      have hm : (c ∈ a :: as) ↔ c ∈ as := by
        simp [List.mem_cons, Ne.symm ha]
      by_cases hc : c ∈ as
      · rw [if_pos hc, if_pos (hm.2 hc), replaceFirst, hb]
        rfl
      · rw [if_neg hc, if_neg (fun h => hc (hm.1 h))]
        rfl

theorem replaceFirst_of_not_mem (c : Char) (r s : Str) (h : c ∉ s) : replaceFirst c r s = s := by
  induction s with
  | nil => rfl
  | cons a as ih =>
    have ha : (a == c) = false := by
      simp only [beq_eq_false_iff_ne, ne_eq]
      intro e
      exact h (e ▸ List.mem_cons_self _ _)
    rw [replaceFirst, ha]
    simp only [Bool.false_eq_true, if_false]
    rw [ih (fun hm => h (List.mem_cons_of_mem _ hm))]

/-- A word without the replaced character stays in the line when the first occurrence of
the character is replaced. -/
theorem containsStr_replaceFirst (c : Char) (r s w : Str) (hw : c ∉ w)
    (h : containsStr s w = true) : containsStr (replaceFirst c r s) w = true := by
  obtain ⟨u, v, huv⟩ := containsStr_split s w h
  rw [huv, replaceFirst_append]
  split_ifs
  · exact containsStr_of_append _ w v
  · rw [replaceFirst_append, if_neg hw]
    exact containsStr_of_append u w _

/-- A word without the replaced character stays in the line when the last occurrence of the
character is replaced. -/
theorem containsStr_replaceLast (c : Char) (r s w : Str) (hw : c ∉ w)
    (h : containsStr s w = true) : containsStr (replaceLast c r s) w = true := by
  obtain ⟨u, v, huv⟩ := containsStr_split s w h
  have hwr : c ∉ w.reverse := fun hm => hw (List.mem_reverse.mp hm)
  unfold replaceLast
  rw [huv, List.reverse_append, List.reverse_append, List.append_assoc, replaceFirst_append]
  split_ifs
  · rw [List.reverse_append, List.reverse_append, List.reverse_reverse, List.reverse_reverse,
      List.append_assoc]
    exact containsStr_of_append u w _
  · rw [replaceFirst_append, if_neg hwr,
      List.reverse_append, List.reverse_append, List.reverse_reverse, List.reverse_reverse,
      List.append_assoc]
    exact containsStr_of_append _ w v

theorem containsStr_iterate (f : Str → Str) (w : Str)
    (hf : ∀ s, containsStr s w = true → containsStr (f s) w = true) (k : Nat) (s : Str)
    (h : containsStr s w = true) : containsStr (Nat.iterate f k s) w = true := by
  induction k generalizing s with
  | zero => exact h
  | succ n ih => exact ih (f s) (hf s h)

/-- What the reverse repair returns: the key is the line after one or more replacements of
its last placeholder by the text of the last value, it is a key of the dictionary, and the
values are the values without the last one. -/
theorem reverseSearch_spec (stats : List (Str × StatEntry)) (val : List (NumVal F)) (n : Nat)
    (s key : Str) (v : List (NumVal F)) (h : reverseSearch stats val n s = some (key, v)) :
    v = val.dropLast ∧ hasKey stats key = true ∧
    ∃ last, val.getLast? = some last ∧
      ∃ k, 1 ≤ k ∧ k ≤ n ∧ key = Nat.iterate (replaceLast '#' (numberStr last.getInt)) k s := by
  induction n generalizing s with
  | zero => simp [reverseSearch] at h
  | succ m ih =>
    rw [reverseSearch] at h
    split_ifs at h with hc
    cases hl : val.getLast? with
    | none =>
      rw [hl] at h
      cases h
    | some last =>
      rw [hl] at h
      simp only at h
      split_ifs at h with hk
      · simp only [Option.some.injEq, Prod.mk.injEq] at h
        obtain ⟨h1, h2⟩ := h
        subst h1
        exact ⟨h2.symm, hk, last, rfl, 1, le_refl 1, by omega, rfl⟩
      · obtain ⟨e1, e2, last1, e3, k, e4, e5, e6⟩ := ih _ h
        rw [hl] at e3
        cases e3
        exact ⟨e1, e2, last, rfl, k + 1, by omega, by omega, e6⟩

/-- What the forward repair returns: the key is the line after one or more replacements of
its first placeholder by the text of the first value, it is a key of the dictionary, and the
values are the values without the first one. -/
theorem forwardSearch_spec (stats : List (Str × StatEntry)) (val : List (NumVal F)) (n : Nat)
    (s key : Str) (v : List (NumVal F)) (h : forwardSearch stats val n s = some (key, v)) :
    v = val.tail ∧ hasKey stats key = true ∧
    ∃ first, val.head? = some first ∧
      ∃ k, 1 ≤ k ∧ k ≤ n ∧ key = Nat.iterate (replaceFirst '#' (numberStr first.getInt)) k s := by
  induction n generalizing s with
  | zero => simp [forwardSearch] at h
  | succ m ih =>
    cases val with
    | nil => simp [forwardSearch] at h
    | cons first others =>
      unfold forwardSearch at h
      split_ifs at h with hc
      simp only at h
      split_ifs at h with hk
      · simp only [Option.some.injEq, Prod.mk.injEq] at h
        obtain ⟨h1, h2⟩ := h
        subst h1
        exact ⟨h2.symm, hk, first, rfl, 1, le_refl 1, by omega, rfl⟩
      · obtain ⟨e1, e2, first1, e3, k, e4, e5, e6⟩ := ih _ h
        simp only [List.head?_cons, Option.some.injEq] at e3
        rw [← e3] at e6
        exact ⟨e1, e2, first, rfl, k + 1, by omega, by omega, e6⟩

/-- The lookups of `parseStat` on a line whose templated form is no key, which has a value
and contains "reduced", and whose flipped form is no key either: the repairs run on the
flipped line with the flipped values. -/
theorem findKey_flip_failed (stats : List (Str × StatEntry)) (orig stat : Str)
    (hnum : (extractVals stat : List (NumVal F)) ≠ [])
    (hred : containsStr (templated stat) reducedWord = true)
    (hno : hasKey stats (templated stat) = false)
    (hflip : hasKey stats (replaceStr (templated stat) reducedWord increasedWord) = false) :
    findKey stats orig stat =
      match reverseSearch stats ((extractVals stat : List (NumVal F)).map negVal)
          (countHash (replaceStr (templated stat) reducedWord increasedWord))
          (replaceStr (templated stat) reducedWord increasedWord) with
      | some r => some r
      | none =>
        match forwardSearch stats ((extractVals stat : List (NumVal F)).map negVal)
            (countHash (replaceStr (templated stat) reducedWord increasedWord))
            (replaceStr (templated stat) reducedWord increasedWord) with
        | some r => some r
        | none => if hasKey stats orig then some (orig, []) else none := by
  have hne : (extractVals stat : List (NumVal F)).isEmpty = false := by
    cases h : (extractVals stat : List (NumVal F)) with
    | nil => exact absurd h hnum
    | cons a as => rfl
  unfold findKey flipReduced
  simp only [hno, hne, hred, hflip, Bool.not_false, Bool.and_self, if_true]

end FlipRepair

section FlipRepairClaim

variable {F : Type} [DoubleOps F]

/-- C33. Let a text be looked up by `parseStat` (the line, or the held line joined to it)
that has at least one numeric value and contains "reduced", whose templated form is no
dictionary key and whose flipped form, with "reduced" rewritten to "increased", is no key
either. The reverse and the forward repair then run on the flipped line `flipped` with the
flipped values `neg`. If one of them finds a key, this key is the result of the lookups; it
is the flipped line after one or more placeholders were replaced by a number, and it
contains "increased"; the values that go with it are `neg` without its last or its first
value, each the flip of an extracted value (the opposite, for an integer other than the
smallest `int`); and every filter that the call selects under this key carries these values
and is handed to the store. -/
theorem parseStat_flip_persists (api : ItemAPI F) (item : PItem F) (stat T : Str)
    (multiline : Bool) (flipped key : Str) (neg val : List (NumVal F))
    (hT : (T = stat ∧ stat ∉ flagStats) ∨
      (multiline = false ∧ api.m_section ≠ [] ∧ stat ∉ flagStats ∧
        (findKey api.m_stats_by_text stat (stripCrafted stat) :
          Option (Str × List (NumVal F))) = none ∧
        T = api.m_section ++ '\n' :: stat))
    (hnum : (extractVals (stripCrafted T) : List (NumVal F)) ≠ [])
    (hred : containsStr T reducedWord = true)
    (hno : hasKey api.m_stats_by_text (templated (stripCrafted T)) = false)
    (hf : flipped = replaceStr (templated (stripCrafted T)) reducedWord increasedWord)
    (hn : neg = (extractVals (stripCrafted T) : List (NumVal F)).map negVal)
    (hflip : hasKey api.m_stats_by_text flipped = false)
    (hrep : reverseSearch api.m_stats_by_text neg (countHash flipped) flipped = some (key, val) ∨
      (reverseSearch api.m_stats_by_text neg (countHash flipped) flipped = none ∧
        forwardSearch api.m_stats_by_text neg (countHash flipped) flipped = some (key, val))) :
    findKey api.m_stats_by_text T (stripCrafted T) = some (key, val) ∧
    hasKey api.m_stats_by_text key = true ∧
    (val = neg.dropLast ∨ val = neg.tail) ∧
    (∀ v ∈ val, ∃ x ∈ (extractVals (stripCrafted T) : List (NumVal F)), v = negVal x) ∧
    (∀ n : Int, NumVal.int n ∈ (extractVals (stripCrafted T) : List (NumVal F)) →
      n ≠ INT_MIN → negVal (NumVal.int n : NumVal F) = .int (-n)) ∧
    containsStr key increasedWord = true ∧
    (∃ (k : Nat) (n : Int), 1 ≤ k ∧
      (key = Nat.iterate (replaceLast '#' (numberStr n)) k flipped ∨
        key = Nat.iterate (replaceFirst '#' (numberStr n)) k flipped)) ∧
    (∀ filter : Filter F,
      selectEntry (endsWith T craftedTag) val (equalRange api.m_stats_by_text key) none =
        some filter →
      filter.value = val ∧
      parseStat api item stat multiline =
        match storeFilter item.filters filter with
        | .error x => .error x
        | .ok filters =>
          .ok (true, { item with filters := filters }, { api with m_section := [] })) := by
  have hredT : containsStr (templated (stripCrafted T)) reducedWord = true :=
    containsStr_templated _ (containsStr_stripCrafted T hred)
  have hfk := @findKey_flip_failed F _ api.m_stats_by_text T (stripCrafted T) hnum hredT hno
    (hf ▸ hflip)
  rw [← hf, ← hn] at hfk
  have hinc : containsStr flipped increasedWord = true := by
    rw [hf]
    exact replaceStr_contains_after _ _ _ (by decide) hredT
  have hmem : ∀ v ∈ neg, ∃ x ∈ (extractVals (stripCrafted T) : List (NumVal F)),
      v = negVal x := by
    intro v hv
    rw [hn] at hv
    obtain ⟨x, hx, e⟩ := List.mem_map.mp hv
    exact ⟨x, hx, e.symm⟩
  have hk : findKey api.m_stats_by_text T (stripCrafted T) = some (key, val) := by
    rw [hfk]
    rcases hrep with h | ⟨h0, h⟩
    · rw [h]
    · rw [h0, h]
  have hshape : hasKey api.m_stats_by_text key = true ∧ (val = neg.dropLast ∨ val = neg.tail) ∧
      containsStr key increasedWord = true ∧
      (∃ (k : Nat) (n : Int), 1 ≤ k ∧
        (key = Nat.iterate (replaceLast '#' (numberStr n)) k flipped ∨
          key = Nat.iterate (replaceFirst '#' (numberStr n)) k flipped)) := by
    rcases hrep with h | ⟨_, h⟩
    · obtain ⟨e1, e2, last, _, k, e4, _, e6⟩ := reverseSearch_spec _ _ _ _ _ _ h
      refine ⟨e2, Or.inl e1, ?_, k, last.getInt, e4, Or.inl e6⟩
      rw [e6]
      exact containsStr_iterate _ _
        (fun s hs => containsStr_replaceLast '#' _ s _ (by decide) hs) k flipped hinc
    · obtain ⟨e1, e2, first, _, k, e4, _, e6⟩ := forwardSearch_spec _ _ _ _ _ _ h
      refine ⟨e2, Or.inr e1, ?_, k, first.getInt, e4, Or.inr e6⟩
      rw [e6]
      exact containsStr_iterate _ _
        (fun s hs => containsStr_replaceFirst '#' _ s _ (by decide) hs) k flipped hinc
  obtain ⟨s1, s2, s3, s4⟩ := hshape
  refine ⟨hk, s1, s2, ?_, ?_, s3, s4, ?_⟩
  · intro v hv
    rcases s2 with e | e
    · rw [e] at hv
      exact hmem v (List.dropLast_subset _ hv)
    · rw [e] at hv
      exact hmem v (List.mem_of_mem_tail hv)
  · intro n hmem1 hne
    obtain ⟨r1, r2⟩ := extractVals_int_range _ n hmem1
    exact negVal_int n (lt_of_le_of_ne r1 (Ne.symm hne)) r2
  · intro filter hsel
    exact ⟨selectEntry_none_value _ _ _ _ hsel,
      parseStat_matched api item stat T multiline key val filter hT hk hsel⟩

end FlipRepairClaim

/-- Witness of `parseStat_flip_persists`: on the line "5% reduced Y per 10 Z" the reverse
repair finds the key "#% increased Y per -10 Z" and the filter carries the value -5. -/
theorem parseStat_flip_persists_witness :
    parseStat (apiOf statsFlipRepair []) (itemOf []) "5% reduced Y per 10 Z".toList false =
      .ok (true, itemOf [filterX "#% increased Y per -10 Z" [.int (-5)]],
        apiOf statsFlipRepair []) :=
  ((parseStat_flip_persists (apiOf statsFlipRepair []) (itemOf [])
    "5% reduced Y per 10 Z".toList "5% reduced Y per 10 Z".toList false
    "#% increased Y per # Z".toList "#% increased Y per -10 Z".toList
    [.int (-5), .int (-10)] [.int (-5)]
    (Or.inl ⟨rfl, by decide⟩) (by decide) (by decide) (by decide) (by decide) (by decide)
    (by decide) (Or.inl (by decide))).2.2.2.2.2.2.2
    (filterX "#% increased Y per -10 Z" [.int (-5)]).2 (by decide)).2.trans (by decide)

/-- The forward repair after a failed flip: on the line "5% reduced Y per 10 Z" it finds the
key "-5% increased Y per # Z" and the filter carries the value -10. -/
theorem parseStat_flip_forward_example :
    parseStat (apiOf statsFlipForward []) (itemOf []) "5% reduced Y per 10 Z".toList false =
      .ok (true, itemOf [filterX "-5% increased Y per # Z" [.int (-10)]],
        apiOf statsFlipForward []) := by
  decide

/-- C31, evaluation at the failing input. The target "Y" of the pseudo rules is not a key of
the id dictionary, which is empty before the call; after the call of `parse` the id
dictionary holds the key "Y" with a `null`, and the other members are those before the
call. -/
theorem parse_adds_null_id :
    apiPseudoAbsent.m_stats_by_id = [] ∧
    stateOf (parse apiPseudoAbsent "Rarity: Rare\nN\nT\n---\n---\na 20".toList) =
      some { apiPseudoAbsent with m_stats_by_id := [("Y".toList, none)] } := by
  decide

end PTA
